import Mathlib

/-!
Verification development for the data mapper / shape transformer / slice
partitioner of `py-rcsb_db` (`SchemaDefDataPrep.py`, `SchemaDefReShape.py`).

The Python code is shallowly embedded: Python `dict`s become insertion-ordered
association lists (`Dict` below, mirroring Python's ordered-dict semantics:
updating an existing key keeps its position, inserting a new key appends),
exceptions become `Except String`, and the external schema-definition
accessors become structures of total functions.
-/

namespace RcsbDb

/-- Insertion-ordered association list mirroring a Python `dict`. -/
abbrev Dict (κ α : Type) := List (κ × α)

variable {κ α : Type}

/-- Python `d[k]` as an optional lookup (first matching key). -/
def dGet [DecidableEq κ] (d : Dict κ α) (k : κ) : Option α :=
  (d.find? (fun e => e.1 = k)).map (·.2)

/-- Python `d[k] = v`: update in place if the key exists, else append. -/
def dInsert [DecidableEq κ] (d : Dict κ α) (k : κ) (v : α) : Dict κ α :=
  match d with
  | [] => [(k, v)]
  | e :: es => if e.1 = k then (k, v) :: es else e :: dInsert es k v

/-- Python `k in d`. -/
def dContains [DecidableEq κ] (d : Dict κ α) (k : κ) : Bool :=
  (d.find? (fun e => e.1 = k)).isSome

/-- Python `d.keys()` as a list in insertion order. -/
def dKeys (d : Dict κ α) : List κ := d.map (·.1)

/-- Python `d.values()` as a list in insertion order. -/
def dValues (d : Dict κ α) : List α := d.map (·.2)

/-- Python `base.update(d)`: fold the entries of `d` into `base`. -/
def dUpdate [DecidableEq κ] (base d : Dict κ α) : Dict κ α :=
  d.foldl (fun b e => dInsert b e.1 e.2) base

/-- Extensional equality of dictionaries (same lookup at every key). -/
def DEquiv [DecidableEq κ] (d₁ d₂ : Dict κ α) : Prop := ∀ k, dGet d₁ k = dGet d₂ k

/-- A mapped cell value: raw string, parsed date, or split iterable list
(the three shapes a Python row value can take after mapping). -/
inductive CellVal : Type
  | s (v : String)
  | date (v : String)
  | list (vs : List String)
  deriving DecidableEq, Inhabited

/-- Python truthiness of a cell value (`if rv:`): empty strings and empty
lists are falsy. -/
def CellVal.truthy : CellVal → Bool
  | .s v => v ≠ ""
  | .date _ => true
  | .list vs => vs ≠ []

/-- A mapped row: attribute id (or name) to cell value, insertion ordered. -/
abbrev Row := Dict String CellVal

/-- A mapped record set keyed by table id (`schemaDataDictById`). -/
abbrev TableData := Dict String (List Row)

/-- Rename the keys of a row (`for atId in iRowD: oRowD[name(atId)] = ...`). -/
def renameRow (f : String → String) (r : Row) : Row :=
  r.foldl (fun o e => dInsert o (f e.1) e.2) []

/-- Cartesian product of a list of lists in `itertools.product` order
(rightmost factor varies fastest). -/
def listProd {β : Type} : List (List β) → List (List β)
  | [] => [[]]
  | l :: ls => l.flatMap (fun x => (listProd ls).map (fun rest => x :: rest))

/-! ## Embedding of `SchemaDefDataPrep.py` (the data mapper) -/

/-- A source category (`catObj`): an attribute-name-to-column-index map and a
list of raw string rows (`getAttributeIndexDict` / `getRowList`). -/
structure Category where
  attributeIndexDict : Dict String Nat
  rowList : List (List String)

/-- An input container: a name (`getName`) and named categories (`getObj`,
which returns `None` for a missing category). -/
structure Container where
  name : String
  objs : Dict String Category

/-- The filter flags derived from the `filterType` string by substring tests
(`'drop-empty-attributes' in filterType`, etc., lines 475-478 / 550-553). -/
structure Filters where
  dropEmpty : Bool
  dropEmptyTables : Bool
  skipMaxWidth : Bool
  assignDates : Bool
  convertIterables : Bool

/-- Schema-side table definition (`tObj`): the accessors of the external
schema-definition object used by the mapper, modelled as total functions
(a well-formed schema defines null default / width for every attribute). -/
structure TableDef where
  id : String
  getAttributeIdList : List String
  getMapAttributeDict : Dict String String
  nullValue : String → CellVal
  maxWidth : String → Nat
  isAttributeDateType : String → Bool
  isIterable : String → Bool
  getIterableSeparator : String → String
  getMapInstanceCategoryList : List String
  getMapInstanceAttributeIdList : String → List String
  getMapMergeIndexAttributes : String → List String
  getMapOtherAttributeIdList : List String
  getMapAttributeFunction : String → Option String
  getAttributeName : String → String

/-- Schema definition object (`self.__sD`) on the mapper side. -/
structure SchemaDef where
  getTableIdList : List String
  getTable : String → TableDef
  getTableName : String → String
  hasUnitCardinality : String → Bool
  getAttributeIdList : String → List String
  getAttributeNameList : String → List String
  getContentSelector : String → List (String × String × List String)

/-- The overflow accumulator `self.__overWrite`, keyed by
`(tableId, attributeId)`. -/
abbrev Overflow := Dict (String × String) Nat

/-- One overflow event: `self.__overWrite[tup] = max(old, lenVal)` with
first-event initialization (lines 521-525). -/
def overflowRecord (acc : Overflow) (k : String × String) (lenVal : Nat) : Overflow :=
  match dGet acc k with
  | some m => dInsert acc k (max m lenVal)
  | none => dInsert acc k lenVal

/-- Python `value.replace(":", " ", 1)`: replace the first colon by a space. -/
def replaceFirstColon (s : String) : String :=
  ⟨replaceAux s.data⟩
where
  replaceAux : List Char → List Char
    | [] => []
    | c :: cs => if c = ':' then ' ' :: cs else c :: replaceAux cs

/-- `__assignDateType` (lines 629-637): the value is first rebound to the
colon-normalized string, then parsed; on parse failure the REBOUND value is
returned.  The external `dateutil.parser.parse` is a parameter `parse`
returning `none` on failure. -/
def assignDateType (parse : String → Option String) (value : String) : CellVal :=
  let v := replaceFirstColon value
  match parse v with
  | some d => CellVal.date d
  | none => CellVal.s v

/-- The raw-value emptiness test `(lenVal == 0) or (val == '?') or (val == '.')`. -/
def isEmptyVal (val : String) : Bool :=
  val.length == 0 || val == "?" || val == "."

/-- Python `val[:maxW]`: the first `n` characters (over the character list,
which is what Python string slicing does). -/
def strTake (s : String) (n : Nat) : String := ⟨s.data.take n⟩

/-- The per-attribute extraction pipeline shared by `__mapInstanceCategory`
(lines 499-533) and `__mapInstanceCategoryList` (lines 590-616): returns the
assigned cell (or `none` when the attribute is skipped, matching both the
explicit `continue`s and the caught per-attribute exceptions) together with
the overflow length event (only `__mapInstanceCategory` records it; the list
variant merely logs it). -/
def extractCellW (parse : String → Option String) (f : Filters) (tObj : TableDef)
    (cat : Category) (row : List String) (atId : String) : Option CellVal × Option Nat :=
  (dGet tObj.getMapAttributeDict atId).elim (none, none) (fun atName =>
    (dGet cat.attributeIndexDict atName).elim (none, none) (fun idx =>
      (row[idx]?).elim (none, none) (fun val =>
        let maxW := if f.skipMaxWidth then 0 else tObj.maxWidth atId
        if f.dropEmpty && isEmptyVal val then (none, none)
        else if f.assignDates && tObj.isAttributeDateType atId && !(isEmptyVal val) then
          (some (assignDateType parse val), none)
        else if f.convertIterables && tObj.isIterable atId && !(isEmptyVal val) then
          (some (CellVal.list ((val.splitOn (tObj.getIterableSeparator atId)).map
            (fun v => v.trim))), none)
        else if maxW > 0 then
          (some (if val ≠ "?" && val ≠ "." then CellVal.s (strTake val maxW)
                 else tObj.nullValue atId),
           if val.length > maxW then some val.length else none)
        else
          (some (if val ≠ "?" && val ≠ "." then CellVal.s val
                 else tObj.nullValue atId), none))))

/-- Row initialization (lines 495-497 / 576-578): every schema attribute is
preset to its null default unless drop-empty-attributes is active. -/
def initRow (f : Filters) (tObj : TableDef) : Row :=
  if f.dropEmpty then []
  else tObj.getAttributeIdList.foldl (fun d atId => dInsert d atId (tObj.nullValue atId)) []

/-- Extraction of one source row into a schema row with overflow recording
(the row body of `__mapInstanceCategory`). -/
def mapRowSingle (parse : String → Option String) (f : Filters) (tObj : TableDef)
    (categoryName : String) (cat : Category) (row : List String) (acc : Overflow) :
    Row × Overflow :=
  (tObj.getMapInstanceAttributeIdList categoryName).foldl
    (fun (st : Row × Overflow) atId =>
      (((extractCellW parse f tObj cat row atId).1).elim st.1
        (fun v => dInsert st.1 atId v),
       ((extractCellW parse f tObj cat row atId).2).elim st.2
        (fun l => overflowRecord st.2 (tObj.id, atId) l)))
    (initRow f tObj, acc)

/-- `__mapInstanceCategory` (lines 465-537): extract all rows of one source
category, threading the overflow accumulator. -/
def mapInstanceCategory (parse : String → Option String) (f : Filters) (tObj : TableDef)
    (categoryName : String) (container : Container) (acc : Overflow) :
    List Row × Overflow :=
  match dGet container.objs categoryName with
  | none => ([], acc)
  | some cat =>
    cat.rowList.foldl
      (fun (st : List Row × Overflow) row =>
        (st.1 ++ [(mapRowSingle parse f tObj categoryName cat row st.2).1],
         (mapRowSingle parse f tObj categoryName cat row st.2).2))
      ([], acc)

/-- Extraction of one source row without overflow recording
(the row body of `__mapInstanceCategoryList`, which only logs overflows). -/
def mapRowMulti (parse : String → Option String) (f : Filters) (tObj : TableDef)
    (categoryName : String) (cat : Category) (row : List String) : Row :=
  (tObj.getMapInstanceAttributeIdList categoryName).foldl
    (fun d atId =>
      ((extractCellW parse f tObj cat row atId).1).elim d
        (fun v => dInsert d atId v))
    (initRow f tObj)

/-- The merge key of a row (lines 581-588): raw values at the category's
declared merge-index attribute names; a missing attribute or index is a
caught exception that silently shortens the key. -/
def mergeKey (tObj : TableDef) (categoryName : String) (cat : Category)
    (row : List String) : List String :=
  (tObj.getMapMergeIndexAttributes categoryName).foldl
    (fun mk atName =>
      match (dGet cat.attributeIndexDict atName).bind (fun i => row[i]?) with
      | some v => mk ++ [v]
      | none => mk)
    []

/-- `__mapInstanceCategoryList` (lines 539-627): extract and merge rows from
several source categories keyed by merge key, via `mD[tk].update(d)`. -/
def mapInstanceCategoryList (parse : String → Option String) (f : Filters)
    (tObj : TableDef) (categoryNameList : List String) (container : Container) :
    List Row :=
  let mD : Dict (List String) Row :=
    categoryNameList.foldl
      (fun mD categoryName =>
        match dGet container.objs categoryName with
        | none => mD
        | some cat =>
          cat.rowList.foldl
            (fun mD row =>
              let d := mapRowMulti parse f tObj categoryName cat row
              let tk := mergeKey tObj categoryName cat row
              dInsert mD tk (dUpdate ((dGet mD tk).getD []) d))
            mD)
      []
  dValues mD

/-- `__evalMapFunction` (lines 413-420): only `datablockid()` is implemented;
it assigns the container name to the attribute in every row. -/
def evalMapFunction (container : Container) (rows : List Row) (atId : String)
    (fName : String) : List Row :=
  if fName == "datablockid()" then
    rows.map (fun r => dInsert r atId (CellVal.s container.name))
  else rows

/-- The mutable loop state of `__mapData`: the Python local `rowList`
persists across tables and containers within one call and is unbound until
the first table with a mapped category is processed. -/
structure MapState where
  tdd : TableData
  rowListOpt : Option (List Row)
  acc : Overflow

/-- One table step of `__mapData` (lines 434-461).  A table with zero mapped
source categories leaves `rowList` untouched: in Python this raises
`NameError` when no table was processed before, and otherwise silently
reuses (and aliases) the previous table's row list; the model reports an
error in both cases, which is the only divergence and is unreachable for
schemas in which every table has a mapped category. -/
def mapDataStep (parse : String → Option String) (f : Filters)
    (sD : SchemaDef) (excludeIds : List String) (container : Container)
    (st : MapState) (tableId : String) : Except String MapState :=
  if excludeIds.contains tableId then Except.ok st
  else
    let tdd := if dContains st.tdd tableId then st.tdd else dInsert st.tdd tableId []
    let tObj := sD.getTable tableId
    let cats := tObj.getMapInstanceCategoryList
    let stepped : Option (List Row) × Overflow :=
      if cats.length == 1 then
        match cats with
        | c :: _ =>
          let (rs, acc') := mapInstanceCategory parse f tObj c container st.acc
          (some rs, acc')
        | [] => (st.rowListOpt, st.acc)
      else if cats.length ≥ 1 then
        (some (mapInstanceCategoryList parse f tObj cats container), st.acc)
      else (st.rowListOpt, st.acc)
    match stepped.1 with
    | none => Except.error "NameError: rowList"
    | some rows =>
      if cats.length == 0 then Except.error "stale rowList reuse"
      else
        let rows' := tObj.getMapOtherAttributeIdList.foldl
          (fun rs atId =>
            evalMapFunction container rs atId ((tObj.getMapAttributeFunction atId).getD ""))
          rows
        Except.ok
          { tdd := dInsert tdd tableId (((dGet tdd tableId).getD []) ++ rows')
            rowListOpt := some rows'
            acc := stepped.2 }

/-- `__mapData` (lines 422-463): map every container against every table,
appending rows into the shared `tableDataDict`. -/
def mapData (parse : String → Option String) (f : Filters) (sD : SchemaDef)
    (excludeIds : List String) (containers : List Container) (tdd0 : TableData)
    (acc0 : Overflow) : Except String (TableData × Overflow) := do
  let st ← containers.foldlM
    (fun st container =>
      sD.getTableIdList.foldlM (fun st tId => mapDataStep parse f sD excludeIds container st tId) st)
    ({ tdd := tdd0, rowListOpt := none, acc := acc0 } : MapState)
  Except.ok (st.tdd, st.acc)

/-- `__testContentSelectors` (lines 250-283): every selector must name a
category present with rows whose selected attribute value is always in the
allowed set; any exception (e.g. missing category) yields `False`. -/
def testContentSelectors (sD : SchemaDef) (contentSelectors : List String)
    (container : Container) : Bool :=
  if contentSelectors.isEmpty then true
  else
    contentSelectors.all (fun cs =>
      (sD.getContentSelector cs).all (fun csD =>
        match dGet container.objs csD.1 with
        | none => false
        | some catObj =>
          if catObj.rowList.length > 0 then
            catObj.rowList.all (fun row =>
              match dGet catObj.attributeIndexDict csD.2.1 with
              | none => false
              | some idx =>
                match row[idx]? with
                | none => false
                | some v => csD.2.2.contains v)
          else false))

/-- `drop-empty-tables` post-filtering (lines 199-204 / 235-240). -/
def dropEmptyTablesFilter (f : Filters) (tdd : TableData) : TableData :=
  if f.dropEmptyTables then tdd.filter (fun e => e.2.length > 0) else tdd

/-- `__process` (lines 213-248): filter containers by content selectors, map
them, post-filter empty tables; the container-name list covers all input
containers. -/
def processInternal (parse : String → Option String) (f : Filters) (sD : SchemaDef)
    (excludeIds : List String) (contentSelectors : List String)
    (containers : List Container) (acc0 : Overflow) :
    Except String (TableData × List String × Overflow) := do
  let cL := containers.filter (testContentSelectors sD contentSelectors)
  let (tdd, acc) ← mapData parse f sD excludeIds cL [] acc0
  Except.ok (dropEmptyTablesFilter f tdd, containers.map (·.name), acc)

/-- `__fetch` (lines 175-211): read each path, filter containers, accumulate
all rows into one shared `tableDataDict`; `readFile` models `ioObj.readFile`. -/
def fetchInternal (readFile : String → List Container) (parse : String → Option String)
    (f : Filters) (sD : SchemaDef) (excludeIds : List String)
    (contentSelectors : List String) (paths : List String) (acc0 : Overflow) :
    Except String (TableData × List String × Overflow) := do
  let st ← paths.foldlM
    (fun (st : TableData × List String × Overflow) lPath => do
      let myContainerList := readFile lPath
      let cL := myContainerList.filter (testContentSelectors sD contentSelectors)
      let (tdd, acc) ← mapData parse f sD excludeIds cL st.1 st.2.2
      Except.ok (tdd, st.2.1 ++ myContainerList.map (·.name), acc))
    ([], [], acc0)
  Except.ok (dropEmptyTablesFilter f st.1, st.2.1, st.2.2)

/-- A value of the transformed (styled) output dictionary: a list of rows, a
cardinality-collapsed single row, a columnwise layout, an
`attributes`/`data` layout, or a plain string (the hidden document fields). -/
inductive OutVal : Type
  | rows (rs : List Row)
  | one (r : Row)
  | cols (c : Dict String (List CellVal))
  | noName (attrs : List String) (data : List (List CellVal))
  | str (v : String)
  deriving DecidableEq, Inhabited

/-- Identity pass-through of a by-id record set into the output type (the
`rowwise_by_id`, unknown-style and exception fallbacks all return the input
mapping unchanged; the wrapper only adjusts the value type). -/
def passthroughOut (tdd : TableData) : Dict String OutVal :=
  tdd.map (fun e => (e.1, OutVal.rows e.2))

/-- Unit-cardinality collapse (`if unitCard and len(iRowDList) == 1`). -/
def collapseCard (unitCard : Bool) (l : List Row) : OutVal :=
  match unitCard, l with
  | true, [r] => OutVal.one r
  | _, l => OutVal.rows l

/-- The `rowwise_no_name` reshape body, which indexes every row at every
declared attribute id and raises `KeyError` (returns `none` here) when one
is missing; the caller catches this and falls back to the input. -/
def rowwiseNoNameBody (attrIds : List String) (attrNames : List String)
    (rows : List Row) : Option OutVal := do
  let data ← rows.mapM (fun r => attrIds.mapM (fun atId => dGet r atId))
  some (OutVal.noName attrNames data)

/-- The `columnwise_by_name` reshape body (shared shape of lines 349-361 and
`__shapeColumnwise`). -/
def columnwiseBody (rename : String → String) (rows : List Row) : OutVal :=
  OutVal.cols (rows.foldl
    (fun colD r => r.foldl
      (fun colD e =>
        dInsert colD (rename e.1) (((dGet colD (rename e.1)).getD []) ++ [e.2]))
      colD)
    [])

/-- `__transformTableData` of `SchemaDefDataPrep` (lines 285-404): dispatch
on the style string; `rowwise_no_name` failures (and any unknown style)
fall back to the unchanged input mapping.  `logSize` only logs. -/
def transformTableData (sD : SchemaDef) (styleType : String) (tdd : TableData) :
    Dict String OutVal :=
  if styleType == "rowwise_by_name" then
    tdd.foldl (fun rD e =>
      dInsert rD (sD.getTableName e.1)
        (OutVal.rows (e.2.map (renameRow ((sD.getTable e.1).getAttributeName))))) []
  else if styleType == "rowwise_by_name_with_cardinality" then
    tdd.foldl (fun rD e =>
      dInsert rD (sD.getTableName e.1)
        (collapseCard (sD.hasUnitCardinality e.1)
          (e.2.map (renameRow ((sD.getTable e.1).getAttributeName))))) []
  else if styleType == "columnwise_by_name" then
    tdd.foldl (fun rD e =>
      dInsert rD (sD.getTableName e.1)
        (columnwiseBody ((sD.getTable e.1).getAttributeName) e.2)) []
  else if styleType == "rowwise_no_name" then
    match tdd.foldlM (fun rD e =>
      (rowwiseNoNameBody (sD.getAttributeIdList e.1) (sD.getAttributeNameList e.1)
        e.2).map (fun ov => dInsert rD (sD.getTableName e.1) ov)) [] with
    | some rD => rD
    | none => passthroughOut tdd
  else passthroughOut tdd

/-- `processDocuments` (lines 146-173): map each container separately, style
it, and add the hidden `__CONTAINER_NAME__` field. -/
def processDocuments (parse : String → Option String) (f : Filters) (sD : SchemaDef)
    (excludeIds : List String) (contentSelectors : List String) (styleType : String)
    (containers : List Container) (acc0 : Overflow) :
    Except String (List (Dict String OutVal) × List String × Overflow) :=
  containers.foldlM
    (fun (st : List (Dict String OutVal) × List String × Overflow) container => do
      let (tdd, cnList, acc) ←
        processInternal parse f sD excludeIds contentSelectors [container] st.2.2
      let td := transformTableData sD styleType tdd
      Except.ok (st.1 ++ [dInsert td "__CONTAINER_NAME__" (OutVal.str container.name)],
        st.2.1 ++ cnList, acc))
    ([], [], acc0)

/-- `fetchDocuments` (lines 93-120): map each path separately, style it, and
add the hidden `__INPUT_PATH__` field. -/
def fetchDocuments (readFile : String → List Container) (parse : String → Option String)
    (f : Filters) (sD : SchemaDef) (excludeIds : List String)
    (contentSelectors : List String) (styleType : String) (paths : List String)
    (acc0 : Overflow) :
    Except String (List (Dict String OutVal) × List String × Overflow) :=
  paths.foldlM
    (fun (st : List (Dict String OutVal) × List String × Overflow) inputPath => do
      let (tdd, cnList, acc) ←
        fetchInternal readFile parse f sD excludeIds contentSelectors [inputPath] st.2.2
      let td := transformTableData sD styleType tdd
      Except.ok (st.1 ++ [dInsert td "__INPUT_PATH__" (OutVal.str inputPath)],
        st.2.1 ++ cnList, acc))
    ([], [], acc0)

/-! ## Embedding of `SchemaDefReShape.py` (shape transformer and slicer) -/

/-- A parent-value filter (`getSliceParentFilters` entry with keys
`CATEGORY`, `ATTRIBUTE`, `VALUES`). -/
structure PFilter where
  category : String
  attributeId : String
  values : List CellVal

/-- A parent item is a `(CATEGORY, ATTRIBUTE)` pair. -/
abbrev ParentItem := String × String

/-- The slice index: `schemaId -> parentItem -> [childAttributeId]`. -/
abbrev SliceIndex := Dict String (Dict ParentItem (List String))

/-- The slice-filter-dependent schema accessors, evaluated at one fixed
slice filter name (`getSliceParentItems`, `getSliceParentFilters`,
`getSliceIndex`, `getSliceExtraSchemaIds`, `hasSliceUnitCardinality`);
`isSliceExtra` is membership in `extraIds` (one underlying schema source). -/
structure SliceDef where
  parentItems : List ParentItem
  parentFilters : List PFilter
  sliceIndex : SliceIndex
  extraIds : List String
  hasSliceUnitCard : String → Bool

/-- `isSliceExtra` for a table id. -/
def SliceDef.isSliceExtra (sd : SliceDef) (schemaId : String) : Bool :=
  sd.extraIds.contains schemaId

/-- The table-level schema accessors of `SchemaDefReShape`. -/
structure SchemaAccess where
  schemaName : String → String
  attributeName : String → String → String
  isMandatory : String → Bool
  hasUnitCardinality : String → Bool
  attributeIdList : String → List String
  attributeNameList : String → List String

/-- `SliceValues.__testFilter` (lines 56-68): a row passes only when every
filter names the row's own category AND the filtered attribute is present
with an allowed value. -/
def testFilter (rowD : Row) (catId : String) (filters : List PFilter) : Bool :=
  filters.all (fun flt =>
    decide (catId = flt.category) &&
    (match dGet rowD flt.attributeId with
     | some v => flt.values.contains v
     | none => false))

/-- One enumerated slice tuple: `(((catId, atId), value), ...)`. -/
abbrev SliceTuple := List (ParentItem × CellVal)

/-- The value collection of `SliceValues.__init__` (lines 35-53): per parent
item, the values of filtered rows (with multiplicity, in row order); a row
missing the parent attribute raises `KeyError`, which propagates out of the
constructor.  The data is the cartesian product in parent-item order. -/
def sliceParentVals (data : TableData) (sd : SliceDef) :
    Except String (List SliceTuple) :=
  (sd.parentItems.foldlM
    (fun (vD : Dict ParentItem (List (ParentItem × CellVal))) sp =>
      (match dGet data sp.1 with
        | none => Except.ok []
        | some rows =>
          rows.foldlM
            (fun vs rowD =>
              if testFilter rowD sp.1 sd.parentFilters then
                match dGet rowD sp.2 with
                | some v => Except.ok (vs ++ [(sp, v)])
                | none => Except.error "KeyError: parent attribute"
              else Except.ok vs)
            []) >>= fun vals =>
      Except.ok (dInsert vD sp vals))
    []) >>= fun vD =>
  Except.ok (listProd (dValues vD))

/-- `__inSlice` (lines 171-199): the row belongs to the slice when the table
has a slice-index entry and, for every parent value, the parent item is in
that entry and some listed child attribute of the row equals the value. -/
def inSlice (schemaId : String) (sliceIndex : SliceIndex) (rowD : Row)
    (parentVals : SliceTuple) : Bool :=
  match dGet sliceIndex schemaId with
  | none => false
  | some mD =>
    parentVals.all (fun pv =>
      match dGet mD pv.1 with
      | none => false
      | some cAtL => cAtL.any (fun cAtId => dGet rowD cAtId == some pv.2))

/-- The shared per-table body of the naive slicers: keep the rows in the
slice (or all rows for a slice-extra table) and rename their attributes. -/
def sliceTableRows (sa : SchemaAccess) (sd : SliceDef) (schemaId : String)
    (rows : List Row) (sliceValues : SliceTuple) : List Row :=
  (rows.filter (fun r =>
      sd.isSliceExtra schemaId || inSlice schemaId sd.sliceIndex r sliceValues)).map
    (renameRow (sa.attributeName schemaId))

/-- `__sliceRowwiseByName` (lines 235-262). -/
def sliceRowwiseByName (sa : SchemaAccess) (sd : SliceDef) (data : TableData)
    (sliceValues : SliceTuple) : Dict String OutVal :=
  data.foldl
    (fun rD e =>
      if !(dContains sd.sliceIndex e.1) && !(sd.isSliceExtra e.1) then rD
      else
        let oRowDList := sliceTableRows sa sd e.1 e.2 sliceValues
        if oRowDList.length < 1 && !(sa.isMandatory e.1) then rD
        else dInsert rD (sa.schemaName e.1) (OutVal.rows oRowDList))
    []

/-- `__sliceRowwiseByNameWithCard` (lines 201-233): as above with the
slice-unit-cardinality collapse of a single row. -/
def sliceRowwiseByNameWithCard (sa : SchemaAccess) (sd : SliceDef) (data : TableData)
    (sliceValues : SliceTuple) : Dict String OutVal :=
  data.foldl
    (fun rD e =>
      if !(dContains sd.sliceIndex e.1) && !(sd.isSliceExtra e.1) then rD
      else
        let oRowDList := sliceTableRows sa sd e.1 e.2 sliceValues
        if oRowDList.length < 1 && !(sa.isMandatory e.1) then rD
        else dInsert rD (sa.schemaName e.1)
          (collapseCard (sd.hasSliceUnitCard e.1) oRowDList))
    []

/-- `__sliceColumnwise` (lines 264-291). -/
def sliceColumnwise (sa : SchemaAccess) (sd : SliceDef) (data : TableData)
    (sliceValues : SliceTuple) : Dict String OutVal :=
  data.foldl
    (fun rD e =>
      if !(dContains sd.sliceIndex e.1) && !(sd.isSliceExtra e.1) then rD
      else
        let kept := e.2.filter (fun r =>
          sd.isSliceExtra e.1 || inSlice e.1 sd.sliceIndex r sliceValues)
        let colD := columnwiseBody (sa.attributeName e.1) kept
        let n := match colD with
          | OutVal.cols c => c.length
          | _ => 0
        if n < 1 && !(sa.isMandatory e.1) then rD
        else dInsert rD (sa.schemaName e.1) colD)
    []

/-- `__shapeRowwiseByName` (lines 358-371). -/
def shapeRowwiseByName (sa : SchemaAccess) (data : TableData) : Dict String OutVal :=
  data.foldl
    (fun rD e =>
      dInsert rD (sa.schemaName e.1)
        (OutVal.rows (e.2.map (renameRow (sa.attributeName e.1)))))
    []

/-- `__shapeRowwiseByNameWithCard` (lines 373-395). -/
def shapeRowwiseByNameWithCard (sa : SchemaAccess) (data : TableData) :
    Dict String OutVal :=
  data.foldl
    (fun rD e =>
      dInsert rD (sa.schemaName e.1)
        (collapseCard (sa.hasUnitCardinality e.1)
          (e.2.map (renameRow (sa.attributeName e.1)))))
    []

/-- `__shapeColumnwise` (lines 397-411). -/
def shapeColumnwise (sa : SchemaAccess) (data : TableData) : Dict String OutVal :=
  data.foldl
    (fun rD e =>
      dInsert rD (sa.schemaName e.1) (columnwiseBody (sa.attributeName e.1) e.2))
    []

/-- `__shapeRowwiseNoName` (lines 413-430): indexes every row at every
declared attribute id; a missing id raises `KeyError` (`none` here), caught
only by the calling reshape dispatcher. -/
def shapeRowwiseNoName (sa : SchemaAccess) (data : TableData) :
    Option (Dict String OutVal) :=
  data.foldlM
    (fun rD e =>
      (rowwiseNoNameBody (sa.attributeIdList e.1) (sa.attributeNameList e.1) e.2).map
        (fun ov => dInsert rD (sa.schemaName e.1) ov))
    []

/-- `__reshapeSchemaData` (lines 325-356): style dispatch with catch-all
fallback to the unchanged input. -/
def reshapeSchemaData (sa : SchemaAccess) (data : TableData) (styleType : String) :
    Dict String OutVal :=
  if styleType == "rowwise_by_name" then shapeRowwiseByName sa data
  else if styleType == "rowwise_by_name_with_cardinality" then
    shapeRowwiseByNameWithCard sa data
  else if styleType == "columnwise_by_name" then shapeColumnwise sa data
  else if styleType == "rowwise_no_name" then
    match shapeRowwiseNoName sa data with
    | some rD => rD
    | none => passthroughOut data
  else passthroughOut data

/-- `applyShape` (lines 103-106). -/
def applyShape (sa : SchemaAccess) (data : TableData) (styleType : String) :
    Dict String OutVal :=
  reshapeSchemaData sa data styleType

/-- `__reshapeSlicedSchemaData` (lines 138-169): style dispatch for one
slice value; note that `rowwise_no_name` calls the UNSLICED shaper (line
159), and its `KeyError` is caught with fallback to the unchanged input. -/
def reshapeSlicedSchemaData (sa : SchemaAccess) (sd : SliceDef) (data : TableData)
    (sliceValues : SliceTuple) (styleType : String) : Dict String OutVal :=
  if styleType == "rowwise_by_name" then sliceRowwiseByName sa sd data sliceValues
  else if styleType == "rowwise_by_name_with_cardinality" then
    sliceRowwiseByNameWithCard sa sd data sliceValues
  else if styleType == "columnwise_by_name" then sliceColumnwise sa sd data sliceValues
  else if styleType == "rowwise_no_name" then
    match shapeRowwiseNoName sa data with
    | some rD => rD
    | none => passthroughOut data
  else passthroughOut data

/-! ### The one-pass partitioner `__sliceRowwiseByNameWithCardOnePass` -/

/-- The per-partition accumulator `retD`: partition key (a single parent
value) to the partition's output dictionary. -/
abbrev RetD := Dict CellVal (Dict String OutVal)

/-- `singleKeyAtD` construction (lines 469-482): for each parent item of the
first enumerated tuple and each slice-index entry whose table occurs in the
data and contains that parent item, extend the table's child-attribute
list (`setdefault(schemaId, []).extend(...)`).  `sfAtD` is only used for an
error log and is omitted. -/
def buildSingleKeyAtD (data : TableData) (sliceIndex : SliceIndex)
    (pvTupL : SliceTuple) : Dict String (List String) :=
  pvTupL.foldl
    (fun skd pvTup =>
      sliceIndex.foldl
        (fun skd e =>
          if dContains data e.1 then
            match dGet e.2 pvTup.1 with
            | some atL => dInsert skd e.1 (((dGet skd e.1).getD []) ++ atL)
            | none => skd
          else skd)
        skd)
    []

/-- The slice-extra replication dictionary `rD` (lines 487-507): full
renamed content per extra table, with the mandatory/empty drop and the
slice-unit-cardinality collapse; a slice-extra table missing from the data
raises `KeyError` (line 491). -/
def onePassExtrasDict (sa : SchemaAccess) (sd : SliceDef) (data : TableData) :
    Except String (Dict String OutVal) :=
  sd.extraIds.foldlM
    (fun rD schemaId =>
      match dGet data schemaId with
      | none => Except.error "KeyError: slice extra not in data"
      | some iRowDList =>
        if (iRowDList.map (renameRow (sa.attributeName schemaId))).length < 1
            && !(sa.isMandatory schemaId) then Except.ok rD
        else Except.ok (dInsert rD (sa.schemaName schemaId)
          (collapseCard (sd.hasSliceUnitCard schemaId)
            (iRowDList.map (renameRow (sa.attributeName schemaId))))))
    []

/-- The row-splitting step for one child value `rv` (lines 533-540):
falsy values are skipped; a value with no partition raises `KeyError`;
unit-cardinality tables assign the row object, others append via
`setdefault` (appending onto a non-list raises `AttributeError`). -/
def splitRowInsert (uFlag : Bool) (objName : String) (oRowD : Row) (retD : RetD)
    (rv : Option CellVal) : Except String RetD :=
  match rv with
  | none => Except.ok retD
  | some v =>
    if v.truthy then
      match dGet retD v with
      | none => Except.error "KeyError: unenumerated child value"
      | some cur =>
        if uFlag then Except.ok (dInsert retD v (dInsert cur objName (OutVal.one oRowD)))
        else
          match dGet cur objName with
          | none =>
            Except.ok (dInsert retD v (dInsert cur objName (OutVal.rows [oRowD])))
          | some (OutVal.rows rs) =>
            Except.ok (dInsert retD v (dInsert cur objName (OutVal.rows (rs ++ [oRowD]))))
          | some _ => Except.error "AttributeError: append on non-list"
    else Except.ok retD

/-- The distinct child values of one row over the child-attribute list
(`set([iRowD[at] if at in iRowD else None for at in atL])`).  Python's set
iteration order is arbitrary; all per-value effects commute across distinct
values, so the first-occurrence order of `dedup` is a sound determinization. -/
def rvSet (atL : List String) (r : Row) : List (Option CellVal) :=
  (atL.map (fun a => dGet r a)).dedup

/-- Splitting all rows of one table by child value (lines 527-540). -/
def splitRows (uFlag : Bool) (objName : String) (rename : String → String)
    (atL : List String) (rows : List Row) (retD : RetD) : Except String RetD :=
  rows.foldlM
    (fun retD r =>
      (rvSet atL r).foldlM (splitRowInsert uFlag objName (renameRow rename r)) retD)
    retD

/-- Splitting every single-parent-key table (lines 519-540). -/
def splitTables (sa : SchemaAccess) (sd : SliceDef) (data : TableData)
    (skd : Dict String (List String)) (retD : RetD) : Except String RetD :=
  skd.foldlM
    (fun retD e =>
      match dGet data e.1 with
      | none => Except.error "KeyError: split table not in data"
      | some rows =>
        splitRows (sd.hasSliceUnitCard e.1) (sa.schemaName e.1)
          (sa.attributeName e.1) e.2 rows retD)
    retD

/-- `__sliceRowwiseByNameWithCardOnePass` (lines 434-552).  The value-to-
parent dictionary `pvD` is built but never read and is omitted.  The
re-instantiated `SliceValues` (line 466) yields the same data; `next` on an
empty enumeration raises `StopIteration`, which propagates (there is no
enclosing `try`). -/
def sliceRowwiseByNameWithCardOnePass (sa : SchemaAccess) (sd : SliceDef)
    (data : TableData) : Except String (List (Dict String OutVal)) :=
  sliceParentVals data sd >>= fun svd =>
  sliceParentVals data sd >>= fun svd2 =>
  (match svd2 with
    | t :: _ => Except.ok t
    | [] => Except.error "StopIteration") >>= fun pvTupL =>
  (if sd.extraIds.isEmpty then
     Except.ok ((svd.flatMap (fun tup => tup.map (·.2))).foldl
       (fun d v => dInsert d v []) [])
   else
     onePassExtrasDict sa sd data >>= fun rD =>
       Except.ok ((svd.flatMap (fun tup => tup.map (·.2))).foldl
         (fun m v => dInsert m v rD)
         ((svd.flatMap (fun tup => tup.map (·.2))).foldl
           (fun d v => dInsert d v []) []))) >>= fun retD1 =>
  splitTables sa sd data (buildSingleKeyAtD data sd.sliceIndex pvTupL) retD1 >>=
    fun retD2 =>
  Except.ok (dValues retD2)

/-- `applySlicedShape` (lines 108-136): the `SliceValues` construction at
line 118 precedes the branch, so an enumeration failure propagates on both
paths; only the naive per-combination reshape is exception-guarded. -/
def applySlicedShape (sa : SchemaAccess) (sliceFilter : Option SliceDef)
    (data : TableData) (styleType : String) :
    Except String (List (Dict String OutVal)) :=
  match sliceFilter with
  | none => Except.ok [reshapeSchemaData sa data styleType]
  | some sd => do
    let svd ← sliceParentVals data sd
    if styleType == "rowwise_by_name_with_cardinality" then
      sliceRowwiseByNameWithCardOnePass sa sd data
    else
      Except.ok (svd.map (fun sv => reshapeSlicedSchemaData sa sd data sv styleType))

/-! ### Reference-level model of the slice-extra replication (for the
`copy.copy` aliasing behaviour, lines 486-509).

In Python each extra table's renamed row list is ONE allocated list object;
`copy.copy(rD)` gives every partition a fresh dictionary whose values are
references to those same lists.  The model makes the heap explicit: a store
of row lists, and per-partition dictionaries holding indices into it. -/

/-- Heap-and-partitions state: `store` holds the allocated row lists;
each partition maps a table name to a `(collapsed, ref)` pair (`collapsed`
records the unit-cardinality collapse, in which case the stored singleton
list's row is the assigned object). -/
structure ExtraAlloc where
  store : List (List Row)
  parts : List (Dict String (Bool × Nat))
  deriving DecidableEq

/-- Allocation pass mirroring lines 487-509 with `copy.copy` semantics: one
allocation per extra table, shared by reference across all partitions. -/
def onePassExtrasAlias (sa : SchemaAccess) (sd : SliceDef) (data : TableData)
    (pVals : List CellVal) : Except String ExtraAlloc := do
  let st ← sd.extraIds.foldlM
    (fun (st : List (List Row) × Dict String (Bool × Nat)) schemaId => do
      match dGet data schemaId with
      | none => Except.error "KeyError: slice extra not in data"
      | some iRowDList =>
        let oRowDList := iRowDList.map (renameRow (sa.attributeName schemaId))
        if oRowDList.length < 1 && !(sa.isMandatory schemaId) then Except.ok st
        else
          Except.ok (st.1 ++ [oRowDList],
            dInsert st.2 (sa.schemaName schemaId)
              (sd.hasSliceUnitCard schemaId && oRowDList.length == 1, st.1.length)))
    ([], [])
  Except.ok { store := st.1, parts := (pVals.foldl (fun d v => dInsert d v ()) []).map (fun _ => st.2) }

/-- Mutation of the shared heap at one reference (e.g. appending a row to a
partition's copy of a slice-extra table's row list). -/
def mutateStore (al : ExtraAlloc) (ref : Nat) (f : List Row → List Row) : ExtraAlloc :=
  { al with store := al.store.set ref (f (al.store.getD ref [])) }

/-- What one partition observes for a table name: the (possibly collapsed)
content of the referenced store list. -/
def viewPart (al : ExtraAlloc) (i : Nat) (objName : String) : Option OutVal :=
  (dGet (al.parts.getD i []) objName).map
    (fun e =>
      if e.1 then
        match al.store.getD e.2 [] with
        | [r] => OutVal.one r
        | l => OutVal.rows l
      else OutVal.rows (al.store.getD e.2 []))

deriving instance DecidableEq for Except

/-! ## Concrete fixtures used by witnesses and counterexamples -/

/-- A date parser that always fails (stand-in for `dateutil.parser.parse`
on unparsable input). -/
def parseNone : String → Option String := fun _ => none

/-- Split a character list on a separator character. -/
def splitOnChar (c : Char) : List Char → List (List Char)
  | [] => [[]]
  | x :: xs =>
    if x = c then [] :: splitOnChar c xs
    else
      match splitOnChar c xs with
      | [] => [[x]]
      | g :: gs => (x :: g) :: gs

/-- Modelled from the spec: the external `dateutil.parser.parse`, which the
spec says accepts `yyyy-mm-dd` and (after colon normalization)
`yyyy-mm-dd hh:mm:ss`; everything else fails. -/
def parseDateModel (s : String) : Option String :=
  let isDigits := fun (t : List Char) => t.length > 0 && t.all Char.isDigit
  let isYmd := fun (t : List Char) =>
    match splitOnChar '-' t with
    | [y, m, d] => isDigits y && y.length == 4 && isDigits m && m.length == 2 &&
        isDigits d && d.length == 2
    | _ => false
  let isHms := fun (t : List Char) =>
    match splitOnChar ':' t with
    | [h, m, sec] => isDigits h && h.length == 2 && isDigits m && m.length == 2 &&
        isDigits sec && sec.length == 2
    | _ => false
  match splitOnChar ' ' s.data with
  | [d] => if isYmd d then some s else none
  | [d, t] => if isYmd d && isHms t then some s else none
  | _ => none

/-- All filter flags off (`filterType="none"`). -/
def filtersNone : Filters := ⟨false, false, false, false, false⟩

/-- Only `drop-empty-attributes` active. -/
def filtersDropEmpty : Filters := ⟨true, false, false, false, false⟩

/-- A two-source-category merged table: categories `catA` (maps A1, A2, key
`id`) and `catB` (maps A2, A3, key `entity_id`). -/
def tObjMerge : TableDef where
  id := "T"
  getAttributeIdList := ["A1", "A2", "A3"]
  getMapAttributeDict := [("A1", "a1"), ("A2", "a2"), ("A3", "a3")]
  nullValue := fun _ => CellVal.s "N"
  maxWidth := fun _ => 0
  isAttributeDateType := fun _ => false
  isIterable := fun _ => false
  getIterableSeparator := fun _ => ","
  getMapInstanceCategoryList := ["catA", "catB"]
  getMapInstanceAttributeIdList := fun c =>
    if c = "catA" then ["A1", "A2"] else if c = "catB" then ["A2", "A3"] else []
  getMapMergeIndexAttributes := fun c =>
    if c = "catA" then ["id"] else if c = "catB" then ["entity_id"] else []
  getMapOtherAttributeIdList := []
  getMapAttributeFunction := fun _ => none
  getAttributeName := fun a => a

/-- One container with a `catA` row and a `catB` row sharing merge key "1";
`catA` extracts A1="v1", A2="v2A", `catB` extracts A2="v2B", A3="v3". -/
def contMerge : Container where
  name := "D1"
  objs :=
    [("catA", ⟨[("id", 0), ("a1", 1), ("a2", 2)], [["1", "v1", "v2A"]]⟩),
     ("catB", ⟨[("entity_id", 0), ("a2", 1), ("a3", 2)], [["1", "v2B", "v3"]]⟩)]

/-- A plain reshape-side schema access: identity names. -/
def saFix : SchemaAccess where
  schemaName := fun t => t
  attributeName := fun _ a => a
  isMandatory := fun _ => false
  hasUnitCardinality := fun _ => false
  attributeIdList := fun _ => []
  attributeNameList := fun _ => []

/-- Slice filter with a single parent item `(P, pid)` and nothing else. -/
def sdPlain : SliceDef where
  parentItems := [("P", "pid")]
  parentFilters := []
  sliceIndex := []
  extraIds := []
  hasSliceUnitCard := fun _ => false

/-- Two parent rows with the same parent value "1". -/
def dataDup : TableData := [("P", [[("pid", CellVal.s "1")], [("pid", CellVal.s "1")]])]

/-- Slice filter indexing a slice-unit-cardinality table `T` by child `cid`. -/
def sdCard : SliceDef where
  parentItems := [("P", "pid")]
  parentFilters := []
  sliceIndex := [("T", [(("P", "pid"), ["cid"])])]
  extraIds := []
  hasSliceUnitCard := fun t => t = "T"

/-- One parent value and TWO `T` rows matching it. -/
def dataCard : TableData :=
  [("P", [[("pid", CellVal.s "1")]]),
   ("T", [[("cid", CellVal.s "1"), ("x", CellVal.s "a")],
          [("cid", CellVal.s "1"), ("x", CellVal.s "b")]])]

/-- Slice filter whose table `E` is both slice-extra and slice-indexed. -/
def sdOverlap : SliceDef where
  parentItems := [("P", "pid")]
  parentFilters := []
  sliceIndex := [("E", [(("P", "pid"), ["cid"])])]
  extraIds := ["E"]
  hasSliceUnitCard := fun _ => false

/-- Parent value "1", extra table row with child value "2". -/
def dataOverlap : TableData :=
  [("P", [[("pid", CellVal.s "1")]]),
   ("E", [[("cid", CellVal.s "2")]])]

/-- Slice filter with a single extra table `E` and no index. -/
def sdAlias : SliceDef where
  parentItems := [("P", "pid")]
  parentFilters := []
  sliceIndex := []
  extraIds := ["E"]
  hasSliceUnitCard := fun _ => false

/-- The extra table content shared across partitions in the alias model. -/
def dataAlias : TableData := [("E", [[("x", CellVal.s "a")]])]

/-- The allocation produced for `dataAlias` with two partitions: both
partition dictionaries hold the SAME store reference 0 for table `E`. -/
def aliasResult : ExtraAlloc :=
  ⟨[[[("x", CellVal.s "a")]]], [[("E", (false, 0))], [("E", (false, 0))]]⟩

/-- Duplicate removal keeping FIRST occurrences (the key order of a Python
dict built by repeated assignment). -/
def firstDedup {β : Type} [DecidableEq β] (l : List β) : List β :=
  go [] l
where
  go (seen : List β) : List β → List β
    | [] => []
    | x :: xs => if x ∈ seen then go seen xs else x :: go (x :: seen) xs

/-- The ordered contribution stream of `__mapInstanceCategoryList`: one
`(mergeKey, extractedRow)` pair per source row, in category-then-row order. -/
def mergeContribs (parse : String → Option String) (f : Filters) (tObj : TableDef)
    (catNames : List String) (container : Container) : List (List String × Row) :=
  catNames.flatMap (fun cn =>
    match dGet container.objs cn with
    | none => []
    | some cat => cat.rowList.map (fun row =>
        (mergeKey tObj cn cat row, mapRowMulti parse f tObj cn cat row)))

/-- The merge accumulator `mD` as a fold over the contribution stream. -/
def mdOf (cs : List (List String × Row)) : Dict (List String) Row :=
  cs.foldl (fun mD c => dInsert mD c.1 (dUpdate ((dGet mD c.1).getD []) c.2)) []

/-- The merged row for one merge key: the update-fold of that key's
contributions. -/
def rowFor (cs : List (List String × Row)) (k : List String) : Row :=
  (cs.filter (fun c => c.1 = k)).foldl (fun acc c => dUpdate acc c.2) []

/-- The sequence of values contributed for one merge key and attribute, in
contribution order. -/
def valueSeq (cs : List (List String × Row)) (k : List String) (a : String) :
    List CellVal :=
  (cs.filter (fun c => c.1 = k)).filterMap (fun c => dGet c.2 a)

/-- The stream of overflow events of one category extraction: one
`((tableId, attributeId), rawLength)` per overflowing cell, in row-major
processing order. -/
def overflowEvents (parse : String → Option String) (f : Filters) (tObj : TableDef)
    (cn : String) (cat : Category) : List ((String × String) × Nat) :=
  cat.rowList.flatMap (fun row =>
    (tObj.getMapInstanceAttributeIdList cn).filterMap (fun atId =>
      ((extractCellW parse f tObj cat row atId).2).map (fun l => ((tObj.id, atId), l))))

/-- Monotone maximum accumulation of lengths onto an optional prior value. -/
def maxFold (init : Option Nat) (ls : List Nat) : Option Nat :=
  ls.foldl (fun acc l => (acc.elim (some l) (fun m => some (max m l)))) init

/-- A merged two-category table with a narrow A2 column (max width 2). -/
def tObjMergeW : TableDef :=
  { tObjMerge with maxWidth := fun a => if a = "A2" then 2 else 0 }

/-- Container whose `catB` carries an overflowing A2 value. -/
def contMergeW : Container where
  name := "D2"
  objs :=
    [("catA", ⟨[("id", 0), ("a1", 1), ("a2", 2)], [["1", "v1", "v2A"]]⟩),
     ("catB", ⟨[("entity_id", 0), ("a2", 1), ("a3", 2)], [["1", "toolong", "v3"]]⟩)]

/-- A single-category table with a narrow A1 column (max width 2). -/
def tObjSingleW : TableDef :=
  { tObjMerge with
      getMapInstanceCategoryList := ["catS"]
      getMapInstanceAttributeIdList := fun c => if c = "catS" then ["A1"] else []
      maxWidth := fun a => if a = "A1" then 2 else 0 }

/-- Container whose `catS` carries an overflowing A1 value. -/
def contSingleW : Container where
  name := "D3"
  objs := [("catS", ⟨[("a1", 0)], [["toolong"]]⟩)]

/-- A row matches a partition value when some child attribute holds it. -/
def matchesVal (atL : List String) (v : CellVal) (r : Row) : Bool :=
  atL.any (fun a => dGet r a == some v)

/-- The rows of a table matching a partition value. -/
def matchRows (rows : List Row) (atL : List String) (v : CellVal) : List Row :=
  rows.filter (matchesVal atL v)

/-- One one-pass row placement into a partition dictionary: unit-cardinality
tables get the row assigned, others appended (`setdefault(...).append`). -/
def updOne (uFlag : Bool) (objName : String) (o : Row) (pdv : Dict String OutVal) :
    Dict String OutVal :=
  if uFlag then dInsert pdv objName (OutVal.one o)
  else
    match dGet pdv objName with
    | some (OutVal.rows rs) => dInsert pdv objName (OutVal.rows (rs ++ [o]))
    | _ => dInsert pdv objName (OutVal.rows [o])

/-- The per-row effect of the one-pass splitting on one partition. -/
def rowUpd (uFlag : Bool) (objName : String) (rename : String → String)
    (atL : List String) (v : CellVal) (pdv : Dict String OutVal) (r : Row) :
    Dict String OutVal :=
  if matchesVal atL v r then updOne uFlag objName (renameRow rename r) pdv else pdv

/-- The accumulated table value for a nonempty matching-row list: the last
matching row for a unit-cardinality table, the renamed list otherwise. -/
def splitEntryVal (uFlag : Bool) (rename : String → String) (m : List Row) : OutVal :=
  if uFlag then OutVal.one (renameRow rename ((m.getLast?).getD []))
  else OutVal.rows (m.map (renameRow rename))

/-- The table value contributed to the partition for `v` by one
single-parent-key table entry (`none` when no row of the table matches). -/
def entryOpt (sa : SchemaAccess) (sd : SliceDef) (data : TableData)
    (v : CellVal) (e : String × List String) : Option OutVal :=
  if (matchRows ((dGet data e.1).getD []) e.2 v).isEmpty then none
  else some (splitEntryVal (sd.hasSliceUnitCard e.1) (sa.attributeName e.1)
    (matchRows ((dGet data e.1).getD []) e.2 v))

/-- The per-table effect of the one-pass splitting on one partition. -/
def entryContentUpd (sa : SchemaAccess) (sd : SliceDef) (data : TableData)
    (v : CellVal) (pdv : Dict String OutVal) (e : String × List String) :
    Dict String OutVal :=
  (entryOpt sa sd data v e).elim pdv
    (fun ov => dInsert pdv (sa.schemaName e.1) ov)

/-- The specified content of the partition for value `v`. -/
def partContent (sa : SchemaAccess) (sd : SliceDef) (data : TableData)
    (rDx : Dict String OutVal) (entries : List (String × List String))
    (v : CellVal) : Dict String OutVal :=
  entries.foldl (entryContentUpd sa sd data v) rDx

/-- The replicated entry of one slice-extra table (`None` when dropped). -/
def extraEntry (sa : SchemaAccess) (sd : SliceDef) (data : TableData)
    (t : String) : Option OutVal :=
  if (((dGet data t).getD []).map (renameRow (sa.attributeName t))).length < 1
      && !(sa.isMandatory t) then none
  else some (collapseCard (sd.hasSliceUnitCard t)
    (((dGet data t).getD []).map (renameRow (sa.attributeName t))))

/-- The slice-extra replication dictionary in specified form. -/
def extrasDictSpec (sa : SchemaAccess) (sd : SliceDef) (data : TableData) :
    Dict String OutVal :=
  sd.extraIds.foldl
    (fun rD t => (extraEntry sa sd data t).elim rD
      (fun ov => dInsert rD (sa.schemaName t) ov)) []

/-- The per-table entry of the naive cardinality slicer (`None` = skipped). -/
def naiveEntry (sa : SchemaAccess) (sd : SliceDef) (sv : SliceTuple)
    (e : String × List Row) : Option OutVal :=
  if !(dContains sd.sliceIndex e.1) && !(sd.isSliceExtra e.1) then none
  else if (sliceTableRows sa sd e.1 e.2 sv).length < 1 && !(sa.isMandatory e.1) then
    none
  else some (collapseCard (sd.hasSliceUnitCard e.1) (sliceTableRows sa sd e.1 e.2 sv))

/-- The single-parent-key table list in specified form. -/
def skdSpec (data : TableData) (sliceIndex : SliceIndex) (p : ParentItem) :
    List (String × List String) :=
  sliceIndex.filterMap (fun e =>
    if dContains data e.1 then (dGet e.2 p).map (fun atL => (e.1, atL)) else none)

/-- Decidable closure condition: every truthy child value the row holds at
a listed child attribute is among the enumerated parent values. -/
def closedVals (pvs : List CellVal) (atL : List String) (r : Row) : Bool :=
  atL.all (fun a =>
    match dGet r a with
    | some w => !w.truthy || pvs.contains w
    | none => true)

/-- Safety of a current table value for the one-pass append path: for
non-unit-cardinality tables the content must be absent or a row list
(anything else raises `AttributeError` in `setdefault(...).append`). -/
def SafeAt (uFlag : Bool) (cur : Option OutVal) : Prop :=
  uFlag = true ∨ cur = none ∨ ∃ rs, cur = some (OutVal.rows rs)

/-- A one-table mapper-side schema with unit cardinality on `T`. -/
def sDFix : SchemaDef where
  getTableIdList := ["T"]
  getTable := fun _ => tObjMerge
  getTableName := fun t => t
  hasUnitCardinality := fun t => t = "T"
  getAttributeIdList := fun _ => []
  getAttributeNameList := fun _ => []
  getContentSelector := fun _ => []

/-- Schema routing table `T` to the merged two-category table. -/
def sDMergeW : SchemaDef :=
  { sDFix with getTable := fun _ => tObjMergeW }

/-- A single unit-cardinality table with exactly one row. -/
def tddFix : TableData := [("T", [[("A1", CellVal.s "x")]])]

/-- Reshape-side schema access with unit cardinality on `T`. -/
def saCardFix : SchemaAccess where
  schemaName := fun t => t
  attributeName := fun _ a => a
  isMandatory := fun _ => false
  hasUnitCardinality := fun t => t = "T"
  attributeIdList := fun _ => []
  attributeNameList := fun _ => []

/-- Slice filter with parent `(P, pid)`, a slice-unit-cardinality indexed
table `T` (child attribute `cid`) and a slice-extra table `E`. -/
def sdEquivW : SliceDef where
  parentItems := [("P", "pid")]
  parentFilters := []
  sliceIndex := [("T", [(("P", "pid"), ["cid"])])]
  extraIds := ["E"]
  hasSliceUnitCard := fun t => t = "T"

/-- Two parent values, one matching `T` row each, one extra `E` row. -/
def dataEquivW : TableData :=
  [("P", [[("pid", CellVal.s "1")], [("pid", CellVal.s "2")]]),
   ("T", [[("cid", CellVal.s "1"), ("x", CellVal.s "a")],
          [("cid", CellVal.s "2"), ("x", CellVal.s "b")]]),
   ("E", [[("y", CellVal.s "e")]])]

/-- The enumerated parent values of `dataEquivW`. -/
def pvsEquivW : List CellVal := [CellVal.s "1", CellVal.s "2"]

/-- The `T` rows of `dataEquivW`. -/
def rowsTW : List Row :=
  [[("cid", CellVal.s "1"), ("x", CellVal.s "a")],
   [("cid", CellVal.s "2"), ("x", CellVal.s "b")]]

/-! ## General lemmas about the embedding -/

section DictLemmas

variable [DecidableEq κ]

@[simp] theorem dGet_nil (k : κ) : dGet ([] : Dict κ α) k = none := rfl

theorem dGet_cons (e : κ × α) (es : Dict κ α) (k : κ) :
    dGet (e :: es) k = if e.1 = k then some e.2 else dGet es k := by
  simp only [dGet, List.find?]
  by_cases h : e.1 = k <;> simp [h]

theorem dGet_insert (d : Dict κ α) (k : κ) (v : α) (k' : κ) :
    dGet (dInsert d k v) k' = if k = k' then some v else dGet d k' := by
  induction d with
  | nil => simp [dInsert, dGet_cons]
  | cons e es ih =>
    by_cases h : e.1 = k
    · subst h
      have hred : dInsert (e :: es) e.1 v = (e.1, v) :: es := by
        simp [dInsert]
      rw [hred, dGet_cons, dGet_cons]
      by_cases h' : e.1 = k' <;> simp [h']
    · simp only [dInsert, if_neg h]
      rw [dGet_cons, ih, dGet_cons]
      by_cases h' : e.1 = k'
      · have hk : ¬ k = k' := fun hh => h (h'.trans hh.symm)
        simp [h', hk]
      · simp [h']

@[simp] theorem dGet_insert_self (d : Dict κ α) (k : κ) (v : α) :
    dGet (dInsert d k v) k = some v := by
  rw [dGet_insert]; simp

theorem dGet_insert_ne (d : Dict κ α) (k : κ) (v : α) (k' : κ) (h : k ≠ k') :
    dGet (dInsert d k v) k' = dGet d k' := by
  rw [dGet_insert]; simp [h]

theorem dContains_iff_dGet (d : Dict κ α) (k : κ) :
    dContains d k = true ↔ ∃ v, dGet d k = some v := by
  simp only [dContains, dGet, Option.isSome_iff_exists, Option.map_eq_some']
  constructor
  · rintro ⟨e, he⟩; exact ⟨e.2, e, he, rfl⟩
  · rintro ⟨v, e, he, _⟩; exact ⟨e, he⟩

theorem dGet_eq_none_of_not_contains (d : Dict κ α) (k : κ)
    (h : dContains d k = false) : dGet d k = none := by
  rcases hg : dGet d k with _ | v
  · rfl
  · exfalso
    have : dContains d k = true := (dContains_iff_dGet d k).mpr ⟨v, hg⟩
    rw [h] at this
    exact Bool.noConfusion this

theorem dContains_cons (e : κ × α) (es : Dict κ α) (k : κ) :
    dContains (e :: es) k = (decide (e.1 = k) || dContains es k) := by
  simp only [dContains, List.find?]
  by_cases h : e.1 = k <;> simp [h]

theorem dKeys_insert (d : Dict κ α) (k : κ) (v : α) :
    dKeys (dInsert d k v) = if dContains d k then dKeys d else dKeys d ++ [k] := by
  induction d with
  | nil => simp [dInsert, dKeys, dContains]
  | cons e es ih =>
    by_cases h : e.1 = k
    · have hc : dContains (e :: es) k = true := by
        rw [dContains_cons]; simp [h]
      simp [dInsert, if_pos h, dKeys, hc, h]
    · have hd : decide (e.1 = k) = false := by simp [h]
      simp only [dInsert, if_neg h, dKeys, List.map]
      rw [dContains_cons, hd, Bool.false_or]
      simp only [dKeys] at ih
      rw [ih]
      by_cases hc : dContains es k <;> simp [hc]

end DictLemmas

section FoldLemmas

variable {ι κ' β : Type} [DecidableEq κ']

/-- Two folds with pointwise-equal bodies agree. -/
theorem foldl_body_ext (f g : β → ι → β) (h : ∀ b e, f b e = g b e)
    (l : List ι) (b : β) : l.foldl f b = l.foldl g b := by
  induction l generalizing b with
  | nil => rfl
  | cons e es ih => rw [List.foldl_cons, List.foldl_cons, h, ih]

/-- Characterization of a dict-building fold that inserts `vf e` at key
`kf e`, skipping entries with `vf e = none`: the lookup at `k` is the value
of the last contributing entry with key `k`, else the initial dictionary's. -/
theorem dGet_foldl_insertOpt (l : List ι) (d0 : Dict κ' β) (kf : ι → κ')
    (vf : ι → Option β) (k : κ') :
    dGet (l.foldl (fun rD e => (vf e).elim rD (fun v => dInsert rD (kf e) v)) d0) k
      = match l.reverse.find? (fun e => decide (kf e = k) && (vf e).isSome) with
        | some e => vf e
        | none => dGet d0 k := by
  induction l generalizing d0 with
  | nil => simp
  | cons e es ih =>
    rw [List.foldl_cons, ih, List.reverse_cons, List.find?_append]
    cases hfind : es.reverse.find? (fun e => decide (kf e = k) && (vf e).isSome) with
    | some e' => simp
    | none =>
      rw [Option.none_or]
      rcases hvf : vf e with _ | v
      · rw [List.find?_cons_of_neg _ (by simp [hvf])]
        simp [hvf]
      · by_cases hk : kf e = k
        · rw [List.find?_cons_of_pos _ (by simp [hvf, hk])]
          simp [hvf, hk]
        · rw [List.find?_cons_of_neg _ (by simp [hvf, hk])]
          simp [hvf, dGet_insert_ne _ _ _ _ hk]

/-- A `find?` over a list with a unique matching element returns it. -/
theorem find?_eq_some_of_unique {l : List ι} {p : ι → Bool} {a : ι}
    (ha : a ∈ l) (hpa : p a = true) (huniq : ∀ b ∈ l, p b = true → b = a) :
    l.find? p = some a := by
  induction l with
  | nil => cases ha
  | cons e es ih =>
    by_cases hpe : p e = true
    · rw [List.find?_cons_of_pos _ hpe]
      rw [huniq e (List.mem_cons_self e es) hpe]
    · rw [List.find?_cons_of_neg _ (by simp [hpe])]
      rcases List.mem_cons.mp ha with h | h
      · exact absurd (h ▸ hpa) hpe
      · exact ih h (fun b hb hpb => huniq b (List.mem_cons_of_mem e hb) hpb)

end FoldLemmas

section DictMore

variable {κ α : Type} [DecidableEq κ]

/-- The first entry found by `dGet` is a member. -/
theorem mem_of_dGet {d : Dict κ α} {k : κ} {v : α} (h : dGet d k = some v) :
    (k, v) ∈ d := by
  simp only [dGet, Option.map_eq_some'] at h
  rcases h with ⟨e, he, hev⟩
  have hk : e.1 = k := by
    have := List.find?_some he
    simpa using this
  have hmem := List.mem_of_find?_eq_some he
  have : e = (k, v) := by
    cases e
    simp only at hk hev
    rw [hk, hev]
  rw [this] at hmem
  exact hmem

/-- With nodup keys, any member is returned by `dGet`. -/
theorem dGet_of_mem_nodup {d : Dict κ α} {k : κ} {v : α}
    (hnd : (dKeys d).Nodup) (hmem : (k, v) ∈ d) : dGet d k = some v := by
  induction d with
  | nil => cases hmem
  | cons e es ih =>
    rcases List.mem_cons.mp hmem with h | h
    · rw [← h, dGet_cons]
      simp
    · have hk : e.1 ≠ k := by
        intro hh
        have : k ∈ dKeys es := by
          simp only [dKeys]
          exact List.mem_map.mpr ⟨(k, v), h, rfl⟩
        rw [dKeys, List.map_cons] at hnd
        exact (List.nodup_cons.mp hnd).1 (hh ▸ this)
      rw [dGet_cons, if_neg hk]
      exact ih (List.nodup_cons.mp hnd).2 h

/-- With nodup keys, the entry with a given key is unique. -/
theorem entry_unique_of_nodup {d : Dict κ α} {k : κ} {v : α}
    (hnd : (dKeys d).Nodup) (hget : dGet d k = some v) :
    ∀ e ∈ d, e.1 = k → e = (k, v) := by
  intro e he hek
  have hv : dGet d k = some e.2 := by
    have : ((k : κ), e.2) ∈ d := by
      have : e = (k, e.2) := by cases e; simp only at hek; rw [hek]
      rw [← this]; exact he
    exact dGet_of_mem_nodup hnd this
  rw [hget] at hv
  cases e
  simp only at hek
  rw [hek]
  simp only [Option.some_inj] at hv
  rw [hv]

/-- `dInsert` preserves nodup keys. -/
theorem dKeys_nodup_insert {d : Dict κ α} (k : κ) (v : α)
    (hnd : (dKeys d).Nodup) : (dKeys (dInsert d k v)).Nodup := by
  rw [dKeys_insert]
  by_cases hc : dContains d k
  · simpa [hc] using hnd
  · have hk : k ∉ dKeys d := by
      intro hm
      rcases List.mem_map.mp hm with ⟨e, he, hek⟩
      have hsome : (d.find? (fun e => decide (e.1 = k))).isSome := by
        rw [List.find?_isSome]
        exact ⟨e, he, by simp [hek]⟩
      exact absurd hsome (by simpa [dContains] using hc)
    rw [if_neg (by simp [hc])]
    refine List.Nodup.append hnd (List.nodup_singleton k) ?_
    intro a ha hb
    rw [List.mem_singleton] at hb
    exact hk (hb ▸ ha)

end DictMore

section BuildLemmas

variable {ι κ' β : Type} [DecidableEq κ']

/-- Skipless version of `dGet_foldl_insertOpt`. -/
theorem dGet_foldl_insert_all (l : List ι) (d0 : Dict κ' β) (kf : ι → κ')
    (vf : ι → β) (k : κ') :
    dGet (l.foldl (fun rD e => dInsert rD (kf e) (vf e)) d0) k
      = match l.reverse.find? (fun e => decide (kf e = k)) with
        | some e => some (vf e)
        | none => dGet d0 k := by
  have h := dGet_foldl_insertOpt l d0 kf (fun e => some (vf e)) k
  simp only [Option.isSome_some, Bool.and_true] at h
  exact h

/-- Dictionary-building fold over a nodup-keyed, injectively-renamed entry
list: the lookup at the renamed key of a present entry is its built value. -/
theorem dGet_build_at {α : Type} {κ : Type} [DecidableEq κ]
    (l : Dict κ α) (kf : κ → κ') (vf : κ × α → β) (k : κ) (a : α)
    (hnd : (dKeys l).Nodup)
    (hinj : ∀ t1 ∈ dKeys l, ∀ t2 ∈ dKeys l, kf t1 = kf t2 → t1 = t2)
    (hget : dGet l k = some a) :
    dGet (l.foldl (fun rD e => dInsert rD (kf e.1) (vf e)) []) (kf k)
      = some (vf (k, a)) := by
  rw [dGet_foldl_insert_all]
  have hmem : (k, a) ∈ l.reverse := List.mem_reverse.mpr (mem_of_dGet hget)
  have hkmem : k ∈ dKeys l := List.mem_map.mpr ⟨(k, a), mem_of_dGet hget, rfl⟩
  have huniq : ∀ b ∈ l.reverse, (decide (kf b.1 = kf k) : Bool) = true → b = (k, a) := by
    intro b hb hpb
    have hb' := List.mem_reverse.mp hb
    have hkeq : kf b.1 = kf k := of_decide_eq_true hpb
    have hb1m : b.1 ∈ dKeys l := List.mem_map.mpr ⟨b, hb', rfl⟩
    have hb1 : b.1 = k := hinj b.1 hb1m k hkmem hkeq
    exact entry_unique_of_nodup hnd hget b hb' hb1
  rw [find?_eq_some_of_unique hmem (by simp) huniq]

end BuildLemmas

/-- Unfolding of the cardinality style branch of `__transformTableData`. -/
theorem transformTableData_card (sD : SchemaDef) (tdd : TableData) :
    transformTableData sD "rowwise_by_name_with_cardinality" tdd
      = tdd.foldl (fun rD e =>
          dInsert rD (sD.getTableName e.1)
            (collapseCard (sD.hasUnitCardinality e.1)
              (e.2.map (renameRow ((sD.getTable e.1).getAttributeName))))) [] := by
  rfl

/-- The collapse produces a bare row object exactly for a unit-cardinality
table with exactly one row. -/
theorem collapseCard_eq_one_iff (u : Bool) (l : List Row) (r : Row) :
    collapseCard u l = OutVal.one r ↔ u = true ∧ l = [r] := by
  cases u
  · constructor
    · intro h
      exact absurd h (by cases l <;> simp [collapseCard])
    · rintro ⟨h, _⟩
      cases h
  · cases l with
    | nil => simp [collapseCard]
    | cons a t =>
      cases t with
      | nil => simp [collapseCard]
      | cons b t2 => simp [collapseCard]

/-- Bind on a successful `Except` computes the continuation. -/
theorem except_ok_bind {ε σ τ : Type} (x : σ) (g : σ → Except ε τ) :
    (Except.ok x >>= g) = g x := rfl

/-- Inversion of a successful `Except` bind. -/
theorem except_bind_ok {ε σ τ : Type} {x : Except ε σ} {g : σ → Except ε τ}
    {out : τ} : (x >>= g) = Except.ok out ↔ ∃ mid, x = Except.ok mid ∧ g mid = Except.ok out := by
  cases x with
  | error e =>
    constructor
    · intro h
      exact absurd h (by simp [Bind.bind, Except.bind])
    · rintro ⟨mid, hmid, _⟩
      cases hmid
  | ok v =>
    constructor
    · intro h
      exact ⟨v, rfl, h⟩
    · rintro ⟨mid, hmid, hg⟩
      cases hmid
      exact hg

/-- The per-document fold of `processDocuments`/`fetchDocuments`: each input
element contributes exactly one output dictionary, built by inserting the
reserved key into the styled record set. -/
theorem foldDocs_aux {γ : Type}
    (inner : Overflow → γ → Except String (TableData × List String × Overflow))
    (mk : TableData → Dict String OutVal) (kname : String) (vname : γ → String) :
    ∀ (l : List γ) (st0 : List (Dict String OutVal) × List String × Overflow) out,
      (l.foldlM (fun st c => do
          let r ← inner st.2.2 c
          Except.ok (st.1 ++ [dInsert (mk r.1) kname (OutVal.str (vname c))],
            st.2.1 ++ r.2.1, r.2.2)) st0) = Except.ok out →
      ∃ suffix, out.1 = st0.1 ++ suffix ∧
        List.Forall₂ (fun doc c => ∃ td, doc = dInsert td kname (OutVal.str (vname c)))
          suffix l := by
  intro l
  induction l with
  | nil =>
    intro st0 out h
    rw [List.foldlM_nil] at h
    cases h
    exact ⟨[], by simp, List.Forall₂.nil⟩
  | cons c cs ih =>
    intro st0 out h
    rw [List.foldlM_cons] at h
    rcases except_bind_ok.mp h with ⟨st1, hstep, hrest⟩
    rcases except_bind_ok.mp hstep with ⟨r, _, hmk⟩
    have hst1 : st1 = (st0.1 ++ [dInsert (mk r.1) kname (OutVal.str (vname c))],
        st0.2.1 ++ r.2.1, r.2.2) := by
      cases hmk
      rfl
    rcases ih st1 out hrest with ⟨suffix, hout, hfa⟩
    refine ⟨dInsert (mk r.1) kname (OutVal.str (vname c)) :: suffix, ?_, ?_⟩
    · rw [hout, hst1]
      simp
    · exact List.Forall₂.cons ⟨mk r.1, rfl⟩ hfa

section DictValues

variable {κ α : Type} [DecidableEq κ]

/-- `dContains` after an insert. -/
theorem dContains_insert (d : Dict κ α) (k k' : κ) (v : α) :
    dContains (dInsert d k v) k' = (decide (k = k') || dContains d k') := by
  induction d with
  | nil =>
    simp only [dInsert, dContains, List.find?]
    by_cases h : k = k' <;> simp [h]
  | cons e es ih =>
    by_cases h : e.1 = k
    · subst h
      have hred : dInsert (e :: es) e.1 v = (e.1, v) :: es := by simp [dInsert]
      rw [hred, dContains_cons, dContains_cons]
      by_cases h' : e.1 = k' <;> simp [h']
    · have hred : dInsert (e :: es) k v = e :: dInsert es k v := by simp [dInsert, h]
      rw [hred, dContains_cons, ih, dContains_cons]
      by_cases h1 : e.1 = k' <;> by_cases h2 : k = k' <;> simp [h1, h2]

/-- Inserting a fresh key appends its value. -/
theorem dValues_insert_not_contains (d : Dict κ α) (k : κ) (v : α)
    (h : dContains d k = false) : dValues (dInsert d k v) = dValues d ++ [v] := by
  induction d with
  | nil => simp [dInsert, dValues]
  | cons e es ih =>
    rw [dContains_cons] at h
    rcases Bool.or_eq_false_iff.mp h with ⟨h1, h2⟩
    have hne : e.1 ≠ k := by simpa using h1
    have hred : dInsert (e :: es) k v = e :: dInsert es k v := by simp [dInsert, hne]
    rw [hred]
    simp only [dValues, List.map_cons]
    rw [show List.map (fun x => x.2) (dInsert es k v) = dValues (dInsert es k v) from rfl,
      ih h2]
    rfl

/-- Folding fresh inserts appends the generated values in order. -/
theorem dValues_foldl_insert_fresh {β : Type} [DecidableEq β] (l : List β) (g : β → α)
    (kf : β → κ) :
    ∀ d0 : Dict κ α, (l.map kf).Nodup → (∀ k ∈ l, dContains d0 (kf k) = false) →
    dValues (l.foldl (fun d k => dInsert d (kf k) (g k)) d0) = dValues d0 ++ l.map g := by
  induction l with
  | nil => intro d0 _ _; simp
  | cons k ks ih =>
    intro d0 hnd hfresh
    rw [List.foldl_cons]
    have hk : dContains d0 (kf k) = false := hfresh k (List.mem_cons_self k ks)
    have hfresh' : ∀ k' ∈ ks, dContains (dInsert d0 (kf k) (g k)) (kf k') = false := by
      intro k' hk'
      rw [dContains_insert]
      have hne : kf k ≠ kf k' := by
        intro hh
        rw [List.map_cons, List.nodup_cons] at hnd
        exact hnd.1 (hh ▸ List.mem_map.mpr ⟨k', hk', rfl⟩)
      simp [hne, hfresh k' (List.mem_cons_of_mem k hk')]
    rw [ih (dInsert d0 (kf k) (g k)) (by rw [List.map_cons, List.nodup_cons] at hnd; exact hnd.2) hfresh',
      dValues_insert_not_contains d0 (kf k) (g k) hk]
    simp

end DictValues

/-- The per-parent-item value list of the enumerator: one entry per source
row passing the parent filters, in row order, duplicates preserved. -/
def valsOfItem (data : TableData) (sd : SliceDef) (sp : ParentItem) :
    List (ParentItem × CellVal) :=
  ((dGet data sp.1).getD []).filterMap (fun r =>
    if testFilter r sp.1 sd.parentFilters then
      (dGet r sp.2).map (fun v => (sp, v))
    else none)

/-- The row fold of `SliceValues.__init__` collects exactly the filtered
projections, provided each filtered row carries the parent attribute. -/
theorem sliceVals_rows_ok (sp : ParentItem) (sd : SliceDef) :
    ∀ (rows : List Row) (vs0 : List (ParentItem × CellVal)),
      (∀ r ∈ rows, testFilter r sp.1 sd.parentFilters = true → (dGet r sp.2).isSome) →
      rows.foldlM (fun vs rowD =>
          if testFilter rowD sp.1 sd.parentFilters then
            match dGet rowD sp.2 with
            | some v => Except.ok (vs ++ [(sp, v)])
            | none => Except.error "KeyError: parent attribute"
          else Except.ok vs) vs0
        = Except.ok (vs0 ++ rows.filterMap (fun r =>
            if testFilter r sp.1 sd.parentFilters then
              (dGet r sp.2).map (fun v => (sp, v))
            else none)) := by
  intro rows
  induction rows with
  | nil =>
    intro vs0 _
    rw [List.foldlM_nil, List.filterMap_nil, List.append_nil]
    rfl
  | cons r rs ih =>
    intro vs0 hattr
    rw [List.foldlM_cons]
    by_cases hf : testFilter r sp.1 sd.parentFilters = true
    · have hsome := hattr r (List.mem_cons_self r rs) hf
      rcases hg : dGet r sp.2 with _ | v
      · rw [hg] at hsome; cases hsome
      · rw [show (if testFilter r sp.1 sd.parentFilters = true then
              match (some v : Option CellVal) with
              | some v => Except.ok (vs0 ++ [(sp, v)])
              | none => Except.error "KeyError: parent attribute"
            else Except.ok vs0) = Except.ok (vs0 ++ [(sp, v)]) from if_pos hf,
          except_ok_bind]
        rw [ih (vs0 ++ [(sp, v)])
          (fun r' hr' hf' => hattr r' (List.mem_cons_of_mem r hr') hf')]
        rw [List.filterMap_cons]
        simp [hf, hg]
    · rw [show (if testFilter r sp.1 sd.parentFilters = true then
            match dGet r sp.2 with
            | some v => Except.ok (vs0 ++ [(sp, v)])
            | none => Except.error "KeyError: parent attribute"
          else Except.ok vs0) = Except.ok vs0 from if_neg hf,
        except_ok_bind]
      rw [ih vs0 (fun r' hr' hf' => hattr r' (List.mem_cons_of_mem r hr') hf')]
      rw [List.filterMap_cons]
      simp [hf]

/-- The outer fold of `SliceValues.__init__` under per-item success. -/
theorem sliceParentVals_outer_ok (data : TableData) (sd : SliceDef) :
    ∀ (items : List ParentItem) (vD0 : Dict ParentItem (List (ParentItem × CellVal))),
      (∀ sp ∈ items, ∀ r ∈ (dGet data sp.1).getD [],
        testFilter r sp.1 sd.parentFilters = true → (dGet r sp.2).isSome) →
      (items.foldlM (fun vD sp =>
          (match dGet data sp.1 with
            | none => Except.ok []
            | some rows =>
              rows.foldlM (fun vs rowD =>
                if testFilter rowD sp.1 sd.parentFilters then
                  match dGet rowD sp.2 with
                  | some v => Except.ok (vs ++ [(sp, v)])
                  | none => Except.error "KeyError: parent attribute"
                else Except.ok vs) []) >>= fun vals =>
          Except.ok (dInsert vD sp vals)) vD0)
        = Except.ok (items.foldl (fun vD sp => dInsert vD sp (valsOfItem data sd sp)) vD0) := by
  intro items
  induction items with
  | nil =>
    intro vD0 _
    rw [List.foldlM_nil, List.foldl_nil]
    rfl
  | cons sp sps ih =>
    intro vD0 hattr
    rw [List.foldlM_cons]
    have hinner : (match dGet data sp.1 with
        | none => Except.ok []
        | some rows =>
          rows.foldlM (fun vs rowD =>
            if testFilter rowD sp.1 sd.parentFilters then
              match dGet rowD sp.2 with
              | some v => Except.ok (vs ++ [(sp, v)])
              | none => Except.error "KeyError: parent attribute"
            else Except.ok vs) [])
        = Except.ok (valsOfItem data sd sp) := by
      rcases hd : dGet data sp.1 with _ | rows
      · simp [valsOfItem, hd]
      · have hrows := sliceVals_rows_ok sp sd rows []
          (by intro r hr hf
              exact hattr sp (List.mem_cons_self sp sps) r (by rw [hd]; exact hr) hf)
        have hv : valsOfItem data sd sp = rows.filterMap (fun r =>
            if testFilter r sp.1 sd.parentFilters then
              (dGet r sp.2).map (fun v => (sp, v))
            else none) := by
          simp [valsOfItem, hd]
        rw [hv]
        exact hrows
    rw [hinner, except_ok_bind, except_ok_bind, List.foldl_cons]
    exact ih (dInsert vD0 sp (valsOfItem data sd sp))
      (fun sp' hsp' => hattr sp' (List.mem_cons_of_mem sp hsp'))

section MergeLemmas

variable {κ α : Type} [DecidableEq κ]

/-- Lookup in a mapped-form dictionary. -/
theorem dGet_mapped (ks : List κ) (g : κ → α) (k : κ) :
    dGet (ks.map (fun k' => (k', g k'))) k = if k ∈ ks then some (g k) else none := by
  induction ks with
  | nil => simp
  | cons k0 rest ih =>
    rw [List.map_cons, dGet_cons]
    by_cases h : k0 = k
    · subst h
      simp
    · have hne : ¬ k = k0 := fun hh => h hh.symm
      simp only [if_neg h]
      rw [ih]
      by_cases hm : k ∈ rest <;> simp [List.mem_cons, hne, hm]

/-- Inserting a fresh key appends the pair. -/
theorem dInsert_fresh_append (d : Dict κ α) (k : κ) (v : α)
    (h : dContains d k = false) : dInsert d k v = d ++ [(k, v)] := by
  induction d with
  | nil => rfl
  | cons e es ih =>
    rw [dContains_cons] at h
    rcases Bool.or_eq_false_iff.mp h with ⟨h1, h2⟩
    have hne : e.1 ≠ k := by simpa using h1
    simp [dInsert, hne, ih h2]

/-- Inserting at an existing key of a mapped-form dictionary. -/
theorem dInsert_mapped (ks : List κ) (g : κ → α) (k : κ) (v : α)
    (hnd : ks.Nodup) (hk : k ∈ ks) :
    dInsert (ks.map (fun k' => (k', g k'))) k v
      = ks.map (fun k' => (k', if k' = k then v else g k')) := by
  induction ks with
  | nil => cases hk
  | cons k0 rest ih =>
    rw [List.map_cons, List.map_cons]
    by_cases h : k0 = k
    · subst h
      have hrest : rest.map (fun k' => (k', g k'))
          = rest.map (fun k' => (k', if k' = k0 then v else g k')) := by
        apply List.map_congr_left
        intro x hx
        have hxne : ¬ x = k0 := fun hh => (List.nodup_cons.mp hnd).1 (hh ▸ hx)
        simp [hxne]
      simp [dInsert, hrest]
    · have hkrest : k ∈ rest := by
        rcases List.mem_cons.mp hk with hh | hh
        · exact absurd hh.symm h
        · exact hh
      simp only [dInsert, h, if_false]
      rw [ih (List.nodup_cons.mp hnd).2 hkrest]

/-- `dGet` after a Python `dict.update` with a nodup-keyed update dict. -/
theorem dGet_dUpdate_nodup (base d : Dict κ α) (a : κ)
    (hnd : (dKeys d).Nodup) :
    dGet (dUpdate base d) a
      = match dGet d a with
        | some v => some v
        | none => dGet base a := by
  have h := dGet_foldl_insert_all d base (fun e => e.1) (fun e => e.2) a
  rw [show dUpdate base d = d.foldl (fun b e => dInsert b e.1 e.2) base from rfl, h]
  rcases hg : dGet d a with _ | v
  · have hfnone : d.find? (fun e => decide (e.1 = a)) = none := by
      rcases hf : d.find? (fun e => decide (e.1 = a)) with _ | e'
      · exact hf
      · exfalso
        have : dGet d a = some e'.2 := by simp [dGet, hf]
        rw [hg] at this
        cases this
    have hnone : d.reverse.find? (fun e => decide (e.1 = a)) = none := by
      rw [List.find?_eq_none]
      intro e he
      exact (List.find?_eq_none.mp hfnone) e (List.mem_reverse.mp he)
    rw [hnone]
  · have hmem : (a, v) ∈ d.reverse := List.mem_reverse.mpr (mem_of_dGet hg)
    have huniq : ∀ b ∈ d.reverse, (decide (b.1 = a) : Bool) = true → b = (a, v) := by
      intro b hb hpb
      exact entry_unique_of_nodup hnd hg b (List.mem_reverse.mp hb) (of_decide_eq_true hpb)
    rw [find?_eq_some_of_unique hmem (by simp) huniq]

omit [DecidableEq κ] in
/-- Nodup-key preservation along a fold. -/
theorem dKeys_nodup_foldl {ι : Type} (l : List ι) (step : Dict κ α → ι → Dict κ α)
    (hstep : ∀ d e, (dKeys d).Nodup → (dKeys (step d e)).Nodup) :
    ∀ d0, (dKeys d0).Nodup → (dKeys (l.foldl step d0)).Nodup := by
  induction l with
  | nil => intro d0 h; exact h
  | cons e es ih => intro d0 h; exact ih (step d0 e) (hstep d0 e h)

/-- A fold over chunks equals the fold over their concatenation. -/
theorem foldl_flatMap {γ ι σ : Type} (h : γ → List ι) (g : σ → ι → σ) (l : List γ) :
    ∀ s0, l.foldl (fun s c => (h c).foldl g s) s0 = (l.flatMap h).foldl g s0 := by
  induction l with
  | nil => intro s0; rfl
  | cons c cs ih =>
    intro s0
    rw [List.foldl_cons, List.flatMap_cons, List.foldl_append, ih]

end MergeLemmas

/-- `initRow` has nodup keys. -/
theorem initRow_nodup (f : Filters) (tObj : TableDef) :
    (dKeys (initRow f tObj)).Nodup := by
  unfold initRow
  by_cases h : f.dropEmpty
  · simp [h, dKeys]
  · rw [if_neg h]
    exact dKeys_nodup_foldl tObj.getAttributeIdList _
      (fun d e hd => dKeys_nodup_insert _ _ hd) [] (by simp [dKeys])

/-- `mapRowMulti` yields a nodup-keyed row. -/
theorem mapRowMulti_nodup (parse : String → Option String) (f : Filters)
    (tObj : TableDef) (cn : String) (cat : Category) (row : List String) :
    (dKeys (mapRowMulti parse f tObj cn cat row)).Nodup := by
  unfold mapRowMulti
  apply dKeys_nodup_foldl _ _ _ _ (initRow_nodup f tObj)
  intro d e hd
  rcases hx : (extractCellW parse f tObj cat row e).1 with _ | v
  · exact hd
  · exact dKeys_nodup_insert _ _ hd

/-- `firstDedup.go` never emits seen elements and is nodup. -/
theorem firstDedup_go_nodup {β : Type} [DecidableEq β] (l : List β) :
    ∀ seen : List β, (firstDedup.go seen l).Nodup ∧ ∀ x ∈ firstDedup.go seen l, x ∉ seen := by
  induction l with
  | nil => intro seen; exact ⟨List.nodup_nil, by intro x hx; cases hx⟩
  | cons y ys ih =>
    intro seen
    by_cases h : y ∈ seen
    · simpa [firstDedup.go, h] using ih seen
    · rcases ih (y :: seen) with ⟨hnd, hns⟩
      rw [show firstDedup.go seen (y :: ys) = y :: firstDedup.go (y :: seen) ys by
        simp [firstDedup.go, h]]
      constructor
      · rw [List.nodup_cons]
        exact ⟨fun hy => (hns y hy) (List.mem_cons_self y seen), hnd⟩
      · intro x hx
        rcases List.mem_cons.mp hx with hh | hh
        · rw [hh]; exact h
        · exact fun hs => (hns x hh) (List.mem_cons_of_mem y hs)

/-- `firstDedup` is nodup. -/
theorem firstDedup_nodup {β : Type} [DecidableEq β] (l : List β) :
    (firstDedup l).Nodup := (firstDedup_go_nodup l []).1

/-- Membership in `firstDedup.go`. -/
theorem firstDedup_go_mem {β : Type} [DecidableEq β] (l : List β) :
    ∀ seen x, x ∈ firstDedup.go seen l ↔ (x ∈ l ∧ x ∉ seen) := by
  induction l with
  | nil => intro seen x; simp [firstDedup.go]
  | cons y ys ih =>
    intro seen x
    by_cases h : y ∈ seen
    · rw [show firstDedup.go seen (y :: ys) = firstDedup.go seen ys by
        simp [firstDedup.go, h]]
      rw [ih]
      constructor
      · rintro ⟨h1, h2⟩
        exact ⟨List.mem_cons_of_mem y h1, h2⟩
      · rintro ⟨h1, h2⟩
        rcases List.mem_cons.mp h1 with hh | hh
        · exact absurd (hh ▸ h) h2
        · exact ⟨hh, h2⟩
    · rw [show firstDedup.go seen (y :: ys) = y :: firstDedup.go (y :: seen) ys by
        simp [firstDedup.go, h]]
      constructor
      · intro hx
        rcases List.mem_cons.mp hx with hh | hh
        · exact ⟨hh ▸ List.mem_cons_self y ys, hh ▸ h⟩
        · rcases (ih (y :: seen) x).mp hh with ⟨h1, h2⟩
          exact ⟨List.mem_cons_of_mem y h1,
            fun hs => h2 (List.mem_cons_of_mem y hs)⟩
      · rintro ⟨h1, h2⟩
        by_cases hxy : x = y
        · exact hxy ▸ List.mem_cons_self y _
        · rcases List.mem_cons.mp h1 with hh | hh
          · exact absurd hh hxy
          · exact List.mem_cons_of_mem y ((ih (y :: seen) x).mpr
              ⟨hh, by
                intro hs
                rcases List.mem_cons.mp hs with h3 | h3
                · exact hxy h3
                · exact h2 h3⟩)

/-- Membership in `firstDedup`. -/
theorem firstDedup_mem {β : Type} [DecidableEq β] (l : List β) (x : β) :
    x ∈ firstDedup l ↔ x ∈ l := by
  rw [show firstDedup l = firstDedup.go [] l from rfl, firstDedup_go_mem]
  simp

/-- Appending one element to the deduplicated stream. -/
theorem firstDedup_go_concat {β : Type} [DecidableEq β] (l : List β) :
    ∀ (seen : List β) (x : β),
      firstDedup.go seen (l ++ [x])
        = firstDedup.go seen l ++ (if x ∈ seen ∨ x ∈ l then [] else [x]) := by
  induction l with
  | nil =>
    intro seen x
    by_cases h : x ∈ seen <;> simp [firstDedup.go, h]
  | cons y ys ih =>
    intro seen x
    by_cases h : y ∈ seen
    · rw [show (y :: ys) ++ [x] = y :: (ys ++ [x]) from rfl]
      rw [show firstDedup.go seen (y :: (ys ++ [x])) = firstDedup.go seen (ys ++ [x]) by
          simp [firstDedup.go, h],
        show firstDedup.go seen (y :: ys) = firstDedup.go seen ys by
          simp [firstDedup.go, h],
        ih]
      have hcond : (x ∈ seen ∨ x ∈ ys) ↔ (x ∈ seen ∨ x ∈ y :: ys) := by
        constructor
        · rintro (h1 | h1)
          · exact Or.inl h1
          · exact Or.inr (List.mem_cons_of_mem y h1)
        · rintro (h1 | h1)
          · exact Or.inl h1
          · rcases List.mem_cons.mp h1 with hh | hh
            · exact Or.inl (hh ▸ h)
            · exact Or.inr hh
      by_cases hc : x ∈ seen ∨ x ∈ ys
      · rw [if_pos hc, if_pos (hcond.mp hc)]
      · rw [if_neg hc, if_neg (fun hh => hc (hcond.mpr hh))]
    · rw [show (y :: ys) ++ [x] = y :: (ys ++ [x]) from rfl]
      rw [show firstDedup.go seen (y :: (ys ++ [x]))
            = y :: firstDedup.go (y :: seen) (ys ++ [x]) by
          simp [firstDedup.go, h],
        show firstDedup.go seen (y :: ys) = y :: firstDedup.go (y :: seen) ys by
          simp [firstDedup.go, h],
        ih]
      have hcond : (x ∈ y :: seen ∨ x ∈ ys) ↔ (x ∈ seen ∨ x ∈ y :: ys) := by
        constructor
        · rintro (h1 | h1)
          · rcases List.mem_cons.mp h1 with hh | hh
            · exact Or.inr (hh ▸ List.mem_cons_self y ys)
            · exact Or.inl hh
          · exact Or.inr (List.mem_cons_of_mem y h1)
        · rintro (h1 | h1)
          · exact Or.inl (List.mem_cons_of_mem y h1)
          · rcases List.mem_cons.mp h1 with hh | hh
            · exact Or.inl (hh ▸ List.mem_cons_self y seen)
            · exact Or.inr hh
      by_cases hc : x ∈ y :: seen ∨ x ∈ ys
      · rw [if_pos hc, if_pos (hcond.mp hc)]
        simp
      · rw [if_neg hc, if_neg (fun hh => hc (hcond.mpr hh))]
        simp

/-- Appending one element to `firstDedup`. -/
theorem firstDedup_concat {β : Type} [DecidableEq β] (l : List β) (x : β) :
    firstDedup (l ++ [x])
      = firstDedup l ++ (if x ∈ l then [] else [x]) := by
  rw [show firstDedup (l ++ [x]) = firstDedup.go [] (l ++ [x]) from rfl,
    firstDedup_go_concat, show firstDedup.go [] l = firstDedup l from rfl]
  by_cases h : x ∈ l
  · rw [if_pos (Or.inr h), if_pos h]
  · rw [if_neg (by rintro (hh | hh); cases hh; exact h hh), if_neg h]

/-- `__mapInstanceCategoryList` is the merge fold over the contribution
stream. -/
theorem mapInstanceCategoryList_eq_mdOf (parse : String → Option String) (f : Filters)
    (tObj : TableDef) (catNames : List String) (container : Container) :
    mapInstanceCategoryList parse f tObj catNames container
      = dValues (mdOf (mergeContribs parse f tObj catNames container)) := by
  unfold mapInstanceCategoryList mdOf mergeContribs
  refine congrArg dValues ?_
  rw [← foldl_flatMap
    (fun cn => match dGet container.objs cn with
      | none => []
      | some cat => cat.rowList.map (fun row =>
          (mergeKey tObj cn cat row, mapRowMulti parse f tObj cn cat row)))
    (fun mD c => dInsert mD c.1 (dUpdate ((dGet mD c.1).getD []) c.2)) catNames []]
  apply foldl_body_ext
  intro mD cn
  rcases h : dGet container.objs cn with _ | cat
  · rfl
  · rw [List.foldl_map]

/-- `mdOf` appends one contribution. -/
theorem mdOf_concat (cs : List (List String × Row)) (c : List String × Row) :
    mdOf (cs ++ [c])
      = dInsert (mdOf cs) c.1 (dUpdate ((dGet (mdOf cs) c.1).getD []) c.2) := by
  unfold mdOf
  rw [List.foldl_append]
  rfl

/-- `rowFor` appends one contribution. -/
theorem rowFor_concat (cs : List (List String × Row)) (c : List String × Row)
    (k : List String) :
    rowFor (cs ++ [c]) k
      = if c.1 = k then dUpdate (rowFor cs k) c.2 else rowFor cs k := by
  unfold rowFor
  rw [List.filter_append]
  by_cases h : c.1 = k
  · rw [show List.filter (fun c => decide (c.1 = k)) [c] = [c] by simp [h],
      List.foldl_append, if_pos h]
    rfl
  · rw [show List.filter (fun c => decide (c.1 = k)) [c] = [] by simp [h],
      List.append_nil, if_neg h]

/-- `valueSeq` appends one contribution. -/
theorem valueSeq_concat (cs : List (List String × Row)) (c : List String × Row)
    (k : List String) (a : String) :
    valueSeq (cs ++ [c]) k a
      = valueSeq cs k a ++ (if c.1 = k then (dGet c.2 a).toList else []) := by
  unfold valueSeq
  rw [List.filter_append]
  by_cases h : c.1 = k
  · rw [show List.filter (fun c => decide (c.1 = k)) [c] = [c] by simp [h],
      List.filterMap_append, if_pos h]
    congr 1
  · rw [show List.filter (fun c => decide (c.1 = k)) [c] = [] by simp [h],
      List.append_nil, if_neg h, List.append_nil]

/-- `rowFor` of an absent key is empty. -/
theorem rowFor_of_not_mem (cs : List (List String × Row)) (k : List String)
    (h : k ∉ cs.map (fun c => c.1)) : rowFor cs k = [] := by
  unfold rowFor
  rw [show List.filter (fun c => decide (c.1 = k)) cs = [] by
    rw [List.filter_eq_nil_iff]
    intro c hc
    simp only [decide_eq_true_eq]
    intro hk
    exact h (List.mem_map.mpr ⟨c, hc, hk⟩)]
  rfl

/-- The central merge characterization: the accumulated `mD` is the mapped
dictionary over first-occurrence-ordered distinct merge keys, each bound to
the update-fold of its contributions, whose per-attribute lookup is the
LAST contributed value. -/
theorem mdOf_char (cs : List (List String × Row))
    (hnd : ∀ c ∈ cs, (dKeys c.2).Nodup) :
    mdOf cs = (firstDedup (cs.map (fun c => c.1))).map (fun k => (k, rowFor cs k)) ∧
    ∀ k a, dGet (rowFor cs k) a = (valueSeq cs k a).getLast? := by
  induction cs using List.reverseRecOn with
  | nil =>
    refine ⟨rfl, fun k a => ?_⟩
    simp [rowFor, valueSeq]
  | append_singleton cs c ih =>
    have hnd' : ∀ c' ∈ cs, (dKeys c'.2).Nodup :=
      fun c' h => hnd c' (List.mem_append_left _ h)
    have hndc : (dKeys c.2).Nodup :=
      hnd c (List.mem_append_right _ (List.mem_singleton_self c))
    rcases ih hnd' with ⟨ihmap, ihpt⟩
    have hksnd : (firstDedup (cs.map (fun c => c.1))).Nodup := firstDedup_nodup _
    constructor
    · rw [mdOf_concat, ihmap, List.map_append, List.map_singleton, firstDedup_concat]
      by_cases hc : c.1 ∈ cs.map (fun c => c.1)
      · have hcks : c.1 ∈ firstDedup (cs.map (fun c => c.1)) :=
          (firstDedup_mem _ _).mpr hc
        rw [dGet_mapped, if_pos hcks, if_pos hc, List.append_nil]
        rw [show ((some (rowFor cs c.1)).getD [] : Row) = rowFor cs c.1 from rfl]
        rw [dInsert_mapped _ _ _ _ hksnd hcks]
        apply List.map_congr_left
        intro k hk
        rw [rowFor_concat]
        by_cases hkc : k = c.1
        · rw [if_pos hkc, if_pos (hkc ▸ rfl : c.1 = k), hkc]
        · rw [if_neg hkc, if_neg (fun hh => hkc hh.symm)]
      · have hcks : c.1 ∉ firstDedup (cs.map (fun c => c.1)) :=
          fun hh => hc ((firstDedup_mem _ _).mp hh)
        have hnotc : dContains ((firstDedup (cs.map (fun c => c.1))).map
            (fun k => (k, rowFor cs k))) c.1 = false := by
          rcases hb : dContains ((firstDedup (cs.map (fun c => c.1))).map
              (fun k => (k, rowFor cs k))) c.1 with _ | _
          · exact hb
          · exfalso
            rcases (dContains_iff_dGet _ _).mp hb with ⟨v, hv⟩
            rw [dGet_mapped, if_neg hcks] at hv
            cases hv
        rw [dGet_mapped, if_neg hcks, if_neg hc]
        rw [show ((none : Option Row).getD [] : Row) = [] from rfl]
        rw [dInsert_fresh_append _ _ _ hnotc, List.map_append, List.map_singleton]
        congr 1
        · apply List.map_congr_left
          intro k hk
          rw [rowFor_concat, if_neg (fun hh => hcks (by rw [hh]; exact hk))]
        · rw [rowFor_concat, if_pos rfl, rowFor_of_not_mem cs c.1 hc]
    · intro k a
      rw [rowFor_concat, valueSeq_concat]
      by_cases h : c.1 = k
      · rw [if_pos h, if_pos h, dGet_dUpdate_nodup _ _ _ hndc]
        rcases hg : dGet c.2 a with _ | v
        · rw [ihpt k a]
          simp
        · simp
      · rw [if_neg h, if_neg h, List.append_nil, ihpt k a]

/-- A lookup set by a conditional-insert fold comes from the key list or
the initial dictionary. -/
theorem dGet_foldl_insertOpt_mem {ι κ' β : Type} [DecidableEq κ'] (l : List ι)
    (d0 : Dict κ' β) (kf : ι → κ') (vf : ι → Option β) (k : κ') (v : β)
    (h : dGet (l.foldl (fun d e =>
        (vf e).elim d (fun x => dInsert d (kf e) x)) d0) k = some v) :
    (∃ e ∈ l, kf e = k) ∨ dGet d0 k = some v := by
  rw [dGet_foldl_insertOpt] at h
  rcases hf : l.reverse.find? (fun e => decide (kf e = k) && (vf e).isSome) with _ | e
  · rw [hf] at h
    exact Or.inr h
  · left
    have hmem := List.mem_of_find?_eq_some hf
    have hp := List.find?_some hf
    simp only [Bool.and_eq_true, decide_eq_true_eq] at hp
    exact ⟨e, List.mem_reverse.mp hmem, hp.1⟩

/-- With drop-empty-attributes active, an extracted row binds only
attributes the source category maps. -/
theorem mapRowMulti_domain (parse : String → Option String) (f : Filters)
    (tObj : TableDef) (cn : String) (cat : Category) (row : List String)
    (a : String) (v : CellVal) (hde : f.dropEmpty = true)
    (h : dGet (mapRowMulti parse f tObj cn cat row) a = some v) :
    a ∈ tObj.getMapInstanceAttributeIdList cn := by
  unfold mapRowMulti at h
  rw [show initRow f tObj = [] by simp [initRow, hde]] at h
  rw [foldl_body_ext _
      (fun d e => ((extractCellW parse f tObj cat row e).1).elim d
        (fun x => dInsert d e x))
      (fun b e => by
        rcases hx : (extractCellW parse f tObj cat row e).1 with _ | x <;> simp [hx])
      _ _] at h
  rcases dGet_foldl_insertOpt_mem (tObj.getMapInstanceAttributeIdList cn) []
      (fun atId => atId) (fun atId => (extractCellW parse f tObj cat row atId).1)
      a v h with hmem | hinit
  · rcases hmem with ⟨e, he, hek⟩
    exact hek ▸ he
  · cases hinit

/-- Second-component projection of a pair-state fold. -/
theorem foldl_snd_proj {ι σ τ : Type} (l : List ι) (g1 : σ × τ → ι → σ)
    (g2 : τ → ι → τ) : ∀ st : σ × τ,
    (l.foldl (fun st e => (g1 st e, g2 st.2 e)) st).2 = l.foldl g2 st.2 := by
  induction l with
  | nil => intro st; rfl
  | cons e es ih =>
    intro st
    rw [List.foldl_cons, List.foldl_cons]
    exact ih _

/-- A fold with optional events equals the fold over the extracted events. -/
theorem foldl_filterMap_opt {ι σ δ : Type} (l : List ι) (h : ι → Option δ)
    (g : σ → δ → σ) : ∀ s0,
    l.foldl (fun s e => ((h e).elim s (fun d => g s d))) s0
      = (l.filterMap h).foldl g s0 := by
  induction l with
  | nil => intro s0; rfl
  | cons e es ih =>
    intro s0
    rw [List.foldl_cons, List.filterMap_cons]
    rcases hx : h e with _ | d
    · exact ih s0
    · rw [List.foldl_cons]
      exact ih (g s0 d)

/-- The overflow accumulator of one category extraction is the
overflow-record fold over its event stream. -/
theorem mapInstanceCategory_acc (parse : String → Option String) (f : Filters)
    (tObj : TableDef) (cn : String) (container : Container) (acc : Overflow) :
    (mapInstanceCategory parse f tObj cn container acc).2
      = (dGet container.objs cn).elim acc
          (fun cat => (overflowEvents parse f tObj cn cat).foldl
            (fun a e => overflowRecord a e.1 e.2) acc) := by
  unfold mapInstanceCategory
  rcases hobj : dGet container.objs cn with _ | cat
  · rfl
  · rw [Option.elim_some]
    rw [foldl_snd_proj cat.rowList
      (fun st row => st.1 ++ [(mapRowSingle parse f tObj cn cat row st.2).1])
      (fun a row => (mapRowSingle parse f tObj cn cat row a).2) ([], acc)]
    unfold overflowEvents
    rw [← foldl_flatMap
      (fun row => (tObj.getMapInstanceAttributeIdList cn).filterMap (fun atId =>
        ((extractCellW parse f tObj cat row atId).2).map (fun l => ((tObj.id, atId), l))))
      (fun a e => overflowRecord a e.1 e.2) cat.rowList acc]
    apply foldl_body_ext
    intro a row
    unfold mapRowSingle
    rw [foldl_snd_proj (tObj.getMapInstanceAttributeIdList cn)
      (fun st atId => ((extractCellW parse f tObj cat row atId).1).elim st.1
        (fun v => dInsert st.1 atId v))
      (fun a2 atId => ((extractCellW parse f tObj cat row atId).2).elim a2
        (fun l => overflowRecord a2 (tObj.id, atId) l))
      (initRow f tObj, a)]
    rw [foldl_body_ext
      (fun a2 atId => ((extractCellW parse f tObj cat row atId).2).elim a2
        (fun l => overflowRecord a2 (tObj.id, atId) l))
      (fun a2 atId => (((extractCellW parse f tObj cat row atId).2).map
          (fun l => ((tObj.id, atId), l))).elim a2
        (fun d => overflowRecord a2 d.1 d.2))
      (fun b e => by
        rcases hx : (extractCellW parse f tObj cat row e).2 with _ | l <;> simp [hx])
      _ a]
    rw [foldl_filterMap_opt]

/-- Pointwise characterization of the overflow-record fold: the monotone
maximum of the matching event lengths over the prior entry. -/
theorem dGet_foldl_overflowRecord (es : List ((String × String) × Nat)) :
    ∀ (acc : Overflow) (k : String × String),
    dGet (es.foldl (fun a e => overflowRecord a e.1 e.2) acc) k
      = maxFold (dGet acc k)
          (es.filterMap (fun e => if e.1 = k then some e.2 else none)) := by
  induction es with
  | nil => intro acc k; rfl
  | cons e es ih =>
    intro acc k
    rw [List.foldl_cons, ih]
    by_cases h : e.1 = k
    · subst h
      rw [show List.filterMap (fun e2 => if e2.1 = e.1 then some e2.2 else none) (e :: es)
          = e.2 :: List.filterMap (fun e2 => if e2.1 = e.1 then some e2.2 else none) es by
        simp]
      have hrec : dGet (overflowRecord acc e.1 e.2) e.1
          = some ((dGet acc e.1).elim e.2 (fun m => max m e.2)) := by
        unfold overflowRecord
        rcases hg : dGet acc e.1 with _ | m
        · simp
        · simp
      rw [hrec]
      rcases hg : dGet acc e.1 with _ | m <;> rfl
    · rw [show List.filterMap (fun e2 => if e2.1 = k then some e2.2 else none) (e :: es)
          = List.filterMap (fun e2 => if e2.1 = k then some e2.2 else none) es by
        simp [h]]
      have hrec : dGet (overflowRecord acc e.1 e.2) k = dGet acc k := by
        unfold overflowRecord
        rcases hg : dGet acc e.1 with _ | m
        · exact dGet_insert_ne _ _ _ _ h
        · exact dGet_insert_ne _ _ _ _ h
      rw [hrec]

/-- A prior entry only grows under the monotone maximum accumulation. -/
theorem maxFold_some_le (ls : List Nat) :
    ∀ v, ∃ w, maxFold (some v) ls = some w ∧ v ≤ w := by
  induction ls with
  | nil => intro v; exact ⟨v, rfl, Nat.le_refl v⟩
  | cons x xs ih =>
    intro v
    rcases ih (max v x) with ⟨w, hw, hle⟩
    exact ⟨w, hw, Nat.le_trans (Nat.le_max_left v x) hle⟩

/-! ## Characterization of the one-pass partitioner -/

section OnePassBasic

variable {κ α : Type} [DecidableEq κ]

/-- `dContains` is membership in the key list. -/
theorem dContains_iff_mem_keys (d : Dict κ α) (k : κ) :
    dContains d k = true ↔ k ∈ dKeys d := by
  rw [dContains_iff_dGet]
  constructor
  · rintro ⟨v, hv⟩
    exact List.mem_map.mpr ⟨(k, v), mem_of_dGet hv, rfl⟩
  · intro hm
    induction d with
    | nil => simp [dKeys] at hm
    | cons e0 es ih =>
      by_cases h0 : e0.1 = k
      · exact ⟨e0.2, by rw [dGet_cons]; simp [h0]⟩
      · have hm' : k ∈ dKeys es := by
          rcases List.mem_map.mp hm with ⟨e, he, hek⟩
          rcases List.mem_cons.mp he with h | h
          · exact absurd (h ▸ hek) h0
          · exact List.mem_map.mpr ⟨e, h, hek⟩
        rcases ih hm' with ⟨v, hv⟩
        exact ⟨v, by rw [dGet_cons, if_neg h0]; exact hv⟩

omit [DecidableEq κ] in
/-- In a nodup-keyed entry list, entries with equal keys are equal. -/
theorem nodup_keys_entry_eq {l : Dict κ α} (hnd : (dKeys l).Nodup)
    {x y : κ × α} (hx : x ∈ l) (hy : y ∈ l) (hk : x.1 = y.1) : x = y := by
  induction l with
  | nil => cases hx
  | cons e es ih =>
    rw [dKeys, List.map_cons, List.nodup_cons] at hnd
    rcases List.mem_cons.mp hx with h1 | h1 <;> rcases List.mem_cons.mp hy with h2 | h2
    · rw [h1, h2]
    · exfalso
      apply hnd.1
      have hmem : y.1 ∈ List.map (fun x => x.1) es := List.mem_map.mpr ⟨y, h2, rfl⟩
      rw [← hk, h1] at hmem
      exact hmem
    · exfalso
      apply hnd.1
      have hmem : x.1 ∈ List.map (fun x => x.1) es := List.mem_map.mpr ⟨x, h1, rfl⟩
      rw [hk, h2] at hmem
      exact hmem
    · exact ih hnd.2 h1 h2

/-- Re-inserting at a key overwrites the earlier insert. -/
theorem dInsert_dInsert (d : Dict κ α) (k : κ) (x y : α) :
    dInsert (dInsert d k x) k y = dInsert d k y := by
  induction d with
  | nil => simp [dInsert]
  | cons e es ih =>
    by_cases h : e.1 = k
    · simp [dInsert, h]
    · simp [dInsert, h, ih]

/-- Folding fresh-key inserts appends the mapped entries. -/
theorem foldl_insert_fresh_mapped (g : κ → α) :
    ∀ (ks : List κ) (d0 : Dict κ α), ks.Nodup →
      (∀ k ∈ ks, dContains d0 k = false) →
      ks.foldl (fun d k => dInsert d k (g k)) d0
        = d0 ++ ks.map (fun k => (k, g k)) := by
  intro ks
  induction ks with
  | nil => intro d0 _ _; simp
  | cons k rest ih =>
    intro d0 hnd hfresh
    rw [List.foldl_cons,
      dInsert_fresh_append d0 k (g k) (hfresh k (List.mem_cons_self k rest)),
      ih (d0 ++ [(k, g k)]) (List.nodup_cons.mp hnd).2 ?_, List.map_cons,
      List.append_assoc, List.singleton_append]
    intro k' hk'
    have hne : k ≠ k' := by
      intro hh
      exact (List.nodup_cons.mp hnd).1 (hh ▸ hk')
    have h0 := hfresh k' (List.mem_cons_of_mem k hk')
    rw [← dInsert_fresh_append d0 k (g k) (hfresh k (List.mem_cons_self k rest)),
      dContains_insert]
    simp [hne, h0]

/-- Folding a constant-value insert over all keys of a mapped-form
dictionary overwrites every value. -/
theorem foldl_insert_const_sub (x : α) (ks : List κ) (hnd : ks.Nodup) :
    ∀ (l : List κ) (g : κ → α), (∀ k ∈ l, k ∈ ks) →
      l.foldl (fun m v => dInsert m v x) (ks.map (fun k => (k, g k)))
        = ks.map (fun k => (k, if k ∈ l then x else g k)) := by
  intro l
  induction l with
  | nil =>
    intro g _
    simp
  | cons v rest ih =>
    intro g hsub
    rw [List.foldl_cons,
      dInsert_mapped ks g v x hnd (hsub v (List.mem_cons_self v rest)),
      ih (fun k => if k = v then x else g k)
        (fun k hk => hsub k (List.mem_cons_of_mem v hk))]
    apply List.map_congr_left
    intro k _
    by_cases h1 : k ∈ rest
    · simp [h1, List.mem_cons]
    · by_cases h2 : k = v <;> simp [h1, h2, List.mem_cons]

/-- Flattening the single-parent tuples recovers the value list. -/
theorem flatMap_singleton_snd (p : ParentItem) (pvs : List CellVal) :
    (pvs.map (fun v => [(p, v)])).flatMap (fun tup => tup.map (·.2)) = pvs := by
  induction pvs with
  | nil => rfl
  | cons v rest ih => simp [ih]

/-- `dValues` of a mapped-form dictionary. -/
theorem dValues_mapped {β : Type} (ks : List β) (g : β → α) :
    dValues (ks.map (fun k => (k, g k))) = ks.map g := by
  simp [dValues, List.map_map]

end OnePassBasic

section OnePassExtrasChar

/-- The extras fold succeeds when every listed table is present in the
data, and computes the pure specified fold. -/
theorem onePassExtrasDict_go (sa : SchemaAccess) (sd : SliceDef) (data : TableData) :
    ∀ (l : List String) (rD0 : Dict String OutVal),
      (∀ t ∈ l, dContains data t = true) →
      l.foldlM
        (fun rD schemaId =>
          match dGet data schemaId with
          | none => Except.error "KeyError: slice extra not in data"
          | some iRowDList =>
            if (iRowDList.map (renameRow (sa.attributeName schemaId))).length < 1
                && !(sa.isMandatory schemaId) then Except.ok rD
            else Except.ok (dInsert rD (sa.schemaName schemaId)
              (collapseCard (sd.hasSliceUnitCard schemaId)
                (iRowDList.map (renameRow (sa.attributeName schemaId)))))) rD0
        = Except.ok (l.foldl
            (fun rD t => (extraEntry sa sd data t).elim rD
              (fun ov => dInsert rD (sa.schemaName t) ov)) rD0) := by
  intro l
  induction l with
  | nil =>
    intro rD0 _
    rw [List.foldlM_nil, List.foldl_nil]
    rfl
  | cons t rest ih =>
    intro rD0 hcont
    rcases (dContains_iff_dGet data t).mp (hcont t (List.mem_cons_self t rest))
      with ⟨rows, hget⟩
    simp only [List.foldlM_cons, List.foldl_cons, hget]
    by_cases hdrop : ((rows.map (renameRow (sa.attributeName t))).length < 1
        && !(sa.isMandatory t)) = true
    · have hee : extraEntry sa sd data t = none := by
        rw [extraEntry, hget]
        simp only [Option.getD_some]
        rw [if_pos hdrop]
      rw [if_pos hdrop, except_ok_bind, hee]
      simp only [Option.elim_none]
      exact ih rD0 (fun t' ht' => hcont t' (List.mem_cons_of_mem t ht'))
    · have hee : extraEntry sa sd data t
          = some (collapseCard (sd.hasSliceUnitCard t)
              (rows.map (renameRow (sa.attributeName t)))) := by
        rw [extraEntry, hget]
        simp only [Option.getD_some]
        rw [if_neg hdrop]
      rw [if_neg hdrop, except_ok_bind, hee]
      simp only [Option.elim_some]
      exact ih _ (fun t' ht' => hcont t' (List.mem_cons_of_mem t ht'))

/-- The extras dictionary succeeds and equals its specified form. -/
theorem onePassExtrasDict_ok (sa : SchemaAccess) (sd : SliceDef) (data : TableData)
    (h : ∀ t ∈ sd.extraIds, dContains data t = true) :
    onePassExtrasDict sa sd data = Except.ok (extrasDictSpec sa sd data) :=
  onePassExtrasDict_go sa sd data sd.extraIds [] h

/-- Lookups in the specified extras dictionary: the renamed key of a listed
table holds its entry; keys renamed from no listed table are absent. -/
theorem dGet_extrasDictSpec (sa : SchemaAccess) (sd : SliceDef) (data : TableData)
    (hinj : ∀ t1 ∈ dKeys data, ∀ t2 ∈ dKeys data,
      sa.schemaName t1 = sa.schemaName t2 → t1 = t2)
    (hsub : ∀ t ∈ sd.extraIds, t ∈ dKeys data) :
    (∀ t ∈ sd.extraIds,
      dGet (extrasDictSpec sa sd data) (sa.schemaName t) = extraEntry sa sd data t) ∧
    (∀ n, (∀ t ∈ sd.extraIds, sa.schemaName t ≠ n) →
      dGet (extrasDictSpec sa sd data) n = none) := by
  constructor
  · intro t ht
    rw [extrasDictSpec, dGet_foldl_insertOpt]
    rcases hee : extraEntry sa sd data t with _ | ov
    · have hfind : sd.extraIds.reverse.find?
          (fun t' => decide (sa.schemaName t' = sa.schemaName t)
            && (extraEntry sa sd data t').isSome) = none := by
        rw [List.find?_eq_none]
        intro t' ht' hp
        rw [Bool.and_eq_true] at hp
        rcases hp with ⟨hp1, hp2⟩
        have ht'' := List.mem_reverse.mp ht'
        have heq : t' = t := hinj t' (hsub t' ht'') t (hsub t ht) (of_decide_eq_true hp1)
        rw [heq, hee] at hp2
        cases hp2
      rw [hfind]
      rfl
    · have hfind : sd.extraIds.reverse.find?
          (fun t' => decide (sa.schemaName t' = sa.schemaName t)
            && (extraEntry sa sd data t').isSome) = some t := by
        apply find?_eq_some_of_unique (List.mem_reverse.mpr ht)
        · simp [hee]
        · intro t' ht' hp
          rw [Bool.and_eq_true] at hp
          exact hinj t' (hsub t' (List.mem_reverse.mp ht')) t (hsub t ht)
            (of_decide_eq_true hp.1)
      rw [hfind]
      exact hee
  · intro n hn
    rw [extrasDictSpec, dGet_foldl_insertOpt]
    have hfind : sd.extraIds.reverse.find?
        (fun t' => decide (sa.schemaName t' = n)
          && (extraEntry sa sd data t').isSome) = none := by
      rw [List.find?_eq_none]
      intro t' ht' hp
      rw [Bool.and_eq_true] at hp
      exact hn t' (List.mem_reverse.mp ht') (of_decide_eq_true hp.1)
    rw [hfind]
    rfl

end OnePassExtrasChar

section OnePassSkd

/-- The inner `singleKeyAtD` fold with pairwise-fresh keys appends the kept
entries. -/
theorem buildSKD_go (data : TableData) (p : ParentItem) :
    ∀ (l : SliceIndex) (skd0 : Dict String (List String)),
      (dKeys l).Nodup →
      (∀ e ∈ l, dContains skd0 e.1 = false) →
      l.foldl
        (fun skd e =>
          if dContains data e.1 then
            match dGet e.2 p with
            | some atL => dInsert skd e.1 (((dGet skd e.1).getD []) ++ atL)
            | none => skd
          else skd) skd0
      = skd0 ++ l.filterMap (fun e =>
          if dContains data e.1 then (dGet e.2 p).map (fun atL => (e.1, atL))
          else none) := by
  intro l
  induction l with
  | nil =>
    intro skd0 _ _
    simp
  | cons e rest ih =>
    intro skd0 hnd hfresh
    rw [dKeys, List.map_cons, List.nodup_cons] at hnd
    have hfr : dContains skd0 e.1 = false := hfresh e (List.mem_cons_self e rest)
    simp only [List.foldl_cons, List.filterMap_cons]
    by_cases hc : dContains data e.1 = true
    · rcases hget : dGet e.2 p with _ | atL
      · simp only [hc, if_true, hget, Option.map_none']
        exact ih skd0 hnd.2 (fun e' he' => hfresh e' (List.mem_cons_of_mem e he'))
      · simp only [hc, if_true, hget, Option.map_some']
        rw [dGet_eq_none_of_not_contains skd0 e.1 hfr]
        rw [show ((none : Option (List String)).getD [] ++ atL) = atL
          from List.nil_append atL]
        rw [dInsert_fresh_append skd0 e.1 atL hfr]
        rw [ih (skd0 ++ [(e.1, atL)]) hnd.2 ?_]
        · simp [List.append_assoc]
        · intro e' he'
          rw [← dInsert_fresh_append skd0 e.1 atL hfr, dContains_insert]
          have hne : e.1 ≠ e'.1 := by
            intro hh
            exact hnd.1 (hh ▸ List.mem_map.mpr ⟨e', he', rfl⟩)
          simp [hne, hfresh e' (List.mem_cons_of_mem e he')]
    · have hc' : dContains data e.1 = false := eq_false_of_ne_true hc
      simp only [hc', Bool.false_eq_true, if_false]
      exact ih skd0 hnd.2 (fun e' he' => hfresh e' (List.mem_cons_of_mem e he'))

/-- `singleKeyAtD` for a single-parent tuple is its specified form. -/
theorem buildSingleKeyAtD_single (data : TableData) (sliceIndex : SliceIndex)
    (p : ParentItem) (v : CellVal) (hnd : (dKeys sliceIndex).Nodup) :
    buildSingleKeyAtD data sliceIndex [(p, v)] = skdSpec data sliceIndex p := by
  rw [buildSingleKeyAtD, List.foldl_cons, List.foldl_nil]
  rw [buildSKD_go data p sliceIndex [] hnd (fun e _ => rfl)]
  rw [skdSpec, List.nil_append]

/-- Membership in the specified single-parent-key table list. -/
theorem mem_skdSpec {data : TableData} {sliceIndex : SliceIndex} {p : ParentItem}
    {x : String × List String} (h : x ∈ skdSpec data sliceIndex p) :
    x.1 ∈ dKeys sliceIndex ∧ dContains data x.1 = true ∧
      ∃ mE ∈ sliceIndex, mE.1 = x.1 ∧ dGet mE.2 p = some x.2 := by
  rcases List.mem_filterMap.mp h with ⟨e, he, hfe⟩
  by_cases hc : dContains data e.1 = true
  · rw [if_pos hc] at hfe
    rcases Option.map_eq_some'.mp hfe with ⟨atL, hget, hx⟩
    have hx1 : x.1 = e.1 := by rw [← hx]
    have hx2 : x.2 = atL := by rw [← hx]
    refine ⟨hx1 ▸ List.mem_map.mpr ⟨e, he, rfl⟩, hx1 ▸ hc, e, he, hx1.symm, ?_⟩
    rw [hx2]
    exact hget
  · rw [if_neg hc] at hfe
    cases hfe

/-- Construction of a specified single-parent-key entry. -/
theorem skdSpec_intro {data : TableData} {sliceIndex : SliceIndex} {p : ParentItem}
    {t : String} {mD : Dict ParentItem (List String)} {atL : List String}
    (hmem : (t, mD) ∈ sliceIndex) (hc : dContains data t = true)
    (hget : dGet mD p = some atL) : (t, atL) ∈ skdSpec data sliceIndex p := by
  apply List.mem_filterMap.mpr
  exact ⟨(t, mD), hmem, by rw [if_pos hc]; simp [hget]⟩

/-- The specified single-parent-key table keys form a sublist of the
slice-index keys. -/
theorem skdSpec_keys_sublist (data : TableData) (sliceIndex : SliceIndex)
    (p : ParentItem) :
    (dKeys (skdSpec data sliceIndex p)).Sublist (dKeys sliceIndex) := by
  rw [skdSpec]
  induction sliceIndex with
  | nil => exact List.Sublist.refl _
  | cons e rest ih =>
    rw [List.filterMap_cons]
    rcases hfe : (if dContains data e.1 then (dGet e.2 p).map (fun atL => (e.1, atL))
        else none) with _ | x
    · exact List.Sublist.cons e.1 ih
    · have hx1 : x.1 = e.1 := by
        by_cases hc : dContains data e.1 = true
        · rw [if_pos hc] at hfe
          rcases Option.map_eq_some'.mp hfe with ⟨atL, _, hx⟩
          rw [← hx]
        · rw [if_neg hc] at hfe
          cases hfe
      show (dKeys (x :: _)).Sublist (dKeys (e :: rest))
      rw [dKeys, dKeys, List.map_cons, List.map_cons, hx1]
      exact List.Sublist.cons₂ e.1 ih

/-- The specified single-parent-key table list has nodup keys. -/
theorem skdSpec_keys_nodup (data : TableData) (sliceIndex : SliceIndex)
    (p : ParentItem) (h : (dKeys sliceIndex).Nodup) :
    (dKeys (skdSpec data sliceIndex p)).Nodup :=
  List.Nodup.sublist (skdSpec_keys_sublist data sliceIndex p) h

end OnePassSkd

section OnePassRvSet

/-- A value occurs in the per-row child-value set iff some child attribute
of the row holds it. -/
theorem mem_rvSet_iff (atL : List String) (r : Row) (v : CellVal) :
    (some v ∈ rvSet atL r) ↔ matchesVal atL v r = true := by
  rw [rvSet, List.mem_dedup, List.mem_map, matchesVal, List.any_eq_true]
  constructor
  · rintro ⟨a, ha, hg⟩
    exact ⟨a, ha, by rw [hg, beq_self_eq_true]⟩
  · rintro ⟨a, ha, hg⟩
    exact ⟨a, ha, beq_iff_eq.mp hg⟩

/-- The child-value set is duplicate-free. -/
theorem rvSet_nodup (atL : List String) (r : Row) : (rvSet atL r).Nodup :=
  List.nodup_dedup _

end OnePassRvSet

section OnePassSplit

/-- `splitRowInsert` skips a missing child value. -/
theorem splitRowInsert_none (uFlag : Bool) (objName : String) (o : Row)
    (retD : RetD) : splitRowInsert uFlag objName o retD none = Except.ok retD := rfl

/-- `splitRowInsert` skips a falsy child value. -/
theorem splitRowInsert_falsy (uFlag : Bool) (objName : String) (o : Row)
    (retD : RetD) (w : CellVal) (hw : w.truthy = false) :
    splitRowInsert uFlag objName o retD (some w) = Except.ok retD := by
  simp [splitRowInsert, hw]

/-- `splitRowInsert` on a truthy enumerated value performs one safe
placement into the value's partition. -/
theorem splitRowInsert_truthy (uFlag : Bool) (objName : String) (o : Row)
    (retD : RetD) (w : CellVal) (cur : Dict String OutVal)
    (hw : w.truthy = true) (hget : dGet retD w = some cur)
    (hsafe : SafeAt uFlag (dGet cur objName)) :
    splitRowInsert uFlag objName o retD (some w)
      = Except.ok (dInsert retD w (updOne uFlag objName o cur)) := by
  cases uFlag with
  | true => simp [splitRowInsert, hw, hget, updOne]
  | false =>
    rcases hsafe with hh | hh | ⟨rs, hh⟩
    · exact absurd hh (by simp)
    · simp [splitRowInsert, hw, hget, hh, updOne]
    · simp [splitRowInsert, hw, hget, hh, updOne]

/-- The placement keeps the current table value safe. -/
theorem SafeAt_updOne (uFlag : Bool) (objName : String) (o : Row)
    (pdv : Dict String OutVal) :
    SafeAt uFlag (dGet (updOne uFlag objName o pdv) objName) := by
  cases uFlag with
  | true => exact Or.inl rfl
  | false =>
    right; right
    rcases hcur : dGet pdv objName with _ | ov
    · exact ⟨[o], by simp [updOne, hcur]⟩
    · rcases ov with rs | r | c | ⟨a, d⟩ | s
      · exact ⟨rs ++ [o], by simp [updOne, hcur]⟩
      · exact ⟨[o], by simp [updOne, hcur]⟩
      · exact ⟨[o], by simp [updOne, hcur]⟩
      · exact ⟨[o], by simp [updOne, hcur]⟩
      · exact ⟨[o], by simp [updOne, hcur]⟩

/-- The per-row update keeps the current table value safe. -/
theorem SafeAt_rowUpd (uFlag : Bool) (objName : String) (rename : String → String)
    (atL : List String) (v : CellVal) (pdv : Dict String OutVal) (r : Row)
    (h : SafeAt uFlag (dGet pdv objName)) :
    SafeAt uFlag (dGet (rowUpd uFlag objName rename atL v pdv r) objName) := by
  rw [rowUpd]
  by_cases hm : matchesVal atL v r = true
  · rw [if_pos hm]
    exact SafeAt_updOne uFlag objName (renameRow rename r) pdv
  · rw [if_neg hm]
    exact h

/-- The child-value fold of one row updates exactly the partitions of the
row's truthy enumerated child values. -/
theorem splitRow_rvs_fold (uFlag : Bool) (objName : String) (o : Row)
    (pvs : List CellVal) (hnd : pvs.Nodup) (htr : ∀ v ∈ pvs, v.truthy = true) :
    ∀ (rvs : List (Option CellVal)) (q : CellVal → Dict String OutVal),
      rvs.Nodup →
      (∀ w, some w ∈ rvs → w.truthy = true → w ∈ pvs) →
      (∀ v ∈ pvs, SafeAt uFlag (dGet (q v) objName)) →
      rvs.foldlM (splitRowInsert uFlag objName o) (pvs.map (fun v => (v, q v)))
        = Except.ok (pvs.map (fun v =>
            (v, if some v ∈ rvs then updOne uFlag objName o (q v) else q v))) := by
  intro rvs
  induction rvs with
  | nil =>
    intro q _ _ _
    rw [List.foldlM_nil]
    refine congrArg Except.ok (List.map_congr_left ?_)
    intro v _
    simp
  | cons rv rest ih =>
    intro q hndr helem hsafe
    have hnd2 := (List.nodup_cons.mp hndr).2
    have hnotin := (List.nodup_cons.mp hndr).1
    rw [List.foldlM_cons]
    rcases rv with _ | w
    · rw [splitRowInsert_none, except_ok_bind,
        ih q hnd2 (fun w hw => helem w (List.mem_cons_of_mem _ hw)) hsafe]
      refine congrArg Except.ok (List.map_congr_left ?_)
      intro v _
      by_cases hm : some v ∈ rest
      · rw [if_pos hm, if_pos (List.mem_cons_of_mem _ hm)]
      · rw [if_neg hm, if_neg (fun hmem => by
          rcases List.mem_cons.mp hmem with hh | hh
          · cases hh
          · exact hm hh)]
    · by_cases hw : w.truthy = true
      · have hwp : w ∈ pvs := helem w (List.mem_cons_self _ _) hw
        have hget : dGet (pvs.map (fun v => (v, q v))) w = some (q w) := by
          rw [dGet_mapped, if_pos hwp]
        rw [splitRowInsert_truthy uFlag objName o _ w (q w) hw hget (hsafe w hwp),
          except_ok_bind,
          dInsert_mapped pvs q w (updOne uFlag objName o (q w)) hnd hwp,
          ih (fun k => if k = w then updOne uFlag objName o (q w) else q k) hnd2
            (fun w' hw' => helem w' (List.mem_cons_of_mem _ hw'))
            (fun v hv => by
              show SafeAt uFlag
                (dGet (if v = w then updOne uFlag objName o (q w) else q v) objName)
              by_cases hvw : v = w
              · rw [if_pos hvw]
                exact SafeAt_updOne uFlag objName o (q w)
              · rw [if_neg hvw]
                exact hsafe v hv)]
        refine congrArg Except.ok (List.map_congr_left ?_)
        intro v _
        show (v, if some v ∈ rest then
            updOne uFlag objName o (if v = w then updOne uFlag objName o (q w) else q v)
          else if v = w then updOne uFlag objName o (q w) else q v)
          = (v, if some v ∈ some w :: rest then updOne uFlag objName o (q v) else q v)
        by_cases hvw : v = w
        · subst hvw
          have h1 : some v ∉ rest := fun hmem => hnotin hmem
          rw [if_neg h1, if_pos rfl, if_pos (List.mem_cons_self _ _)]
        · have h1 : (some v ∈ some w :: rest) ↔ some v ∈ rest := by
            rw [List.mem_cons]
            constructor
            · rintro (hh | hh)
              · exact absurd (Option.some_inj.mp hh) hvw
              · exact hh
            · exact Or.inr
          rw [if_neg hvw]
          by_cases hm : some v ∈ rest
          · rw [if_pos hm, if_pos (h1.mpr hm)]
          · rw [if_neg hm, if_neg (fun hh => hm (h1.mp hh))]
      · have hw' : w.truthy = false := eq_false_of_ne_true hw
        rw [splitRowInsert_falsy uFlag objName o _ w hw', except_ok_bind,
          ih q hnd2 (fun w' hw' => helem w' (List.mem_cons_of_mem _ hw')) hsafe]
        refine congrArg Except.ok (List.map_congr_left ?_)
        intro v hv
        have hvw : v ≠ w := by
          intro hh
          rw [← hh] at hw'
          rw [htr v hv] at hw'
          cases hw'
        have h1 : (some v ∈ some w :: rest) ↔ some v ∈ rest := by
          rw [List.mem_cons]
          constructor
          · rintro (hh | hh)
            · exact absurd (Option.some_inj.mp hh) hvw
            · exact hh
          · exact Or.inr
        by_cases hm : some v ∈ rest
        · rw [if_pos hm, if_pos (h1.mpr hm)]
        · rw [if_neg hm, if_neg (fun hh => hm (h1.mp hh))]

/-- Splitting the rows of one table acts per partition as the fold of the
per-row updates. -/
theorem splitRows_char (uFlag : Bool) (objName : String) (rename : String → String)
    (atL : List String) (pvs : List CellVal) (hnd : pvs.Nodup)
    (htr : ∀ v ∈ pvs, v.truthy = true) :
    ∀ (rows : List Row) (q : CellVal → Dict String OutVal),
      (∀ r ∈ rows, ∀ w, matchesVal atL w r = true → w.truthy = true → w ∈ pvs) →
      (∀ v ∈ pvs, SafeAt uFlag (dGet (q v) objName)) →
      splitRows uFlag objName rename atL rows (pvs.map (fun v => (v, q v)))
        = Except.ok (pvs.map (fun v =>
            (v, rows.foldl (fun pdv r => rowUpd uFlag objName rename atL v pdv r)
              (q v)))) := by
  intro rows
  induction rows with
  | nil =>
    intro q _ _
    rw [splitRows, List.foldlM_nil]
    rfl
  | cons r rows' ih =>
    intro q hclo hsafe
    have hstep : (rvSet atL r).foldlM (splitRowInsert uFlag objName (renameRow rename r))
        (pvs.map (fun v => (v, q v)))
        = Except.ok (pvs.map (fun v =>
            (v, rowUpd uFlag objName rename atL v (q v) r))) := by
      rw [splitRow_rvs_fold uFlag objName (renameRow rename r) pvs hnd htr
        (rvSet atL r) q (rvSet_nodup atL r)
        (fun w hw htw => hclo r (List.mem_cons_self r rows') w
          ((mem_rvSet_iff atL r w).mp hw) htw) hsafe]
      refine congrArg Except.ok (List.map_congr_left ?_)
      intro v _
      rw [rowUpd]
      by_cases hm : matchesVal atL v r = true
      · rw [if_pos ((mem_rvSet_iff atL r v).mpr hm), if_pos hm]
      · rw [if_neg (fun hmem => hm ((mem_rvSet_iff atL r v).mp hmem)), if_neg hm]
    rw [splitRows]
    simp only [List.foldlM_cons]
    rw [hstep, except_ok_bind]
    have hih := ih (fun v => rowUpd uFlag objName rename atL v (q v) r)
      (fun r' hr' => hclo r' (List.mem_cons_of_mem r hr'))
      (fun v hv => SafeAt_rowUpd uFlag objName rename atL v (q v) r (hsafe v hv))
    rw [splitRows] at hih
    rw [hih]
    simp only [List.foldl_cons]

end OnePassSplit

section OnePassTables

/-- The fold of the per-row updates from an empty table slot produces the
matching-row content: nothing when no row matches, the assigned last
matching row for a unit-cardinality table, the appended renamed matching
rows otherwise. -/
theorem foldl_rowUpd_spec (uFlag : Bool) (objName : String)
    (rename : String → String) (atL : List String) (v : CellVal) :
    ∀ (rows : List Row) (pdv : Dict String OutVal),
      dGet pdv objName = none →
      rows.foldl (fun pd r => rowUpd uFlag objName rename atL v pd r) pdv
        = if (matchRows rows atL v).isEmpty then pdv
          else dInsert pdv objName
            (splitEntryVal uFlag rename (matchRows rows atL v)) := by
  intro rows
  induction rows using List.reverseRecOn with
  | nil =>
    intro pdv _
    simp [matchRows]
  | append_singleton rows r ih =>
    intro pdv h
    rw [List.foldl_append, List.foldl_cons, List.foldl_nil, ih pdv h]
    have hMapp : matchRows (rows ++ [r]) atL v
        = matchRows rows atL v ++ (if matchesVal atL v r then [r] else []) := by
      rw [matchRows, matchRows, List.filter_append]
      congr 1
      by_cases hm : matchesVal atL v r = true <;> simp [hm]
    by_cases hm : matchesVal atL v r = true
    · rw [rowUpd]
      rw [if_pos hm]
      by_cases hE : (matchRows rows atL v).isEmpty = true
      · have hMnil : matchRows rows atL v = [] := by
          rcases hM : matchRows rows atL v with _ | ⟨m0, ms⟩
          · rfl
          · rw [hM] at hE
            cases hE
        rw [if_pos hE, hMapp, hMnil, if_pos hm, List.nil_append]
        rw [show (([r] : List Row).isEmpty = false) from rfl]
        rw [if_neg (by simp)]
        cases uFlag with
        | true => simp [updOne, splitEntryVal]
        | false => simp [updOne, splitEntryVal, h]
      · have hMne : (matchRows rows atL v) ≠ [] := by
          intro hh
          rw [hh] at hE
          exact hE rfl
        rw [if_neg hE, hMapp, if_pos hm]
        rw [if_neg (by
          intro hh
          rcases List.append_eq_nil.mp (List.isEmpty_iff.mp hh) with ⟨h1, _⟩
          exact hMne h1)]
        cases uFlag with
        | true =>
          rw [show updOne true objName (renameRow rename r)
              (dInsert pdv objName (splitEntryVal true rename (matchRows rows atL v)))
            = dInsert (dInsert pdv objName (splitEntryVal true rename (matchRows rows atL v)))
                objName (OutVal.one (renameRow rename r)) from rfl]
          rw [dInsert_dInsert]
          rw [show splitEntryVal true rename (matchRows rows atL v ++ [r])
              = OutVal.one (renameRow rename
                  (((matchRows rows atL v ++ [r]).getLast?).getD []))
            from if_pos rfl]
          rw [List.getLast?_concat]
          rfl
        | false =>
          have hcur : dGet (dInsert pdv objName
              (splitEntryVal false rename (matchRows rows atL v))) objName
            = some (OutVal.rows ((matchRows rows atL v).map (renameRow rename))) := by
            rw [dGet_insert_self]
            rfl
          rw [show updOne false objName (renameRow rename r)
              (dInsert pdv objName (splitEntryVal false rename (matchRows rows atL v)))
            = dInsert (dInsert pdv objName
                (splitEntryVal false rename (matchRows rows atL v))) objName
                (OutVal.rows ((matchRows rows atL v).map (renameRow rename)
                  ++ [renameRow rename r])) from by
            rw [updOne, if_neg (by simp), hcur]]
          rw [dInsert_dInsert]
          rw [show splitEntryVal false rename (matchRows rows atL v ++ [r])
              = OutVal.rows ((matchRows rows atL v ++ [r]).map (renameRow rename))
            from if_neg (by simp)]
          rw [List.map_append]
          rfl
    · have hm' : matchesVal atL v r = false := eq_false_of_ne_true hm
      rw [rowUpd, if_neg hm, hMapp, if_neg hm, List.append_nil]

/-- The table loop of the one-pass splitter: per partition, the fold of
the per-table content contributions. -/
theorem splitTables_char (sa : SchemaAccess) (sd : SliceDef) (data : TableData)
    (pvs : List CellVal) (hnd : pvs.Nodup) (htr : ∀ v ∈ pvs, v.truthy = true) :
    ∀ (entries : List (String × List String)) (q : CellVal → Dict String OutVal),
      (∀ e ∈ entries, dContains data e.1 = true) →
      (∀ e ∈ entries, ∀ r ∈ (dGet data e.1).getD [], ∀ w,
        matchesVal e.2 w r = true → w.truthy = true → w ∈ pvs) →
      (∀ e ∈ entries, ∀ v ∈ pvs, dGet (q v) (sa.schemaName e.1) = none) →
      (entries.map (fun e => sa.schemaName e.1)).Nodup →
      splitTables sa sd data entries (pvs.map (fun v => (v, q v)))
        = Except.ok (pvs.map (fun v =>
            (v, entries.foldl (entryContentUpd sa sd data v) (q v)))) := by
  intro entries
  induction entries with
  | nil =>
    intro q _ _ _ _
    rw [splitTables, List.foldlM_nil]
    rfl
  | cons e rest ih =>
    intro q hcont hclo hbase hnames
    rw [List.map_cons, List.nodup_cons] at hnames
    rcases (dContains_iff_dGet data e.1).mp (hcont e (List.mem_cons_self e rest))
      with ⟨rows, hget⟩
    rw [splitTables]
    simp only [List.foldlM_cons, hget]
    have hclo' : ∀ r ∈ rows, ∀ w, matchesVal e.2 w r = true → w.truthy = true →
        w ∈ pvs := by
      intro r hr w hmw htw
      exact hclo e (List.mem_cons_self e rest) r (by rw [hget]; exact hr) w hmw htw
    have hsafe : ∀ v ∈ pvs, SafeAt (sd.hasSliceUnitCard e.1)
        (dGet (q v) (sa.schemaName e.1)) := by
      intro v hv
      rw [hbase e (List.mem_cons_self e rest) v hv]
      exact Or.inr (Or.inl rfl)
    have hrows := splitRows_char (sd.hasSliceUnitCard e.1) (sa.schemaName e.1)
      (sa.attributeName e.1) e.2 pvs hnd htr rows q hclo' hsafe
    rw [hrows, except_ok_bind]
    have hq1 : ∀ v ∈ pvs,
        rows.foldl (fun pdv r => rowUpd (sd.hasSliceUnitCard e.1) (sa.schemaName e.1)
          (sa.attributeName e.1) e.2 v pdv r) (q v)
        = entryContentUpd sa sd data v (q v) e := by
      intro v hv
      rw [foldl_rowUpd_spec (sd.hasSliceUnitCard e.1) (sa.schemaName e.1)
        (sa.attributeName e.1) e.2 v rows (q v)
        (hbase e (List.mem_cons_self e rest) v hv)]
      rw [entryContentUpd, entryOpt, hget]
      simp only [Option.getD_some]
      by_cases hE : (matchRows rows e.2 v).isEmpty = true
      · rw [if_pos hE, if_pos hE]
        rfl
      · rw [if_neg hE, if_neg hE]
        rfl
    have hmap1 : (pvs.map (fun v =>
        (v, rows.foldl (fun pdv r => rowUpd (sd.hasSliceUnitCard e.1)
          (sa.schemaName e.1) (sa.attributeName e.1) e.2 v pdv r) (q v))))
        = pvs.map (fun v => (v, entryContentUpd sa sd data v (q v) e)) :=
      List.map_congr_left (fun v hv => by rw [hq1 v hv])
    rw [hmap1]
    have hbase' : ∀ e' ∈ rest, ∀ v ∈ pvs,
        dGet (entryContentUpd sa sd data v (q v) e) (sa.schemaName e'.1) = none := by
      intro e' he' v hv
      have hne : sa.schemaName e.1 ≠ sa.schemaName e'.1 := by
        intro hh
        exact hnames.1 (hh ▸ List.mem_map.mpr ⟨e', he', rfl⟩)
      rw [entryContentUpd]
      rcases (entryOpt sa sd data v e) with _ | ov
      · exact hbase e' (List.mem_cons_of_mem e he') v hv
      · rw [Option.elim_some, dGet_insert_ne _ _ _ _ hne]
        exact hbase e' (List.mem_cons_of_mem e he') v hv
    have hih := ih (fun v => entryContentUpd sa sd data v (q v) e)
      (fun e' he' => hcont e' (List.mem_cons_of_mem e he'))
      (fun e' he' => hclo e' (List.mem_cons_of_mem e he'))
      hbase' hnames.2
    rw [splitTables] at hih
    rw [hih]
    simp only [List.foldl_cons]

end OnePassTables

section OnePassContent

/-- Lookup at the renamed key of a listed table with a unique name. -/
theorem dGet_partContent_mem (sa : SchemaAccess) (sd : SliceDef) (data : TableData)
    (rDx : Dict String OutVal) (entries : List (String × List String))
    (v : CellVal) (e : String × List String) (he : e ∈ entries)
    (huniq : ∀ e' ∈ entries, sa.schemaName e'.1 = sa.schemaName e.1 → e' = e)
    (hbase : dGet rDx (sa.schemaName e.1) = none) :
    dGet (partContent sa sd data rDx entries v) (sa.schemaName e.1)
      = entryOpt sa sd data v e := by
  rw [show partContent sa sd data rDx entries v
      = entries.foldl (fun rD e' => (entryOpt sa sd data v e').elim rD
          (fun ov => dInsert rD (sa.schemaName e'.1) ov)) rDx from rfl,
    dGet_foldl_insertOpt]
  rcases hov : entryOpt sa sd data v e with _ | ov
  · have hfind : entries.reverse.find?
        (fun e' => decide (sa.schemaName e'.1 = sa.schemaName e.1)
          && (entryOpt sa sd data v e').isSome) = none := by
      rw [List.find?_eq_none]
      intro e' he' hp
      rw [Bool.and_eq_true] at hp
      have heq : e' = e := huniq e' (List.mem_reverse.mp he') (of_decide_eq_true hp.1)
      rw [heq, hov] at hp
      rcases hp with ⟨_, hp2⟩
      cases hp2
    rw [hfind]
    exact hbase
  · have hfind : entries.reverse.find?
        (fun e' => decide (sa.schemaName e'.1 = sa.schemaName e.1)
          && (entryOpt sa sd data v e').isSome) = some e := by
      apply find?_eq_some_of_unique (List.mem_reverse.mpr he)
      · simp [hov]
      · intro e' he' hp
        rw [Bool.and_eq_true] at hp
        exact huniq e' (List.mem_reverse.mp he') (of_decide_eq_true hp.1)
    rw [hfind]
    exact hov

/-- Lookup at a key renamed from no listed table falls through to the
replicated base dictionary. -/
theorem dGet_partContent_none (sa : SchemaAccess) (sd : SliceDef) (data : TableData)
    (rDx : Dict String OutVal) (entries : List (String × List String))
    (v : CellVal) (n : String) (hn : ∀ e ∈ entries, sa.schemaName e.1 ≠ n) :
    dGet (partContent sa sd data rDx entries v) n = dGet rDx n := by
  rw [show partContent sa sd data rDx entries v
      = entries.foldl (fun rD e' => (entryOpt sa sd data v e').elim rD
          (fun ov => dInsert rD (sa.schemaName e'.1) ov)) rDx from rfl,
    dGet_foldl_insertOpt]
  have hfind : entries.reverse.find?
      (fun e => decide (sa.schemaName e.1 = n) && (entryOpt sa sd data v e).isSome)
      = none := by
    rw [List.find?_eq_none]
    intro e he hp
    rw [Bool.and_eq_true] at hp
    exact hn e (List.mem_reverse.mp he) (of_decide_eq_true hp.1)
  rw [hfind]

end OnePassContent

section NaiveChar

/-- The naive cardinality slicer as an optional-insert fold. -/
theorem naive_as_insertOpt (sa : SchemaAccess) (sd : SliceDef) (data : TableData)
    (sv : SliceTuple) :
    sliceRowwiseByNameWithCard sa sd data sv
      = data.foldl (fun rD e => (naiveEntry sa sd sv e).elim rD
          (fun ov => dInsert rD (sa.schemaName e.1) ov)) [] := by
  rw [sliceRowwiseByNameWithCard]
  refine foldl_body_ext _ _ ?_ data []
  intro rD e
  by_cases hc1 : (!(dContains sd.sliceIndex e.1) && !(sd.isSliceExtra e.1)) = true
  · rw [if_pos hc1, naiveEntry, if_pos hc1]
    rfl
  · rw [if_neg hc1]
    show (if (sliceTableRows sa sd e.1 e.2 sv).length < 1 && !(sa.isMandatory e.1)
        then rD
        else dInsert rD (sa.schemaName e.1)
          (collapseCard (sd.hasSliceUnitCard e.1) (sliceTableRows sa sd e.1 e.2 sv)))
      = _
    rw [naiveEntry, if_neg hc1]
    by_cases hc2 : ((sliceTableRows sa sd e.1 e.2 sv).length < 1
        && !(sa.isMandatory e.1)) = true
    · rw [if_pos hc2, if_pos hc2]
      rfl
    · rw [if_neg hc2, if_neg hc2]
      rfl

/-- Lookup of a present table's renamed key in the naive slicer output. -/
theorem dGet_naive_at (sa : SchemaAccess) (sd : SliceDef) (data : TableData)
    (sv : SliceTuple) (t : String) (rows : List Row)
    (hget : dGet data t = some rows)
    (hinj : ∀ t1 ∈ dKeys data, ∀ t2 ∈ dKeys data,
      sa.schemaName t1 = sa.schemaName t2 → t1 = t2)
    (hnd : (dKeys data).Nodup) :
    dGet (sliceRowwiseByNameWithCard sa sd data sv) (sa.schemaName t)
      = naiveEntry sa sd sv (t, rows) := by
  rw [naive_as_insertOpt, dGet_foldl_insertOpt]
  have hmem : (t, rows) ∈ data := mem_of_dGet hget
  have hkmem : t ∈ dKeys data := List.mem_map.mpr ⟨(t, rows), hmem, rfl⟩
  rcases hov : naiveEntry sa sd sv (t, rows) with _ | ov
  · have hfind : data.reverse.find?
        (fun e => decide (sa.schemaName e.1 = sa.schemaName t)
          && (naiveEntry sa sd sv e).isSome) = none := by
      rw [List.find?_eq_none]
      intro e he hp
      rw [Bool.and_eq_true] at hp
      have he' := List.mem_reverse.mp he
      have h1 : e.1 = t := hinj e.1 (List.mem_map.mpr ⟨e, he', rfl⟩) t hkmem
        (of_decide_eq_true hp.1)
      have h2 : e = (t, rows) := nodup_keys_entry_eq hnd he' hmem h1
      rw [h2, hov] at hp
      rcases hp with ⟨_, hp2⟩
      cases hp2
    rw [hfind]
    rfl
  · have hfind : data.reverse.find?
        (fun e => decide (sa.schemaName e.1 = sa.schemaName t)
          && (naiveEntry sa sd sv e).isSome) = some (t, rows) := by
      apply find?_eq_some_of_unique (List.mem_reverse.mpr hmem)
      · simp [hov]
      · intro e he hp
        rw [Bool.and_eq_true] at hp
        have he' := List.mem_reverse.mp he
        have h1 : e.1 = t := hinj e.1 (List.mem_map.mpr ⟨e, he', rfl⟩) t hkmem
          (of_decide_eq_true hp.1)
        exact nodup_keys_entry_eq hnd he' hmem h1
    rw [hfind]
    exact hov

/-- Lookup of a key renamed from no table of the data. -/
theorem dGet_naive_none (sa : SchemaAccess) (sd : SliceDef) (data : TableData)
    (sv : SliceTuple) (n : String) (hn : ∀ e ∈ data, sa.schemaName e.1 ≠ n) :
    dGet (sliceRowwiseByNameWithCard sa sd data sv) n = none := by
  rw [naive_as_insertOpt, dGet_foldl_insertOpt]
  have hfind : data.reverse.find?
      (fun e => decide (sa.schemaName e.1 = n) && (naiveEntry sa sd sv e).isSome)
      = none := by
    rw [List.find?_eq_none]
    intro e he hp
    rw [Bool.and_eq_true] at hp
    exact hn e (List.mem_reverse.mp he) (of_decide_eq_true hp.1)
  rw [hfind]
  rfl

end NaiveChar

section InSliceChar

/-- `__inSlice` over a single parent value whose item is listed. -/
theorem inSlice_single_some (t : String) (sliceIndex : SliceIndex) (r : Row)
    (p : ParentItem) (v : CellVal) (mD : Dict ParentItem (List String))
    (atL : List String) (hmd : dGet sliceIndex t = some mD)
    (hatl : dGet mD p = some atL) :
    inSlice t sliceIndex r [(p, v)] = matchesVal atL v r := by
  simp only [inSlice, hmd, List.all_cons, List.all_nil, hatl, Bool.and_true]
  rfl

/-- `__inSlice` over a single parent value whose item is not listed. -/
theorem inSlice_single_nop (t : String) (sliceIndex : SliceIndex) (r : Row)
    (p : ParentItem) (v : CellVal) (mD : Dict ParentItem (List String))
    (hmd : dGet sliceIndex t = some mD) (hatl : dGet mD p = none) :
    inSlice t sliceIndex r [(p, v)] = false := by
  simp only [inSlice, hmd, List.all_cons, List.all_nil, hatl, Bool.and_true]

/-- The naive per-table row filter of an indexed, non-extra table selects
exactly the rows matching the partition value. -/
theorem sliceTableRows_indexed (sa : SchemaAccess) (sd : SliceDef) (t : String)
    (rows : List Row) (p : ParentItem) (v : CellVal)
    (mD : Dict ParentItem (List String)) (atL : List String)
    (hx : sd.isSliceExtra t = false) (hmd : dGet sd.sliceIndex t = some mD)
    (hatl : dGet mD p = some atL) :
    sliceTableRows sa sd t rows [(p, v)]
      = (matchRows rows atL v).map (renameRow (sa.attributeName t)) := by
  rw [sliceTableRows, matchRows]
  congr 1
  apply List.filter_congr
  intro r _
  rw [hx, inSlice_single_some t sd.sliceIndex r p v mD atL hmd hatl]
  simp

/-- The naive per-table row filter of an indexed, non-extra table whose
index entry lacks the parent item keeps no row. -/
theorem sliceTableRows_nop (sa : SchemaAccess) (sd : SliceDef) (t : String)
    (rows : List Row) (p : ParentItem) (v : CellVal)
    (mD : Dict ParentItem (List String))
    (hx : sd.isSliceExtra t = false) (hmd : dGet sd.sliceIndex t = some mD)
    (hatl : dGet mD p = none) :
    sliceTableRows sa sd t rows [(p, v)] = [] := by
  rw [sliceTableRows]
  have hfil : rows.filter (fun r => sd.isSliceExtra t
      || inSlice t sd.sliceIndex r [(p, v)]) = [] := by
    apply List.filter_eq_nil_iff.mpr
    intro r _
    rw [hx, inSlice_single_nop t sd.sliceIndex r p v mD hmd hatl]
    simp
  rw [hfil]
  rfl

/-- The full row filter of a slice-extra table keeps every row. -/
theorem sliceTableRows_extra (sa : SchemaAccess) (sd : SliceDef) (t : String)
    (rows : List Row) (sv : SliceTuple) (hx : sd.isSliceExtra t = true) :
    sliceTableRows sa sd t rows sv = rows.map (renameRow (sa.attributeName t)) := by
  rw [sliceTableRows]
  congr 1
  apply List.filter_eq_self.mpr
  intro r _
  rw [hx]
  rfl

/-- The naive entry of a slice-extra table equals the replicated extras
entry. -/
theorem naiveEntry_extra (sa : SchemaAccess) (sd : SliceDef) (data : TableData)
    (sv : SliceTuple) (t : String) (rows : List Row)
    (hx : sd.isSliceExtra t = true) (hget : dGet data t = some rows) :
    naiveEntry sa sd sv (t, rows) = extraEntry sa sd data t := by
  rw [naiveEntry, extraEntry, hget]
  simp only [Option.getD_some]
  rw [if_neg (by simp [hx])]
  rw [sliceTableRows_extra sa sd t rows sv hx]

/-- Membership-style reading of `__inSlice`. -/
theorem inSlice_iff (schemaId : String) (sliceIndex : SliceIndex) (rowD : Row)
    (parentVals : SliceTuple) :
    inSlice schemaId sliceIndex rowD parentVals = true
      ↔ ∃ mD, dGet sliceIndex schemaId = some mD ∧
          ∀ pv ∈ parentVals, ∃ atL, dGet mD pv.1 = some atL ∧
            ∃ a ∈ atL, dGet rowD a = some pv.2 := by
  rcases hmd : dGet sliceIndex schemaId with _ | mD
  · simp only [inSlice, hmd]
    constructor
    · intro h
      cases h
    · rintro ⟨mD', hmd', _⟩
      cases hmd'
  · simp only [inSlice, hmd]
    rw [List.all_eq_true]
    constructor
    · intro h
      refine ⟨mD, rfl, ?_⟩
      intro pv hpv
      have hf := h pv hpv
      rcases hat : dGet mD pv.1 with _ | atL
      · rw [hat] at hf
        cases hf
      · rw [hat] at hf
        rcases List.any_eq_true.mp hf with ⟨a, ha, hg⟩
        exact ⟨atL, rfl, a, ha, beq_iff_eq.mp hg⟩
    · rintro ⟨mD', hmd', hall⟩
      have hmm : mD' = mD := (Option.some_inj.mp hmd').symm
      subst hmm
      intro pv hpv
      rcases hall pv hpv with ⟨atL, hat, a, ha, hg⟩
      rw [hat]
      exact List.any_eq_true.mpr ⟨a, ha, by rw [hg, beq_self_eq_true]⟩

end InSliceChar

section OnePassMain

/-- The one-pass partitioner, under a successful single-parent enumeration
of nonempty, duplicate-free, truthy values, slice-extra tables present in
the data and absent from the slice index, injective table naming, nodup
slice-index keys, and enumeration-closed child values, succeeds and
produces one partition per enumerated value, in order, with the specified
content. -/
theorem onePass_ok_char (sa : SchemaAccess) (sd : SliceDef) (data : TableData)
    (p : ParentItem) (pvs : List CellVal)
    (h2 : sliceParentVals data sd = Except.ok (pvs.map (fun v => [(p, v)])))
    (h3 : pvs ≠ []) (h4 : pvs.Nodup) (h5 : ∀ v ∈ pvs, v.truthy = true)
    (h6 : ∀ t ∈ sd.extraIds, dContains data t = true)
    (h7 : ∀ t ∈ sd.extraIds, dContains sd.sliceIndex t = false)
    (h8 : ∀ t1 ∈ dKeys data, ∀ t2 ∈ dKeys data,
      sa.schemaName t1 = sa.schemaName t2 → t1 = t2)
    (h10 : (dKeys sd.sliceIndex).Nodup)
    (h11 : ∀ e ∈ skdSpec data sd.sliceIndex p, ∀ r ∈ (dGet data e.1).getD [],
      ∀ w, matchesVal e.2 w r = true → w.truthy = true → w ∈ pvs) :
    sliceRowwiseByNameWithCardOnePass sa sd data
      = Except.ok (pvs.map (fun v => partContent sa sd data
          (extrasDictSpec sa sd data) (skdSpec data sd.sliceIndex p) v)) := by
  obtain ⟨v0, pvr, rfl⟩ := List.exists_cons_of_ne_nil h3
  have hsub : ∀ t ∈ sd.extraIds, t ∈ dKeys data :=
    fun t ht => (dContains_iff_mem_keys data t).mp (h6 t ht)
  have hskd : buildSingleKeyAtD data sd.sliceIndex [(p, v0)]
      = skdSpec data sd.sliceIndex p :=
    buildSingleKeyAtD_single data sd.sliceIndex p v0 h10
  have hflat : (([(p, v0)] : SliceTuple) :: pvr.map (fun v => [(p, v)])).flatMap
      (fun tup => tup.map (·.2)) = v0 :: pvr := by
    have h := flatMap_singleton_snd p (v0 :: pvr)
    rw [List.map_cons] at h
    exact h
  have hretD0 : (v0 :: pvr).foldl (fun d v => dInsert d v []) ([] : RetD)
      = (v0 :: pvr).map (fun v => (v, ([] : Dict String OutVal))) := by
    have h := foldl_insert_fresh_mapped (fun _ => ([] : Dict String OutVal))
      (v0 :: pvr) [] h4 (fun k _ => rfl)
    rw [List.nil_append] at h
    exact h
  have hconts : ∀ e ∈ skdSpec data sd.sliceIndex p, dContains data e.1 = true :=
    fun e he => (mem_skdSpec he).2.1
  have hbases : ∀ e ∈ skdSpec data sd.sliceIndex p, ∀ v ∈ (v0 :: pvr),
      dGet (extrasDictSpec sa sd data) (sa.schemaName e.1) = none := by
    intro e he v _
    have hkmem : e.1 ∈ dKeys sd.sliceIndex := (mem_skdSpec he).1
    have hcsl : dContains sd.sliceIndex e.1 = true :=
      (dContains_iff_mem_keys sd.sliceIndex e.1).mpr hkmem
    have hdk : e.1 ∈ dKeys data :=
      (dContains_iff_mem_keys data e.1).mp (hconts e he)
    apply (dGet_extrasDictSpec sa sd data h8 hsub).2
    intro t ht heq
    have h1 : t = e.1 := h8 t (hsub t ht) e.1 hdk heq
    have h2 := h7 t ht
    rw [h1, hcsl] at h2
    cases h2
  have hnames : ((skdSpec data sd.sliceIndex p).map
      (fun e => sa.schemaName e.1)).Nodup := by
    have hkn : (dKeys (skdSpec data sd.sliceIndex p)).Nodup :=
      skdSpec_keys_nodup data sd.sliceIndex p h10
    have hinj2 : ∀ x ∈ dKeys (skdSpec data sd.sliceIndex p),
        ∀ y ∈ dKeys (skdSpec data sd.sliceIndex p),
        sa.schemaName x = sa.schemaName y → x = y := by
      intro x hx y hy heq
      rcases List.mem_map.mp hx with ⟨ex, hex, hx1⟩
      rcases List.mem_map.mp hy with ⟨ey, hey, hy1⟩
      have hx2 : x ∈ dKeys data := by
        rw [← hx1]
        exact (dContains_iff_mem_keys data ex.1).mp (mem_skdSpec hex).2.1
      have hy2 : y ∈ dKeys data := by
        rw [← hy1]
        exact (dContains_iff_mem_keys data ey.1).mp (mem_skdSpec hey).2.1
      exact h8 x hx2 y hy2 heq
    have h1 : ((dKeys (skdSpec data sd.sliceIndex p)).map sa.schemaName).Nodup :=
      List.Nodup.map_on hinj2 hkn
    have h2 : (dKeys (skdSpec data sd.sliceIndex p)).map sa.schemaName
        = (skdSpec data sd.sliceIndex p).map (fun e => sa.schemaName e.1) := by
      rw [dKeys, List.map_map]
      rfl
    rw [h2] at h1
    exact h1
  have hfinal : ∀ q : CellVal → Dict String OutVal,
      (∀ e ∈ skdSpec data sd.sliceIndex p, ∀ v ∈ (v0 :: pvr),
        dGet (q v) (sa.schemaName e.1) = none) →
      (splitTables sa sd data (skdSpec data sd.sliceIndex p)
        ((v0 :: pvr).map (fun v => (v, q v))) >>= fun retD2 =>
        Except.ok (dValues retD2))
      = Except.ok ((v0 :: pvr).map (fun v => (skdSpec data sd.sliceIndex p).foldl
          (entryContentUpd sa sd data v) (q v))) := by
    intro q hq
    rw [splitTables_char sa sd data (v0 :: pvr) h4 h5 (skdSpec data sd.sliceIndex p)
      q hconts h11 hq hnames, except_ok_bind, dValues_mapped]
  rw [sliceRowwiseByNameWithCardOnePass, h2]
  simp only [except_ok_bind, List.map_cons]
  rw [hskd, hflat, hretD0]
  by_cases hE : sd.extraIds.isEmpty = true
  · rw [if_pos hE, except_ok_bind]
    have hEnil : sd.extraIds = [] := List.isEmpty_iff.mp hE
    have hxnil : extrasDictSpec sa sd data = [] := by
      rw [extrasDictSpec, hEnil]
      rfl
    have hmapx : (v0 :: pvr).map (fun v => (v, ([] : Dict String OutVal)))
        = (v0 :: pvr).map (fun v => (v, extrasDictSpec sa sd data)) := by
      rw [hxnil]
    rw [hmapx, hfinal (fun _ => extrasDictSpec sa sd data) hbases]
    rfl
  · rw [if_neg hE, onePassExtrasDict_ok sa sd data h6, except_ok_bind, except_ok_bind]
    have hconst : (v0 :: pvr).foldl
        (fun m v => dInsert m v (extrasDictSpec sa sd data))
        ((v0 :: pvr).map (fun v => (v, ([] : Dict String OutVal))))
        = (v0 :: pvr).map (fun v =>
            (v, if v ∈ (v0 :: pvr) then extrasDictSpec sa sd data
              else ([] : Dict String OutVal))) := by
      have h := foldl_insert_const_sub (extrasDictSpec sa sd data) (v0 :: pvr) h4
        (v0 :: pvr) (fun _ => ([] : Dict String OutVal)) (fun k hk => hk)
      exact h
    rw [hconst]
    have hmapx : (v0 :: pvr).map (fun v =>
        (v, if v ∈ (v0 :: pvr) then extrasDictSpec sa sd data
          else ([] : Dict String OutVal)))
        = (v0 :: pvr).map (fun v => (v, extrasDictSpec sa sd data)) :=
      List.map_congr_left (fun v hv => by rw [if_pos hv])
    rw [hmapx, hfinal (fun _ => extrasDictSpec sa sd data) hbases]
    rfl

end OnePassMain

section EquivHelpers

/-- `isSliceExtra` is membership in the extra id list. -/
theorem isSliceExtra_mem (sd : SliceDef) (t : String) :
    sd.isSliceExtra t = true ↔ t ∈ sd.extraIds := by
  simp [SliceDef.isSliceExtra]

/-- The decidable closure condition gives the closure property. -/
theorem closedVals_spec {pvs : List CellVal} {atL : List String} {r : Row}
    (h : closedVals pvs atL r = true) :
    ∀ w, matchesVal atL w r = true → w.truthy = true → w ∈ pvs := by
  intro w hm ht
  rcases (show ∃ a ∈ atL, dGet r a = some w by simpa [matchesVal] using hm)
    with ⟨a, ha, hg'⟩
  have hall := (List.all_eq_true.mp h) a ha
  simp only [hg'] at hall
  rw [Bool.or_eq_true] at hall
  rcases hall with h1 | h2
  · rw [ht] at h1
    exact absurd h1 (by simp)
  · simpa using h2

/-- Without the unit-cardinality flag nothing collapses. -/
theorem collapseCard_false (l : List Row) : collapseCard false l = OutVal.rows l := by
  cases l with
  | nil => rfl
  | cons r rs => rfl

/-- A one-row list collapses under the unit-cardinality flag. -/
theorem collapseCard_one (r : Row) : collapseCard true [r] = OutVal.one r := rfl

/-- Pointwise agreement of the specified one-pass partition for an
enumerated value with the naive partition of the same single-parent slice
value, under disjoint extras, injective naming, nodup keys, non-mandatory
sliced tables, and at most one matching row per unit-cardinality table. -/
theorem partContent_naive_DEquiv (sa : SchemaAccess) (sd : SliceDef)
    (data : TableData) (p : ParentItem) (v : CellVal)
    (h6 : ∀ t ∈ sd.extraIds, dContains data t = true)
    (h7 : ∀ t ∈ sd.extraIds, dContains sd.sliceIndex t = false)
    (h8 : ∀ t1 ∈ dKeys data, ∀ t2 ∈ dKeys data,
      sa.schemaName t1 = sa.schemaName t2 → t1 = t2)
    (h9 : (dKeys data).Nodup)
    (h10 : (dKeys sd.sliceIndex).Nodup)
    (h12 : ∀ t ∈ dKeys sd.sliceIndex, sd.isSliceExtra t = false →
      sa.isMandatory t = false)
    (h13 : ∀ e ∈ skdSpec data sd.sliceIndex p, sd.hasSliceUnitCard e.1 = true →
      (matchRows ((dGet data e.1).getD []) e.2 v).length ≤ 1) :
    DEquiv (partContent sa sd data (extrasDictSpec sa sd data)
        (skdSpec data sd.sliceIndex p) v)
      (sliceRowwiseByNameWithCard sa sd data [(p, v)]) := by
  intro n
  have hsub : ∀ t ∈ sd.extraIds, t ∈ dKeys data :=
    fun t ht => (dContains_iff_mem_keys data t).mp (h6 t ht)
  have hEx := dGet_extrasDictSpec sa sd data h8 hsub
  by_cases hex : ∃ t ∈ dKeys data, sa.schemaName t = n
  · obtain ⟨t, htk, rfl⟩ := hex
    rcases (dContains_iff_dGet data t).mp ((dContains_iff_mem_keys data t).mpr htk)
      with ⟨rows, hget⟩
    rw [dGet_naive_at sa sd data [(p, v)] t rows hget h8 h9]
    by_cases hx : sd.isSliceExtra t = true
    · have htm : t ∈ sd.extraIds := (isSliceExtra_mem sd t).mp hx
      have hskdn : ∀ e ∈ skdSpec data sd.sliceIndex p,
          sa.schemaName e.1 ≠ sa.schemaName t := by
        intro e he heq
        have h1 : e.1 = t := h8 e.1
          ((dContains_iff_mem_keys data e.1).mp (mem_skdSpec he).2.1) t htk heq
        have hcc : dContains sd.sliceIndex e.1 = true :=
          (dContains_iff_mem_keys _ _).mpr (mem_skdSpec he).1
        rw [h1, h7 t htm] at hcc
        cases hcc
      rw [dGet_partContent_none sa sd data _ _ v _ hskdn, hEx.1 t htm,
        naiveEntry_extra sa sd data [(p, v)] t rows hx hget]
    · have hx' : sd.isSliceExtra t = false := eq_false_of_ne_true hx
      have hnotm : t ∉ sd.extraIds := fun hm => hx ((isSliceExtra_mem sd t).mpr hm)
      have hbase : dGet (extrasDictSpec sa sd data) (sa.schemaName t) = none := by
        apply hEx.2
        intro t' ht' heq
        have h1 : t' = t := h8 t' (hsub t' ht') t htk heq
        exact hnotm (h1 ▸ ht')
      by_cases hcs : dContains sd.sliceIndex t = true
      · rcases (dContains_iff_dGet _ _).mp hcs with ⟨mD, hmd⟩
        have hmand : sa.isMandatory t = false :=
          h12 t ((dContains_iff_mem_keys _ _).mp hcs) hx'
        rcases hatl : dGet mD p with _ | atL
        · have hskdn : ∀ e ∈ skdSpec data sd.sliceIndex p,
              sa.schemaName e.1 ≠ sa.schemaName t := by
            intro e he heq
            have h1 : e.1 = t := h8 e.1
              ((dContains_iff_mem_keys data e.1).mp (mem_skdSpec he).2.1) t htk heq
            rcases (mem_skdSpec he).2.2 with ⟨mE, hmE, hmE1, hmEg⟩
            have hpair : (t, mE.2) ∈ sd.sliceIndex := by
              rw [show (t, mE.2) = mE from by rw [← h1, ← hmE1]]
              exact hmE
            have hgets : dGet sd.sliceIndex t = some mE.2 :=
              dGet_of_mem_nodup h10 hpair
            rw [hmd] at hgets
            have hmde : mD = mE.2 := Option.some_inj.mp hgets
            rw [← hmde] at hmEg
            rw [hmEg] at hatl
            cases hatl
          rw [dGet_partContent_none sa sd data _ _ v _ hskdn, hbase]
          simp only [naiveEntry]
          rw [if_neg (by simp [hcs]),
            sliceTableRows_nop sa sd t rows p v mD hx' hmd hatl,
            if_pos (by simp [hmand])]
        · have hmemE : (t, atL) ∈ skdSpec data sd.sliceIndex p :=
            skdSpec_intro (mem_of_dGet hmd)
              ((dContains_iff_mem_keys data t).mpr htk) hatl
          have hsknd : (dKeys (skdSpec data sd.sliceIndex p)).Nodup :=
            skdSpec_keys_nodup data sd.sliceIndex p h10
          have huniq : ∀ e' ∈ skdSpec data sd.sliceIndex p,
              sa.schemaName e'.1 = sa.schemaName (t, atL).1 → e' = (t, atL) := by
            intro e' he' heq
            have h1 : e'.1 = t := h8 e'.1
              ((dContains_iff_mem_keys data e'.1).mp (mem_skdSpec he').2.1) t htk heq
            exact nodup_keys_entry_eq hsknd he' hmemE h1
          rw [show sa.schemaName t = sa.schemaName (t, atL).1 from rfl,
            dGet_partContent_mem sa sd data _ _ v (t, atL) hmemE huniq hbase]
          simp only [naiveEntry]
          rw [if_neg (show ¬((!dContains sd.sliceIndex t
              && !sd.isSliceExtra t) = true) from by simp [hcs]),
            sliceTableRows_indexed sa sd t rows p v mD atL hx' hmd hatl,
            List.length_map]
          simp only [hmand, Bool.not_false, Bool.and_true, entryOpt]
          rw [hget]
          simp only [Option.getD_some]
          rcases hM : matchRows rows atL v with _ | ⟨r0, ms⟩
          · simp
          · rw [if_neg (by simp), if_neg (by simp)]
            rcases hcard : sd.hasSliceUnitCard t with _ | _
            · rw [show splitEntryVal false (sa.attributeName t) (r0 :: ms)
                  = OutVal.rows ((r0 :: ms).map (renameRow (sa.attributeName t)))
                from if_neg (by simp), collapseCard_false]
            · have h13e : (matchRows rows atL v).length ≤ 1 := by
                simpa only [hget, Option.getD_some] using h13 (t, atL) hmemE hcard
              rw [hM] at h13e
              have hms : ms = [] := by
                rcases ms with _ | ⟨m1, ms'⟩
                · rfl
                · exfalso
                  simp at h13e
              subst hms
              rw [show splitEntryVal true (sa.attributeName t) [r0]
                  = OutVal.one (renameRow (sa.attributeName t) r0) from rfl]
              rw [show ([r0].map (renameRow (sa.attributeName t)))
                  = [renameRow (sa.attributeName t) r0] from rfl, collapseCard_one]
      · have hcs' : dContains sd.sliceIndex t = false := eq_false_of_ne_true hcs
        have hskdn : ∀ e ∈ skdSpec data sd.sliceIndex p,
            sa.schemaName e.1 ≠ sa.schemaName t := by
          intro e he heq
          have h1 : e.1 = t := h8 e.1
            ((dContains_iff_mem_keys data e.1).mp (mem_skdSpec he).2.1) t htk heq
          have hcc : dContains sd.sliceIndex e.1 = true :=
            (dContains_iff_mem_keys _ _).mpr (mem_skdSpec he).1
          rw [h1, hcs'] at hcc
          cases hcc
        rw [dGet_partContent_none sa sd data _ _ v _ hskdn, hbase]
        simp only [naiveEntry]
        rw [if_pos (by simp [hcs', hx'])]
  · have hskdn : ∀ e ∈ skdSpec data sd.sliceIndex p, sa.schemaName e.1 ≠ n := by
      intro e he heq
      exact hex ⟨e.1, (dContains_iff_mem_keys data e.1).mp (mem_skdSpec he).2.1, heq⟩
    rw [dGet_partContent_none sa sd data _ _ v n hskdn,
      hEx.2 n (fun t ht heq => hex ⟨t, hsub t ht, heq⟩),
      dGet_naive_none sa sd data [(p, v)] n
        (fun e he heq => hex ⟨e.1, List.mem_map.mpr ⟨e, he, rfl⟩, heq⟩)]

end EquivHelpers

/-! ## Claim theorems -/

/-- C1 counterexample: with drop-empty-attributes off, merging categories
`catA` (maps A1, A2) and `catB` (maps A2, A3) on equal merge key makes the
later category reset A1 — an attribute mapped ONLY by the earlier category —
to the null default "N" instead of keeping `catA`'s extracted value "v1",
because `mD[tk].update(d)` merges `catB`'s full null-initialized row. -/
theorem mapMerge_overwrite_counterexample :
    (mapInstanceCategoryList parseNone filtersNone tObjMerge ["catA", "catB"]
        contMerge).map (fun r => dGet r "A1") = [some (CellVal.s "N")] ∧
      CellVal.s "N" ≠ CellVal.s "v1" := by
  decide

/-- C1 (amended): the merged output is one row per distinct merge key in
first-occurrence order, and each row's attribute holds the LAST value
contributed for it across the category-ordered contribution stream
(`mD[tk].update(d)` semantics).  With drop-empty-attributes active a
category contributes only attributes it maps (so later categories overwrite
only what they map and earlier-only attributes survive); without it every
category contributes a full null-initialized row, so the last contributing
category wins wholesale (see the counterexample). -/
theorem mapMerge_last_contribution (parse : String → Option String) (f : Filters)
    (tObj : TableDef) (catNames : List String) (container : Container) :
    mapInstanceCategoryList parse f tObj catNames container
      = (firstDedup ((mergeContribs parse f tObj catNames container).map
          (fun c => c.1))).map
          (rowFor (mergeContribs parse f tObj catNames container)) ∧
    (∀ k a, dGet (rowFor (mergeContribs parse f tObj catNames container) k) a
      = (valueSeq (mergeContribs parse f tObj catNames container) k a).getLast?) ∧
    (f.dropEmpty = true → ∀ cn cat row a v,
      dGet (mapRowMulti parse f tObj cn cat row) a = some v →
      a ∈ tObj.getMapInstanceAttributeIdList cn) := by
  have hnd : ∀ c ∈ mergeContribs parse f tObj catNames container, (dKeys c.2).Nodup := by
    intro c hc
    unfold mergeContribs at hc
    rcases List.mem_flatMap.mp hc with ⟨cn, hcn, hc2⟩
    rcases hobj : dGet container.objs cn with _ | cat
    · rw [hobj] at hc2
      cases hc2
    · rw [hobj] at hc2
      rcases List.mem_map.mp hc2 with ⟨row, hrow, heq⟩
      rw [← heq]
      exact mapRowMulti_nodup parse f tObj cn cat row
  rcases mdOf_char _ hnd with ⟨hmap, hpt⟩
  refine ⟨?_, hpt, ?_⟩
  · rw [mapInstanceCategoryList_eq_mdOf, hmap]
    unfold dValues
    rw [List.map_map]
    rfl
  · intro hde cn cat row a v h
    exact mapRowMulti_domain parse f tObj cn cat row a v hde h

/-- C1 witness: the merge characterization at the concrete two-category
container with drop-empty-attributes active. -/
theorem mapMerge_last_contribution_witness :
    mapInstanceCategoryList parseNone filtersDropEmpty tObjMerge ["catA", "catB"]
        contMerge
      = (firstDedup ((mergeContribs parseNone filtersDropEmpty tObjMerge
          ["catA", "catB"] contMerge).map (fun c => c.1))).map
          (rowFor (mergeContribs parseNone filtersDropEmpty tObjMerge
            ["catA", "catB"] contMerge)) ∧
    (∀ k a, dGet (rowFor (mergeContribs parseNone filtersDropEmpty tObjMerge
        ["catA", "catB"] contMerge) k) a
      = (valueSeq (mergeContribs parseNone filtersDropEmpty tObjMerge
          ["catA", "catB"] contMerge) k a).getLast?) ∧
    (filtersDropEmpty.dropEmpty = true → ∀ cn cat row a v,
      dGet (mapRowMulti parseNone filtersDropEmpty tObjMerge cn cat row) a = some v →
      a ∈ tObjMerge.getMapInstanceAttributeIdList cn) :=
  mapMerge_last_contribution parseNone filtersDropEmpty tObjMerge ["catA", "catB"]
    contMerge

/-- C2 counterexample: on a slice-unit-cardinality table with two rows in
the same partition, the naive algorithm produces the two-row list while the
one-pass algorithm assigns the last row as a collapsed single object, so
the two partition collections differ. -/
theorem onePass_naive_equiv_counterexample :
    sliceParentVals dataCard sdCard = Except.ok [[(("P", "pid"), CellVal.s "1")]] ∧
    sliceRowwiseByNameWithCard saFix sdCard dataCard [(("P", "pid"), CellVal.s "1")]
        = [("T", OutVal.rows [[("cid", CellVal.s "1"), ("x", CellVal.s "a")],
                              [("cid", CellVal.s "1"), ("x", CellVal.s "b")]])] ∧
    sliceRowwiseByNameWithCardOnePass saFix sdCard dataCard
        = Except.ok [[("T", OutVal.one [("cid", CellVal.s "1"), ("x", CellVal.s "b")])]] ∧
    OutVal.one [("cid", CellVal.s "1"), ("x", CellVal.s "b")]
        ≠ OutVal.rows [[("cid", CellVal.s "1"), ("x", CellVal.s "a")],
                       [("cid", CellVal.s "1"), ("x", CellVal.s "b")]] := by
  decide

/-- C3 counterexample: a table that is both slice-extra and slice-indexed
places a row (child value "2") into the partition for parent value "1"
even though the slice-membership equality fails for that row. -/
theorem slice_membership_counterexample :
    dGet (sliceRowwiseByNameWithCard saFix sdOverlap dataOverlap
        [(("P", "pid"), CellVal.s "1")]) "E"
      = some (OutVal.rows [[("cid", CellVal.s "2")]]) ∧
    inSlice "E" sdOverlap.sliceIndex [("cid", CellVal.s "2")]
        [(("P", "pid"), CellVal.s "1")] = false := by
  decide

/-- C4 (code bug): the slice-extra replication uses `copy.copy`, so the two
partitions hold the same store reference (0) for table `E`, and appending a
row through partition 0's reference changes what partition 1 observes —
contradicting the required independence of per-partition copies. -/
theorem sliceExtra_shared_mutation :
    onePassExtrasAlias saFix sdAlias dataAlias [CellVal.s "1", CellVal.s "2"]
        = Except.ok aliasResult ∧
    dGet (aliasResult.parts.getD 0 []) "E" = some (false, 0) ∧
    dGet (aliasResult.parts.getD 1 []) "E" = some (false, 0) ∧
    viewPart aliasResult 1 "E" = some (OutVal.rows [[("x", CellVal.s "a")]]) ∧
    viewPart (mutateStore aliasResult 0 (fun l => l ++ [[("x", CellVal.s "NEW")]])) 1 "E"
        = some (OutVal.rows [[("x", CellVal.s "a")], [("x", CellVal.s "NEW")]]) := by
  decide

/-- C5 counterexample: `applySlicedShape` propagates an exception: with the
cardinality style and a slice filter whose parent category has no rows, the
one-pass partitioner's `next(sliceValues)` raises `StopIteration`, which no
enclosing handler catches. -/
theorem applySlicedShape_raises_counterexample :
    applySlicedShape saFix (some sdPlain) [] "rowwise_by_name_with_cardinality"
      = Except.error "StopIteration" := by
  decide

/-- C7 counterexample: the slice value enumerator keeps one tuple per
contributing row rather than the distinct tuples: two parent rows with the
same value "1" yield a duplicated enumeration. -/
theorem sliceValues_duplicates_counterexample :
    sliceParentVals dataDup sdPlain
        = Except.ok [[(("P", "pid"), CellVal.s "1")], [(("P", "pid"), CellVal.s "1")]] ∧
    ¬ (List.Nodup [[(("P", "pid"), CellVal.s "1")], [(("P", "pid"), CellVal.s "1")]]) := by
  decide

/-- C5 (amended): exception containment holds only partially.  With no
slice filter, `applySlicedShape` wraps the (total) reshape, whose unknown
styles pass the input through unchanged.  With a slice filter, given a
successful parent-value enumeration, every style OTHER than
`rowwise_by_name_with_cardinality` takes the guarded naive path and
succeeds, each combination reshaped with fallback to the unchanged input
mapping (not an empty result); the cardinality style takes the unguarded
one-pass path, whose exceptions propagate (see the counterexample). -/
theorem applySlicedShape_containment_amended
    (sa : SchemaAccess) (sd : SliceDef) (data : TableData) (style : String)
    (svd : List SliceTuple)
    (hsvd : sliceParentVals data sd = Except.ok svd)
    (hstyle : style ≠ "rowwise_by_name_with_cardinality") :
    applySlicedShape sa (some sd) data style
      = Except.ok (svd.map (fun sv => reshapeSlicedSchemaData sa sd data sv style)) ∧
    applySlicedShape sa none data style
      = Except.ok [reshapeSchemaData sa data style] ∧
    (style ≠ "rowwise_by_name" → style ≠ "columnwise_by_name" →
      style ≠ "rowwise_no_name" →
      reshapeSchemaData sa data style = passthroughOut data) := by
  refine ⟨?_, rfl, ?_⟩
  · simp only [applySlicedShape]
    rw [hsvd, except_ok_bind]
    have hb : (style == "rowwise_by_name_with_cardinality") = false :=
      beq_eq_false_iff_ne.mpr hstyle
    rw [hb]
    simp
  · intro h1 h2 h3
    simp only [reshapeSchemaData]
    rw [beq_eq_false_iff_ne.mpr h1, beq_eq_false_iff_ne.mpr hstyle,
      beq_eq_false_iff_ne.mpr h2, beq_eq_false_iff_ne.mpr h3]
    rfl

/-- C5 witness: the containment theorem at a concrete successful
enumeration with the naive `rowwise_by_name` style. -/
theorem applySlicedShape_containment_witness :
    applySlicedShape saFix (some sdPlain) dataDup "rowwise_by_name"
      = Except.ok (([[(("P", "pid"), CellVal.s "1")], [(("P", "pid"), CellVal.s "1")]] :
          List SliceTuple).map
          (fun sv => reshapeSlicedSchemaData saFix sdPlain dataDup sv "rowwise_by_name")) ∧
    applySlicedShape saFix none dataDup "rowwise_by_name"
      = Except.ok [reshapeSchemaData saFix dataDup "rowwise_by_name"] ∧
    ("rowwise_by_name" ≠ "rowwise_by_name" → "rowwise_by_name" ≠ "columnwise_by_name" →
      "rowwise_by_name" ≠ "rowwise_no_name" →
      reshapeSchemaData saFix dataDup "rowwise_by_name" = passthroughOut dataDup) :=
  applySlicedShape_containment_amended saFix sdPlain dataDup "rowwise_by_name"
    [[(("P", "pid"), CellVal.s "1")], [(("P", "pid"), CellVal.s "1")]]
    (by decide) (by decide)

/-- C6 (amended): a non-date, non-iterable value longer than its positive
declared width is emitted truncated to the first W characters with its raw
length as overflow event; the single-category path's accumulator entry is
the monotone maximum of the matching raw overflow lengths merged onto any
prior entry, hence never decreases.  The merged multi-category path
truncates identically but records nothing (see the counterexample). -/
theorem maxWidth_truncation_overflow_amended (parse : String → Option String)
    (f : Filters) (tObj : TableDef) (cat : Category) (row : List String)
    (atId atName : String) (idx : Nat) (val : String)
    (hmap : dGet tObj.getMapAttributeDict atId = some atName)
    (hidx : dGet cat.attributeIndexDict atName = some idx)
    (hval : row[idx]? = some val)
    (hskip : f.skipMaxWidth = false)
    (hw : 0 < tObj.maxWidth atId)
    (hlong : tObj.maxWidth atId < val.length)
    (hnodate : (f.assignDates && tObj.isAttributeDateType atId) = false)
    (hnoiter : (f.convertIterables && tObj.isIterable atId) = false) :
    extractCellW parse f tObj cat row atId
      = (some (CellVal.s (strTake val (tObj.maxWidth atId))), some val.length) ∧
    (∀ cn container acc k,
      dGet (mapInstanceCategory parse f tObj cn container acc).2 k
        = (dGet container.objs cn).elim (dGet acc k)
            (fun cat2 => maxFold (dGet acc k)
              ((overflowEvents parse f tObj cn cat2).filterMap
                (fun e => if e.1 = k then some e.2 else none)))) ∧
    (∀ cn container acc k v,
      dGet acc k = some v →
      ∃ w, dGet (mapInstanceCategory parse f tObj cn container acc).2 k = some w
        ∧ v ≤ w) := by
  have hchar : ∀ cn container acc k,
      dGet (mapInstanceCategory parse f tObj cn container acc).2 k
        = (dGet container.objs cn).elim (dGet acc k)
            (fun cat2 => maxFold (dGet acc k)
              ((overflowEvents parse f tObj cn cat2).filterMap
                (fun e => if e.1 = k then some e.2 else none))) := by
    intro cn container acc k
    rw [mapInstanceCategory_acc]
    rcases hobj : dGet container.objs cn with _ | cat2
    · rfl
    · rw [Option.elim_some, Option.elim_some, dGet_foldl_overflowRecord]
  refine ⟨?_, hchar, ?_⟩
  · unfold extractCellW
    simp only [hmap, hidx, hval, Option.elim_some]
    have h2 : 2 ≤ val.length := by omega
    have hq : val ≠ "?" := by
      intro hh
      rw [hh] at h2
      have h1 : ("?" : String).length = 1 := rfl
      omega
    have hdot : val ≠ "." := by
      intro hh
      rw [hh] at h2
      have h1 : ("." : String).length = 1 := rfl
      omega
    have hemp : isEmptyVal val = false := by
      unfold isEmptyVal
      have hl : (val.length == 0) = false := by
        simp only [beq_eq_false_iff_ne, ne_eq]
        omega
      have hq2 : (val == "?") = false := beq_eq_false_iff_ne.mpr hq
      have hd2 : (val == ".") = false := beq_eq_false_iff_ne.mpr hdot
      rw [hl, hq2, hd2]
      rfl
    rw [hemp, hskip]
    simp only [Bool.and_false, Bool.not_false, Bool.and_true, if_false,
      Bool.false_eq_true, hnodate, hnoiter]
    rw [if_pos hw, if_pos hlong, if_pos (by simp [hq, hdot])]
  · intro cn container acc k v hv
    rw [hchar cn container acc k, hv]
    rcases hobj : dGet container.objs cn with _ | cat2
    · exact ⟨v, rfl, Nat.le_refl v⟩
    · rw [Option.elim_some]
      exact maxFold_some_le _ v

/-- C6 witness: the truncation-and-overflow theorem at a concrete overflow
of the single-category table. -/
theorem maxWidth_truncation_overflow_witness :
    extractCellW parseNone filtersNone tObjSingleW
        ⟨[("a1", 0)], [["toolong"]]⟩ ["toolong"] "A1"
      = (some (CellVal.s (strTake "toolong" (tObjSingleW.maxWidth "A1"))),
         some ("toolong" : String).length) ∧
    (∀ cn container acc k,
      dGet (mapInstanceCategory parseNone filtersNone tObjSingleW cn container acc).2 k
        = (dGet container.objs cn).elim (dGet acc k)
            (fun cat2 => maxFold (dGet acc k)
              ((overflowEvents parseNone filtersNone tObjSingleW cn cat2).filterMap
                (fun e => if e.1 = k then some e.2 else none)))) ∧
    (∀ cn container acc k v,
      dGet acc k = some v →
      ∃ w, dGet (mapInstanceCategory parseNone filtersNone tObjSingleW cn
          container acc).2 k = some w ∧ v ≤ w) :=
  maxWidth_truncation_overflow_amended parseNone filtersNone tObjSingleW
    ⟨[("a1", 0)], [["toolong"]]⟩ ["toolong"] "A1" "a1" 0 "toolong"
    (by decide) (by decide) (by decide) (by decide) (by decide) (by decide)
    (by decide) (by decide)

/-- C6 counterexample: in a two-category merged table an overflowing value
("toolong" against width 2) is truncated in the output row, yet the
overflow accumulator stays empty — `__mapInstanceCategoryList` only logs. -/
theorem mergedTable_overflow_counterexample :
    (mapData parseNone filtersNone sDMergeW [] [contMergeW] [] []).map
        (fun st => (dGet st.1 "T", st.2))
      = Except.ok (some [[("A1", CellVal.s "N"), ("A2", CellVal.s "to"),
          ("A3", CellVal.s "v3")]], []) ∧
    ("toolong" : String).length > 2 := by
  decide

/-- C7 (amended): when every filtered source row carries its parent
attribute and the declared parent items are distinct, the slice value
enumerator returns exactly the cartesian product, in declared parent-item
order, of the per-item lists of filtered row projections (one entry per
passing row, duplicates preserved — NOT deduplicated); and a row passes the
parent filters iff every filter names the row's category and the row's
filtered attribute holds an allowed value. -/
theorem sliceValues_enumeration_amended (data : TableData) (sd : SliceDef)
    (hnd : sd.parentItems.Nodup)
    (hattr : ∀ sp ∈ sd.parentItems, ∀ r ∈ (dGet data sp.1).getD [],
      testFilter r sp.1 sd.parentFilters = true → (dGet r sp.2).isSome) :
    sliceParentVals data sd
      = Except.ok (listProd (sd.parentItems.map (valsOfItem data sd))) ∧
    (∀ (r : Row) (catId : String), testFilter r catId sd.parentFilters = true ↔
      ∀ flt ∈ sd.parentFilters, catId = flt.category ∧
        ∃ v, dGet r flt.attributeId = some v ∧ v ∈ flt.values) := by
  constructor
  · simp only [sliceParentVals]
    rw [sliceParentVals_outer_ok data sd sd.parentItems [] hattr, except_ok_bind]
    rw [dValues_foldl_insert_fresh sd.parentItems (valsOfItem data sd)
      (fun sp => sp) [] (by simpa using hnd) (fun k _ => rfl)]
    rfl
  · intro r catId
    simp only [testFilter, List.all_eq_true]
    constructor
    · intro h flt hm
      have hf := h flt hm
      rcases hg : dGet r flt.attributeId with _ | v
      · rw [hg] at hf
        simp at hf
      · rw [hg] at hf
        simp only [Bool.and_eq_true, decide_eq_true_eq] at hf
        exact ⟨hf.1, v, rfl, by simpa using hf.2⟩
    · intro h flt hm
      rcases h flt hm with ⟨hc, v, hv, hmem⟩
      rw [hv]
      simp [hc, hmem]

/-- C7 witness: the amended enumerator characterization at a concrete input
with duplicated parent values. -/
theorem sliceValues_enumeration_witness :
    sliceParentVals dataDup sdPlain
      = Except.ok (listProd (sdPlain.parentItems.map (valsOfItem dataDup sdPlain))) ∧
    (∀ (r : Row) (catId : String), testFilter r catId sdPlain.parentFilters = true ↔
      ∀ flt ∈ sdPlain.parentFilters, catId = flt.category ∧
        ∃ v, dGet r flt.attributeId = some v ∧ v ∈ flt.values) :=
  sliceValues_enumeration_amended dataDup sdPlain (by decide) (by decide)

/-- C8 counterexample: on parse failure the retained value is NOT the
original raw string: `assignDateType` first rebinds the value to the
colon-normalized string, so "bad:x" comes back as "bad x". -/
theorem assignDateType_mutation_counterexample :
    assignDateType parseDateModel "bad:x" = CellVal.s "bad x" ∧
      ("bad x" : String) ≠ "bad:x" := by
  decide

/-- Helper: the colon replacement is the identity on colon-free strings. -/
theorem replaceAux_of_not_mem (l : List Char) (h : ':' ∉ l) :
    replaceFirstColon.replaceAux l = l := by
  induction l with
  | nil => rfl
  | cons c cs ih =>
    have hc : ¬ c = ':' := fun hh => h (hh ▸ List.mem_cons_self c cs)
    have hcs : ':' ∉ cs := fun hh => h (List.mem_cons_of_mem c hh)
    simp [replaceFirstColon.replaceAux, hc, ih hcs]

/-- C8 (amended): when the parser fails, `__assignDateType` is non-fatal and
returns the colon-normalized raw string (the first colon replaced by a
space); this equals the original raw string exactly when the original
contains no colon. -/
theorem assignDateType_failure_amended (parse : String → Option String) (value : String)
    (h : parse (replaceFirstColon value) = none) :
    assignDateType parse value = CellVal.s (replaceFirstColon value) ∧
      (':' ∉ value.data → replaceFirstColon value = value) := by
  constructor
  · simp [assignDateType, h]
  · intro hninl
    show String.mk (replaceFirstColon.replaceAux value.data) = value
    rw [replaceAux_of_not_mem value.data hninl]

/-- C8 witness: the amended theorem at the concrete failing input "bad:x". -/
theorem assignDateType_failure_witness :
    parseDateModel (replaceFirstColon "bad:x") = none ∧
      (assignDateType parseDateModel "bad:x" = CellVal.s (replaceFirstColon "bad:x") ∧
        (':' ∉ ("bad:x" : String).data → replaceFirstColon "bad:x" = "bad:x")) :=
  ⟨by decide, assignDateType_failure_amended parseDateModel "bad:x" (by decide)⟩

/-- C9: under the well-formedness of a real mapped record set (distinct
table ids, injective table naming), reshaping with
`rowwise_by_name_with_cardinality` — in both `__transformTableData` and
`__shapeRowwiseByNameWithCard` — gives every table the value
`collapseCard unitCard renamedRows`, and `collapseCard` yields a bare row
object exactly when the table is unit-cardinality with exactly one row;
any other combination yields a list. -/
theorem cardinality_collapse_iff (sD : SchemaDef) (sa : SchemaAccess)
    (tdd : TableData) (tId : String) (rows : List Row)
    (hnd : (dKeys tdd).Nodup)
    (hinj1 : ∀ t1 ∈ dKeys tdd, ∀ t2 ∈ dKeys tdd,
      sD.getTableName t1 = sD.getTableName t2 → t1 = t2)
    (hinj2 : ∀ t1 ∈ dKeys tdd, ∀ t2 ∈ dKeys tdd,
      sa.schemaName t1 = sa.schemaName t2 → t1 = t2)
    (hget : dGet tdd tId = some rows) :
    dGet (transformTableData sD "rowwise_by_name_with_cardinality" tdd)
        (sD.getTableName tId)
      = some (collapseCard (sD.hasUnitCardinality tId)
          (rows.map (renameRow ((sD.getTable tId).getAttributeName)))) ∧
    dGet (shapeRowwiseByNameWithCard sa tdd) (sa.schemaName tId)
      = some (collapseCard (sa.hasUnitCardinality tId)
          (rows.map (renameRow (sa.attributeName tId)))) ∧
    (∀ (u : Bool) (l : List Row) (r : Row),
      collapseCard u l = OutVal.one r ↔ u = true ∧ l = [r]) := by
  refine ⟨?_, ?_, fun u l r => collapseCard_eq_one_iff u l r⟩
  · rw [transformTableData_card]
    exact dGet_build_at tdd (fun t => sD.getTableName t)
      (fun e => collapseCard (sD.hasUnitCardinality e.1)
        (e.2.map (renameRow ((sD.getTable e.1).getAttributeName))))
      tId rows hnd hinj1 hget
  · show dGet (tdd.foldl _ []) (sa.schemaName tId) = _
    exact dGet_build_at tdd (fun t => sa.schemaName t)
      (fun e => collapseCard (sa.hasUnitCardinality e.1)
        (e.2.map (renameRow (sa.attributeName e.1))))
      tId rows hnd hinj2 hget

/-- C10: every (successful) per-document mapping of `processDocuments`
carries the reserved key `__CONTAINER_NAME__` holding the source container's
name, and every one of `fetchDocuments` carries `__INPUT_PATH__` holding the
source path, in one-to-one order-preserving correspondence with the inputs;
the reserved key is inserted into the styled dictionary, so all other keys
of the styled output coexist with it unchanged, whatever the style. -/
theorem documents_reserved_keys :
    (∀ parse f sD excl sel style (containers : List Container) acc0 out,
      processDocuments parse f sD excl sel style containers acc0 = Except.ok out →
      List.Forall₂ (fun (doc : Dict String OutVal) (c : Container) =>
        dGet doc "__CONTAINER_NAME__" = some (OutVal.str c.name) ∧
        ∃ td, doc = dInsert td "__CONTAINER_NAME__" (OutVal.str c.name) ∧
          ∀ k2, k2 ≠ "__CONTAINER_NAME__" → dGet doc k2 = dGet td k2)
        out.1 containers) ∧
    (∀ readFile parse f sD excl sel style (paths : List String) acc0 out,
      fetchDocuments readFile parse f sD excl sel style paths acc0 = Except.ok out →
      List.Forall₂ (fun (doc : Dict String OutVal) (p : String) =>
        dGet doc "__INPUT_PATH__" = some (OutVal.str p) ∧
        ∃ td, doc = dInsert td "__INPUT_PATH__" (OutVal.str p) ∧
          ∀ k2, k2 ≠ "__INPUT_PATH__" → dGet doc k2 = dGet td k2)
        out.1 paths) := by
  constructor
  · intro parse f sD excl sel style containers acc0 out h
    rcases foldDocs_aux (fun acc c => processInternal parse f sD excl sel [c] acc)
        (transformTableData sD style) "__CONTAINER_NAME__" (fun c : Container => c.name)
        containers ([], [], acc0) out h with ⟨suffix, hout, hfa⟩
    rw [show out.1 = suffix by simpa using hout]
    refine hfa.imp ?_
    rintro doc c ⟨td, htd⟩
    subst htd
    exact ⟨dGet_insert_self td _ _, td, rfl,
      fun k2 hk2 => dGet_insert_ne td _ _ k2 (Ne.symm hk2)⟩
  · intro readFile parse f sD excl sel style paths acc0 out h
    rcases foldDocs_aux
        (fun acc p => fetchInternal readFile parse f sD excl sel [p] acc)
        (transformTableData sD style) "__INPUT_PATH__" (fun p : String => p)
        paths ([], [], acc0) out h with ⟨suffix, hout, hfa⟩
    rw [show out.1 = suffix by simpa using hout]
    refine hfa.imp ?_
    rintro doc p ⟨td, htd⟩
    subst htd
    exact ⟨dGet_insert_self td _ _, td, rfl,
      fun k2 hk2 => dGet_insert_ne td _ _ k2 (Ne.symm hk2)⟩

/-- C10 witness: the reserved-key theorem at a concrete one-container run. -/
theorem documents_reserved_keys_witness :
    List.Forall₂ (fun (doc : Dict String OutVal) (c : Container) =>
      dGet doc "__CONTAINER_NAME__" = some (OutVal.str c.name) ∧
      ∃ td, doc = dInsert td "__CONTAINER_NAME__" (OutVal.str c.name) ∧
        ∀ k2, k2 ≠ "__CONTAINER_NAME__" → dGet doc k2 = dGet td k2)
      ([[("T", OutVal.rows [[("A1", CellVal.s "N"), ("A2", CellVal.s "v2B"),
          ("A3", CellVal.s "v3")]]),
         ("__CONTAINER_NAME__", OutVal.str "D1")]] : List (Dict String OutVal))
      [contMerge] :=
  documents_reserved_keys.1 parseNone filtersNone sDFix [] [] "rowwise_by_id"
    [contMerge] []
    ([[("T", OutVal.rows [[("A1", CellVal.s "N"), ("A2", CellVal.s "v2B"),
        ("A3", CellVal.s "v3")]]),
       ("__CONTAINER_NAME__", OutVal.str "D1")]], ["D1"], [])
    (by decide)

/-- C9 witness: the collapse theorem at a concrete one-row unit-cardinality
table. -/
theorem cardinality_collapse_witness :
    dGet (transformTableData sDFix "rowwise_by_name_with_cardinality" tddFix)
        (sDFix.getTableName "T")
      = some (collapseCard (sDFix.hasUnitCardinality "T")
          ([[("A1", CellVal.s "x")]].map (renameRow ((sDFix.getTable "T").getAttributeName)))) ∧
    dGet (shapeRowwiseByNameWithCard saCardFix tddFix) (saCardFix.schemaName "T")
      = some (collapseCard (saCardFix.hasUnitCardinality "T")
          ([[("A1", CellVal.s "x")]].map (renameRow (saCardFix.attributeName "T")))) ∧
    (∀ (u : Bool) (l : List Row) (r : Row),
      collapseCard u l = OutVal.one r ↔ u = true ∧ l = [r]) :=
  cardinality_collapse_iff sDFix saCardFix tddFix "T" [[("A1", CellVal.s "x")]]
    (by decide)
    (by intro t1 ht1 t2 ht2 h; simpa using h)
    (by intro t1 ht1 t2 ht2 h; simpa using h)
    (by decide)

/-- C2 (amended): for a single-parent-item slice filter whose enumeration
succeeds with nonempty, duplicate-free, truthy parent values, with every
slice-extra table present in the data and absent from the slice index,
injective table naming, duplicate-free data and slice-index keys, every
truthy child value of a single-parent-key table enumerated, indexed
non-extra tables non-mandatory, and at most one matching row per partition
for slice-unit-cardinality tables, the one-pass partitioner succeeds and
returns one partition per enumerated value, in enumeration order, each
extensionally equal to the naive cardinality slicer's partition for the
corresponding single-value slice tuple. -/
theorem onePass_naive_equiv_amended (sa : SchemaAccess) (sd : SliceDef)
    (data : TableData) (p : ParentItem) (pvs : List CellVal)
    (h2 : sliceParentVals data sd = Except.ok (pvs.map (fun v => [(p, v)])))
    (h3 : pvs ≠ []) (h4 : pvs.Nodup) (h5 : ∀ v ∈ pvs, v.truthy = true)
    (h6 : ∀ t ∈ sd.extraIds, dContains data t = true)
    (h7 : ∀ t ∈ sd.extraIds, dContains sd.sliceIndex t = false)
    (h8 : ∀ t1 ∈ dKeys data, ∀ t2 ∈ dKeys data,
      sa.schemaName t1 = sa.schemaName t2 → t1 = t2)
    (h9 : (dKeys data).Nodup)
    (h10 : (dKeys sd.sliceIndex).Nodup)
    (h11 : ∀ e ∈ skdSpec data sd.sliceIndex p, ∀ r ∈ (dGet data e.1).getD [],
      closedVals pvs e.2 r = true)
    (h12 : ∀ t ∈ dKeys sd.sliceIndex, sd.isSliceExtra t = false →
      sa.isMandatory t = false)
    (h13 : ∀ e ∈ skdSpec data sd.sliceIndex p, sd.hasSliceUnitCard e.1 = true →
      ∀ v ∈ pvs, (matchRows ((dGet data e.1).getD []) e.2 v).length ≤ 1) :
    sliceRowwiseByNameWithCardOnePass sa sd data
      = Except.ok (pvs.map (fun v => partContent sa sd data
          (extrasDictSpec sa sd data) (skdSpec data sd.sliceIndex p) v)) ∧
    ∀ v ∈ pvs,
      DEquiv (partContent sa sd data (extrasDictSpec sa sd data)
          (skdSpec data sd.sliceIndex p) v)
        (sliceRowwiseByNameWithCard sa sd data [(p, v)]) :=
  ⟨onePass_ok_char sa sd data p pvs h2 h3 h4 h5 h6 h7 h8 h10
      (fun e he r hr => closedVals_spec (h11 e he r hr)),
   fun v hv => partContent_naive_DEquiv sa sd data p v h6 h7 h8 h9 h10 h12
     (fun e he hu => h13 e he hu v hv)⟩

/-- C2 witness: the equivalence at a concrete two-value slice with an
indexed unit-cardinality table `T` and a slice-extra table `E`. -/
theorem onePass_naive_equiv_witness :
    sliceRowwiseByNameWithCardOnePass saFix sdEquivW dataEquivW
      = Except.ok (pvsEquivW.map (fun v => partContent saFix sdEquivW dataEquivW
          (extrasDictSpec saFix sdEquivW dataEquivW)
          (skdSpec dataEquivW sdEquivW.sliceIndex ("P", "pid")) v)) ∧
    ∀ v ∈ pvsEquivW,
      DEquiv (partContent saFix sdEquivW dataEquivW
          (extrasDictSpec saFix sdEquivW dataEquivW)
          (skdSpec dataEquivW sdEquivW.sliceIndex ("P", "pid")) v)
        (sliceRowwiseByNameWithCard saFix sdEquivW dataEquivW [(("P", "pid"), v)]) :=
  onePass_naive_equiv_amended saFix sdEquivW dataEquivW ("P", "pid") pvsEquivW
    (by decide) (by decide) (by decide) (by decide) (by decide) (by decide)
    (by decide) (by decide) (by decide) (by decide) (by decide) (by decide)

/-- C3 (amended): for a table with a slice-index entry that is not flagged
slice-extra, present in nodup-keyed data with injective naming, the naive
partition holds exactly the renamed rows passing the slice-membership
test, a row passes iff for every parent value the parent item is listed in
the table's index entry and some listed child attribute holds the value,
and on the one-pass path, under its single-parent support conditions, the
partitioner succeeds and the partition content at the table's renamed key
is exactly the matching-row content for the partition's value. -/
theorem slice_membership_amended (sa : SchemaAccess) (sd : SliceDef)
    (data : TableData) (sv : SliceTuple) (t : String) (rows : List Row)
    (hget : dGet data t = some rows)
    (hc : dContains sd.sliceIndex t = true)
    (hx : sd.isSliceExtra t = false)
    (h8 : ∀ t1 ∈ dKeys data, ∀ t2 ∈ dKeys data,
      sa.schemaName t1 = sa.schemaName t2 → t1 = t2)
    (h9 : (dKeys data).Nodup) :
    dGet (sliceRowwiseByNameWithCard sa sd data sv) (sa.schemaName t)
      = (if (rows.filter (fun r => inSlice t sd.sliceIndex r sv)).length < 1
            && !(sa.isMandatory t) then none
         else some (collapseCard (sd.hasSliceUnitCard t)
           ((rows.filter (fun r => inSlice t sd.sliceIndex r sv)).map
             (renameRow (sa.attributeName t))))) ∧
    (∀ r, inSlice t sd.sliceIndex r sv = true
      ↔ ∃ mD, dGet sd.sliceIndex t = some mD ∧
          ∀ pv ∈ sv, ∃ atL, dGet mD pv.1 = some atL ∧
            ∃ a ∈ atL, dGet r a = some pv.2) ∧
    (∀ p pvs, sliceParentVals data sd = Except.ok (pvs.map (fun v => [(p, v)])) →
      pvs ≠ [] → pvs.Nodup → (∀ v ∈ pvs, v.truthy = true) →
      (∀ t' ∈ sd.extraIds, dContains data t' = true) →
      (∀ t' ∈ sd.extraIds, dContains sd.sliceIndex t' = false) →
      (dKeys sd.sliceIndex).Nodup →
      (∀ e ∈ skdSpec data sd.sliceIndex p, ∀ r ∈ (dGet data e.1).getD [],
        closedVals pvs e.2 r = true) →
      sliceRowwiseByNameWithCardOnePass sa sd data
        = Except.ok (pvs.map (fun v => partContent sa sd data
            (extrasDictSpec sa sd data) (skdSpec data sd.sliceIndex p) v)) ∧
      ∀ v atL, (t, atL) ∈ skdSpec data sd.sliceIndex p →
        dGet (partContent sa sd data (extrasDictSpec sa sd data)
            (skdSpec data sd.sliceIndex p) v) (sa.schemaName t)
          = if (matchRows rows atL v).isEmpty then none
            else some (splitEntryVal (sd.hasSliceUnitCard t) (sa.attributeName t)
              (matchRows rows atL v))) := by
  refine ⟨?_, fun r => inSlice_iff t sd.sliceIndex r sv, ?_⟩
  · rw [dGet_naive_at sa sd data sv t rows hget h8 h9]
    simp only [naiveEntry]
    rw [if_neg (show ¬((!dContains sd.sliceIndex t
        && !sd.isSliceExtra t) = true) from by simp [hc])]
    have hstr : sliceTableRows sa sd t rows sv
        = (rows.filter (fun r => inSlice t sd.sliceIndex r sv)).map
            (renameRow (sa.attributeName t)) := by
      rw [sliceTableRows]
      congr 1
      apply List.filter_congr
      intro r _
      rw [hx]
      simp
    rw [hstr, List.length_map]
  · intro p pvs hsvd hne hnd htr hex hnix hsix hclo
    refine ⟨onePass_ok_char sa sd data p pvs hsvd hne hnd htr hex hnix h8 hsix
      (fun e he r hr => closedVals_spec (hclo e he r hr)), ?_⟩
    intro v atL hmem
    have hsknd : (dKeys (skdSpec data sd.sliceIndex p)).Nodup :=
      skdSpec_keys_nodup data sd.sliceIndex p hsix
    have htk : t ∈ dKeys data := List.mem_map.mpr ⟨(t, rows), mem_of_dGet hget, rfl⟩
    have huniq : ∀ e' ∈ skdSpec data sd.sliceIndex p,
        sa.schemaName e'.1 = sa.schemaName (t, atL).1 → e' = (t, atL) := by
      intro e' he' heq
      have h1 : e'.1 = t := h8 e'.1
        ((dContains_iff_mem_keys data e'.1).mp (mem_skdSpec he').2.1) t htk heq
      exact nodup_keys_entry_eq hsknd he' hmem h1
    have hsub : ∀ t' ∈ sd.extraIds, t' ∈ dKeys data :=
      fun t' ht' => (dContains_iff_mem_keys data t').mp (hex t' ht')
    have hbase : dGet (extrasDictSpec sa sd data) (sa.schemaName (t, atL).1)
        = none := by
      apply (dGet_extrasDictSpec sa sd data h8 hsub).2
      intro t' ht' heq
      have h1 : t' = t := h8 t' (hsub t' ht') t htk heq
      have h2 := hnix t' ht'
      rw [h1, hc] at h2
      cases h2
    rw [show sa.schemaName t = sa.schemaName (t, atL).1 from rfl,
      dGet_partContent_mem sa sd data _ _ v (t, atL) hmem huniq hbase]
    simp only [entryOpt]
    rw [hget]
    simp only [Option.getD_some]

/-- C3 witness: the membership characterization at a concrete slice with
the indexed table `T` and a fixed partition tuple. -/
theorem slice_membership_witness :
    (dGet (sliceRowwiseByNameWithCard saFix sdEquivW dataEquivW
        [(("P", "pid"), CellVal.s "1")]) (saFix.schemaName "T")
      = (if (rowsTW.filter (fun r => inSlice "T" sdEquivW.sliceIndex r
                [(("P", "pid"), CellVal.s "1")])).length < 1
            && !(saFix.isMandatory "T") then none
         else some (collapseCard (sdEquivW.hasSliceUnitCard "T")
           ((rowsTW.filter (fun r => inSlice "T" sdEquivW.sliceIndex r
                [(("P", "pid"), CellVal.s "1")])).map
             (renameRow (saFix.attributeName "T")))))) ∧
    (∀ r, inSlice "T" sdEquivW.sliceIndex r [(("P", "pid"), CellVal.s "1")] = true
      ↔ ∃ mD, dGet sdEquivW.sliceIndex "T" = some mD ∧
          ∀ pv ∈ ([(("P", "pid"), CellVal.s "1")] : SliceTuple),
            ∃ atL, dGet mD pv.1 = some atL ∧
            ∃ a ∈ atL, dGet r a = some pv.2) ∧
    (∀ p pvs, sliceParentVals dataEquivW sdEquivW
        = Except.ok (pvs.map (fun v => [(p, v)])) →
      pvs ≠ [] → pvs.Nodup → (∀ v ∈ pvs, v.truthy = true) →
      (∀ t' ∈ sdEquivW.extraIds, dContains dataEquivW t' = true) →
      (∀ t' ∈ sdEquivW.extraIds, dContains sdEquivW.sliceIndex t' = false) →
      (dKeys sdEquivW.sliceIndex).Nodup →
      (∀ e ∈ skdSpec dataEquivW sdEquivW.sliceIndex p,
        ∀ r ∈ (dGet dataEquivW e.1).getD [], closedVals pvs e.2 r = true) →
      sliceRowwiseByNameWithCardOnePass saFix sdEquivW dataEquivW
        = Except.ok (pvs.map (fun v => partContent saFix sdEquivW dataEquivW
            (extrasDictSpec saFix sdEquivW dataEquivW)
            (skdSpec dataEquivW sdEquivW.sliceIndex p) v)) ∧
      ∀ v atL, ("T", atL) ∈ skdSpec dataEquivW sdEquivW.sliceIndex p →
        dGet (partContent saFix sdEquivW dataEquivW
            (extrasDictSpec saFix sdEquivW dataEquivW)
            (skdSpec dataEquivW sdEquivW.sliceIndex p) v) (saFix.schemaName "T")
          = if (matchRows rowsTW atL v).isEmpty then none
            else some (splitEntryVal (sdEquivW.hasSliceUnitCard "T")
              (saFix.attributeName "T") (matchRows rowsTW atL v))) :=
  slice_membership_amended saFix sdEquivW dataEquivW
    [(("P", "pid"), CellVal.s "1")] "T" rowsTW
    (by decide) (by decide) (by decide) (by decide) (by decide)

end RcsbDb
